import Mathlib

/-!
# Skip list (`namrapatel/skiplist`): shallow embedding and verification

The Go sources `node.go` and `skiplist.go` are embedded as follows.

* Memory is an arena `Heap α = List (Node α)`; a `*Node` is `Option Nat`
  (`none` is `nil`, `some p` is the node stored at index `p`).  Allocation
  (`newNode`) appends to the arena, so the fresh pointer is the old arena length.
* `Interface` values are a type `α` with decidable equality (the key equality
  of `map[any]*Node`) and a comparator `less : α → α → Bool` (the method `Less`).
  The header's `nil` value is `none`.
* Go `int` is `Int` for spans, ranks and lengths (64-bit overflow would need
  more than `2^63` nodes) and `Nat` for level indices.
* Every operation returns `Option`: `none` stands for a Go panic (nil
  dereference, index out of range) or for a traversal loop that used up its fuel.
  Traversal loops get `heap.length` units of fuel; the theorems show that on every
  reachable list this is enough, i.e. the operations do return.
* The mutex is not modelled: every operation runs to completion under the lock.
-/

namespace Skiplist

/-! ## node.go -/

def SKIPLIST_MAXLEVEL : Nat := 32
def SKIPLIST_BRANCH : Nat := 4

/-- The Go struct `skiplistLevel`. -/
structure skiplistLevel where
  forward : Option Nat
  span : Int
deriving DecidableEq, Repr

/-- The Go struct `Node`; `Value = none` is the `nil` interface value. -/
structure Node (α : Type) where
  Value : Option α
  backward : Option Nat
  level : List skiplistLevel
deriving DecidableEq, Repr

/-- The arena of allocated nodes. -/
abbrev Heap (α : Type) := List (Node α)

/-- The Go function `newNode`: `level` zero-valued level entries. -/
def newNode {α : Type} (level : Nat) (v : Option α) : Node α :=
  { Value := v, backward := none, level := List.replicate level ⟨none, 0⟩ }

/-- Read `p.level[i]`. -/
def getLevel {α : Type} (heap : Heap α) (p i : Nat) : Option skiplistLevel :=
  match heap[p]? with
  | none => none
  | some n => n.level[i]?

/-- Read `p.Value` (`none` when `p` is not allocated or its value is `nil`). -/
def getValue {α : Type} (heap : Heap α) (p : Nat) : Option α :=
  match heap[p]? with
  | none => none
  | some n => n.Value

/-- Overwrite `p.level[i]`. -/
def setLevel {α : Type} (heap : Heap α) (p i : Nat) (l : skiplistLevel) : Option (Heap α) :=
  match heap[p]? with
  | none => none
  | some n =>
    if i < n.level.length then
      some (heap.set p { n with level := n.level.set i l })
    else none

/-- The assignment `p.level[i].forward = f`. -/
def setForward {α : Type} (heap : Heap α) (p i : Nat) (f : Option Nat) : Option (Heap α) :=
  match getLevel heap p i with
  | none => none
  | some l => setLevel heap p i { l with forward := f }

/-- The assignment `p.level[i].span = sp`. -/
def setSpan {α : Type} (heap : Heap α) (p i : Nat) (sp : Int) : Option (Heap α) :=
  match getLevel heap p i with
  | none => none
  | some l => setLevel heap p i { l with span := sp }

/-- The assignment `p.backward = b`. -/
def setBackward {α : Type} (heap : Heap α) (p : Nat) (b : Option Nat) : Option (Heap α) :=
  match heap[p]? with
  | none => none
  | some n => some (heap.set p { n with backward := b })

/-- The Go method `Node.Next`. -/
def Next {α : Type} (heap : Heap α) (e : Nat) : Option (Option Nat) :=
  (getLevel heap e 0).map (fun l => l.forward)

/-- The Go method `Node.Prev`. -/
def Prev {α : Type} (heap : Heap α) (e : Nat) : Option (Option Nat) :=
  (heap[e]?).map (fun n => n.backward)

/-- The loop of `randomLevel`: `rnd` lists the values `rand.Int31()` yields
next; the loop has no bound of its own, and running out of draws is `none`. -/
def randomLevelLoop : List Nat → Nat → Option Nat
  | [], _ => none
  | r :: rs, level =>
    if (r &&& 0xFFFF) % SKIPLIST_BRANCH = 0 then randomLevelLoop rs (level + 1)
    else some level

/-- The Go function `randomLevel`. -/
def randomLevel (rnd : List Nat) : Option Nat :=
  match randomLevelLoop rnd 1 with
  | none => none
  | some level => if level < SKIPLIST_MAXLEVEL then some level else some SKIPLIST_MAXLEVEL

/-! ## skiplist.go -/

/-- The Go struct `SkipList` (without the mutex), together with the arena. -/
structure SkipList (α : Type) where
  heap : Heap α
  header : Nat
  tail : Option Nat
  update : List (Option Nat)
  rank : List Int
  length : Int
  level : Nat
  nodes : List (α × Nat)

/-- Lookup in the Go map `sl.nodes`. -/
def mapGet {α : Type} [DecidableEq α] (m : List (α × Nat)) (k : α) : Option Nat :=
  match m with
  | [] => none
  | (k', p) :: rest => if k' = k then some p else mapGet rest k

/-- The map assignment `m[k] = p`. -/
def mapSet {α : Type} [DecidableEq α] (m : List (α × Nat)) (k : α) (p : Nat) : List (α × Nat) :=
  (k, p) :: m.filter (fun e => decide (e.1 ≠ k))

/-- The Go function `New`. -/
def New {α : Type} : SkipList α :=
  { heap := [newNode SKIPLIST_MAXLEVEL none]
    header := 0
    tail := none
    update := List.replicate SKIPLIST_MAXLEVEL none
    rank := List.replicate SKIPLIST_MAXLEVEL 0
    length := 0
    level := 1
    nodes := [] }

/-- The Go method `Init`: a new header is allocated; `sl.nodes` is not assigned. -/
def Init {α : Type} (sl : SkipList α) : SkipList α :=
  { sl with
    heap := sl.heap ++ [newNode SKIPLIST_MAXLEVEL none]
    header := sl.heap.length
    tail := none
    update := List.replicate SKIPLIST_MAXLEVEL none
    rank := List.replicate SKIPLIST_MAXLEVEL 0
    length := 0
    level := 1 }

/-- The Go method `Front`. -/
def Front {α : Type} (sl : SkipList α) : Option (Option Nat) :=
  (getLevel sl.heap sl.header 0).map (fun l => l.forward)

/-- The Go method `Back`. -/
def Back {α : Type} (sl : SkipList α) : Option Nat := sl.tail

/-- The Go method `Len`. -/
def Len {α : Type} (sl : SkipList α) : Int := sl.length

/-- A counting loop `for i := lo; i < lo + n; i++ { body }`. -/
def forUp {σ : Type} (body : Nat → σ → Option σ) : Nat → Nat → σ → Option σ
  | 0, _, st => some st
  | n + 1, i, st =>
    match body i st with
    | none => none
    | some st' => forUp body n (i + 1) st'

/-- A counting loop `for i := n - 1; i >= 0; i-- { body }`. -/
def forDown {σ : Type} (body : Nat → σ → Option σ) : Nat → σ → Option σ
  | 0, st => some st
  | i + 1, st =>
    match body i st with
    | none => none
    | some st' => forDown body i st'

/-- The inner loop of `find`:
`for x.level[i].forward != nil && x.level[i].forward.Value.Less(v) { x = x.level[i].forward }`. -/
def findAdvance {α : Type} (less : α → α → Bool) (v : α) (heap : Heap α) (i : Nat) :
    Nat → Nat → Option Nat
  | 0, _ => none
  | fuel + 1, x =>
    match getLevel heap x i with
    | none => none
    | some l =>
      match l.forward with
      | none => some x
      | some f =>
        match getValue heap f with
        | none => none
        | some fv => if less fv v then findAdvance less v heap i fuel f else some x

/-- The body of the outer loop of `find` at level `i`; the state is `(x, sl.update)`. -/
def findBody {α : Type} (less : α → α → Bool) (v : α) (heap : Heap α) (i : Nat)
    (st : Nat × List (Option Nat)) : Option (Nat × List (Option Nat)) :=
  match findAdvance less v heap i heap.length st.1 with
  | none => none
  | some x => if i < st.2.length then some (x, st.2.set i (some x)) else none

/-- The Go method `find`: returns `x.level[0].forward` and the list with `sl.update` rewritten. -/
def find {α : Type} (less : α → α → Bool) (sl : SkipList α) (v : α) :
    Option (Option Nat × SkipList α) :=
  match forDown (findBody less v sl.heap) sl.level (sl.header, sl.update) with
  | none => none
  | some (x, upd) =>
    match getLevel sl.heap x 0 with
    | none => none
    | some l => some (l.forward, { sl with update := upd })

/-- The Go method `Find`: the node (or `nil`) and the error (or `nil`). -/
def Find {α : Type} (less : α → α → Bool) (sl : SkipList α) (v : α) :
    Option ((Option Nat × Option String) × SkipList α) :=
  match find less sl v with
  | none => none
  | some (none, sl') => some ((none, some "node not found"), sl')
  | some (some x, sl') =>
    match getValue sl'.heap x with
    | none => none
    | some xv =>
      if !less v xv then some ((some x, none), sl')
      else some ((none, some "node not found"), sl')

/-- The inner loop of the descent of `Insert`, with the running value of `sl.rank[i]`. -/
def insertAdvance {α : Type} (less : α → α → Bool) (v : α) (heap : Heap α) (i : Nat) :
    Nat → Nat → Int → Option (Nat × Int)
  | 0, _, _ => none
  | fuel + 1, x, r =>
    match getLevel heap x i with
    | none => none
    | some l =>
      match l.forward with
      | none => some (x, r)
      | some f =>
        match getValue heap f with
        | none => none
        | some fv =>
          if less fv v then insertAdvance less v heap i fuel f (r + l.span) else some (x, r)

/-- The body of the descent of `Insert` at level `i`; the state is `(x, sl.update, sl.rank)`. -/
def insertBody {α : Type} (less : α → α → Bool) (v : α) (heap : Heap α) (level : Nat) (i : Nat)
    (st : Nat × List (Option Nat) × List Int) : Option (Nat × List (Option Nat) × List Int) :=
  if i < st.2.2.length ∧ i < st.2.1.length then
    match (if i + 1 = level then some 0 else st.2.2[i + 1]?) with
    | none => none
    | some r0 =>
      match insertAdvance less v heap i heap.length st.1 r0 with
      | none => none
      | some (x, r) => some (x, st.2.1.set i (some x), st.2.2.set i r)
  else none

/-- The body of the loop of `Insert` that activates the header levels `sl.level ≤ i < level`;
the state is `(heap, sl.update, sl.rank)`. -/
def raiseBody {α : Type} (header : Nat) (length : Int) (i : Nat)
    (st : Heap α × List (Option Nat) × List Int) : Option (Heap α × List (Option Nat) × List Int) :=
  if i < st.2.2.length ∧ i < st.2.1.length then
    match setSpan st.1 header i length with
    | none => none
    | some heap => some (heap, st.2.1.set i (some header), st.2.2.set i 0)
  else none

/-- The body of the splice loop of `Insert` at level `i < level`. -/
def spliceBody {α : Type} (x : Nat) (update : List (Option Nat)) (rank : List Int) (i : Nat)
    (heap : Heap α) : Option (Heap α) :=
  match update[i]?, rank[0]?, rank[i]? with
  | some (some u), some r0, some ri =>
    match getLevel heap u i with
    | none => none
    | some lu =>
      match setForward heap x i lu.forward with
      | none => none
      | some h1 =>
        match setForward h1 u i (some x) with
        | none => none
        | some h2 =>
          match getLevel h2 u i with
          | none => none
          | some lu2 =>
            match setSpan h2 x i (lu2.span - r0 + ri) with
            | none => none
            | some h3 => setSpan h3 u i (r0 - ri + 1)
  | _, _, _ => none

/-- The body of the loop of `Insert` over the untouched levels: `sl.update[i].level[i].span++`. -/
def bumpBody {α : Type} (update : List (Option Nat)) (i : Nat) (heap : Heap α) : Option (Heap α) :=
  match update[i]? with
  | some (some u) =>
    match getLevel heap u i with
    | none => none
    | some lu => setSpan heap u i (lu.span + 1)
  | _ => none

/-- The Go method `Insert` after `level := randomLevel()` has produced `level`.
Returns the new node and the list. -/
def insertLevel {α : Type} [DecidableEq α] (less : α → α → Bool) (sl : SkipList α) (v : α)
    (level : Nat) : Option (Nat × SkipList α) :=
  match forDown (insertBody less v sl.heap sl.level) sl.level (sl.header, sl.update, sl.rank) with
  | none => none
  | some (_, upd0, rk0) =>
    match (if level > sl.level then
            forUp (raiseBody sl.header sl.length) (level - sl.level) sl.level (sl.heap, upd0, rk0)
          else some (sl.heap, upd0, rk0)) with
    | none => none
    | some (heap1, upd, rk) =>
      let slLevel := if level > sl.level then level else sl.level
      let x := heap1.length
      let heap2 := heap1 ++ [newNode level (some v)]
      let nodes := mapSet sl.nodes v x
      match forUp (spliceBody x upd rk) level 0 heap2 with
      | none => none
      | some heap3 =>
        match forUp (bumpBody upd) (slLevel - level) level heap3 with
        | none => none
        | some heap4 =>
          match upd[0]? with
          | some (some u0) =>
            match setBackward heap4 x (if u0 = sl.header then none else some u0) with
            | none => none
            | some heap5 =>
              match getLevel heap5 x 0 with
              | none => none
              | some lx =>
                match lx.forward with
                | some f =>
                  match setBackward heap5 f (some x) with
                  | none => none
                  | some heap6 =>
                    some (x, { heap := heap6, header := sl.header, tail := sl.tail, update := upd,
                               rank := rk, length := sl.length + 1, level := slLevel,
                               nodes := nodes })
                | none =>
                  some (x, { heap := heap5, header := sl.header, tail := some x, update := upd,
                             rank := rk, length := sl.length + 1, level := slLevel,
                             nodes := nodes })
          | _ => none

/-- The Go method `Insert`; `rnd` lists the values that `rand.Int31()` yields next. -/
def Insert {α : Type} [DecidableEq α] (less : α → α → Bool) (sl : SkipList α) (v : α)
    (rnd : List Nat) : Option (Nat × SkipList α) :=
  match randomLevel rnd with
  | none => none
  | some level => insertLevel less sl v level

/-- The body of the first loop of `deleteNode` at level `i`. -/
def unlinkBody {α : Type} (e : Nat) (update : List (Option Nat)) (i : Nat) (heap : Heap α) :
    Option (Heap α) :=
  match update[i]? with
  | some (some u) =>
    match getLevel heap u i with
    | none => none
    | some lu =>
      if lu.forward = some e then
        match getLevel heap e i with
        | none => none
        | some le =>
          match setSpan heap u i (lu.span + (le.span - 1)) with
          | none => none
          | some h1 =>
            match getLevel h1 e i with
            | none => none
            | some le2 => setForward h1 u i le2.forward
      else setSpan heap u i (lu.span - 1)
  | _ => none

/-- The loop `for sl.level > 1 && sl.header.level[sl.level-1].forward == nil { sl.level-- }`. -/
def shrinkLevel {α : Type} (heap : Heap α) (header : Nat) : Nat → Option Nat
  | 0 => some 0
  | l + 1 =>
    if l + 1 > 1 then
      match getLevel heap header l with
      | none => none
      | some lh => if lh.forward = none then shrinkLevel heap header l else some (l + 1)
    else some (l + 1)

/-- The Go method `deleteNode` (called with `update = sl.update`). -/
def deleteNode {α : Type} (sl : SkipList α) (e : Nat) (update : List (Option Nat)) :
    Option (SkipList α) :=
  match forUp (unlinkBody e update) sl.level 0 sl.heap with
  | none => none
  | some heap1 =>
    match heap1[e]?, getLevel heap1 e 0 with
    | some en, some le =>
      match (match le.forward with
             | some f => (setBackward heap1 f en.backward).map (fun h => (h, sl.tail))
             | none => some (heap1, en.backward)) with
      | none => none
      | some (heap2, tail) =>
        match shrinkLevel heap2 sl.header sl.level with
        | none => none
        | some level =>
          some { sl with heap := heap2, tail := tail, level := level, length := sl.length - 1 }
    | _, _ => none

/-- The Go method `Remove`; the result is the returned value (`none` is `nil`) and the list. -/
def Remove {α : Type} (less : α → α → Bool) (sl : SkipList α) (e : Nat) :
    Option (Option α × SkipList α) :=
  match getValue sl.heap e with
  | none => none
  | some ev =>
    match find less sl ev with
    | none => none
    | some (x, sl1) =>
      if x = some e then
        match getValue sl1.heap e with
        | none => none
        | some xv =>
          if !less ev xv then
            match deleteNode sl1 e sl1.update with
            | none => none
            | some sl2 => some (some xv, sl2)
          else some (none, sl1)
      else some (none, sl1)

/-- The Go method `Delete`; the result is the returned value (`none` is `nil`) and the list. -/
def Delete {α : Type} (less : α → α → Bool) (sl : SkipList α) (v : α) :
    Option (Option α × SkipList α) :=
  match find less sl v with
  | none => none
  | some (none, sl1) => some (none, sl1)
  | some (some x, sl1) =>
    match getValue sl1.heap x with
    | none => none
    | some xv =>
      if !less v xv then
        match deleteNode sl1 x sl1.update with
        | none => none
        | some sl2 => some (some xv, sl2)
      else some (none, sl1)

/-- The inner loop of `GetRank`. -/
def rankAdvance {α : Type} (less : α → α → Bool) (v : α) (heap : Heap α) (i : Nat) :
    Nat → Nat → Int → Option (Nat × Int)
  | 0, _, _ => none
  | fuel + 1, x, rank =>
    match getLevel heap x i with
    | none => none
    | some l =>
      match l.forward with
      | none => some (x, rank)
      | some f =>
        match getValue heap f with
        | none => none
        | some fv =>
          if less fv v then rankAdvance less v heap i fuel f (rank + l.span) else some (x, rank)

/-- The outer loop of `GetRank`, levels `n - 1` down to `0`, with its early return. -/
def rankLoop {α : Type} (less : α → α → Bool) (v : α) (heap : Heap α) :
    Nat → Nat → Int → Option Int
  | 0, _, _ => some 0
  | i + 1, x, rank =>
    match rankAdvance less v heap i heap.length x rank with
    | none => none
    | some (x1, rank1) =>
      match getLevel heap x1 i with
      | none => none
      | some l =>
        match l.forward with
        | none => rankLoop less v heap i x1 rank1
        | some f =>
          match getValue heap f with
          | none => none
          | some fv =>
            if !less fv v && !less v fv then some (rank1 + l.span)
            else rankLoop less v heap i x1 rank1

/-- The Go method `GetRank`. -/
def GetRank {α : Type} (less : α → α → Bool) (sl : SkipList α) (v : α) : Option Int :=
  rankLoop less v sl.heap sl.level sl.header 0

/-- The inner loop of `GetNodeByRank`. -/
def byRankAdvance {α : Type} (heap : Heap α) (rank : Int) (i : Nat) :
    Nat → Nat → Int → Option (Nat × Int)
  | 0, _, _ => none
  | fuel + 1, x, traversed =>
    match getLevel heap x i with
    | none => none
    | some l =>
      match l.forward with
      | none => some (x, traversed)
      | some f =>
        if traversed + l.span ≤ rank then byRankAdvance heap rank i fuel f (traversed + l.span)
        else some (x, traversed)

/-- The outer loop of `GetNodeByRank`, levels `n - 1` down to `0`, with its early return. -/
def byRankLoop {α : Type} (heap : Heap α) (rank : Int) : Nat → Nat → Int → Option (Option Nat)
  | 0, _, _ => some none
  | i + 1, x, traversed =>
    match byRankAdvance heap rank i heap.length x traversed with
    | none => none
    | some (x1, t1) => if t1 = rank then some (some x1) else byRankLoop heap rank i x1 t1

/-- The Go method `GetNodeByRank`. -/
def GetNodeByRank {α : Type} (sl : SkipList α) (rank : Int) : Option (Option Nat) :=
  byRankLoop sl.heap rank sl.level sl.header 0

/-- The Go method `GetNodeByKey`: the node (or `nil`) and the error (or `nil`). -/
def GetNodeByKey {α : Type} [DecidableEq α] (sl : SkipList α) (key : α) :
    Option Nat × Option String :=
  match mapGet sl.nodes key with
  | none => (none, some "key not found")
  | some node => (some node, none)


/-! ## Observations on lists -/

/-- The walk `Front()`, then `Next()` repeatedly: the nodes of the level-0 chain
from `p` on, each with its value. -/
def walk {α : Type} (heap : Heap α) : Nat → Option Nat → Option (List (Nat × α))
  | _, none => some []
  | 0, some _ => none
  | fuel + 1, some p =>
    match getValue heap p, Next heap p with
    | some a, some nx =>
      match walk heap fuel nx with
      | none => none
      | some rest => some ((p, a) :: rest)
    | _, _ => none

/-- The level-0 chain of the list: its nodes in order, each with its value. -/
def chain {α : Type} (sl : SkipList α) : Option (List (Nat × α)) :=
  match Front sl with
  | none => none
  | some f => walk sl.heap sl.heap.length f

/-- Read the number of levels of node `p`. -/
def getHeight {α : Type} (heap : Heap α) (p : Nat) : Option Nat :=
  (heap[p]?).map (fun n => n.level.length)

/-- Comparator equality: neither value is `Less` than the other. -/
def cmpEq {α : Type} (less : α → α → Bool) (a b : α) : Prop :=
  less a b = false ∧ less b a = false

/-- A strict weak order: asymmetric and negatively transitive. -/
structure StrictWeak {α : Type} (less : α → α → Bool) : Prop where
  asymm : ∀ a b, less a b = true → less b a = false
  negtrans : ∀ a b c, less a b = true → less a c = true ∨ less c b = true

/-- A strict (partial) order: asymmetric and transitive. -/
structure StrictOrder {α : Type} (less : α → α → Bool) : Prop where
  asymm : ∀ a b, less a b = true → less b a = false
  trans : ∀ a b c, less a b = true → less b c = true → less a c = true

/-! ## The abstract list behind a heap -/

/-- One node of the list as the invariant sees it: its address, its value
(`none` for the header) and its height. -/
structure Cell (α : Type) where
  ptr : Nat
  val : Option α
  height : Nat

/-- The level-`i` entry a node must hold when `rest` are the nodes after it:
the first node of `rest` that is higher than `i` and the number of level-0 links
up to it, or `nil` and the number of nodes after it. -/
def link {α : Type} (i : Nat) : List (Cell α) → skiplistLevel
  | [] => ⟨none, 0⟩
  | c :: rest =>
    if i < c.height then ⟨some c.ptr, 1⟩
    else ⟨(link i rest).forward, (link i rest).span + 1⟩

/-- The header seen as a cell. -/
def hcell {α : Type} (header : Nat) : Cell α := ⟨header, none, SKIPLIST_MAXLEVEL⟩

/-- The backward pointer of the node that follows the nodes `a` (header first):
`nil` for the header and for the first element. -/
def prevOf {α : Type} (a : List (Cell α)) : Option Nat :=
  match a with
  | [] => none
  | [_] => none
  | _ :: c :: rest => some ((c :: rest).getLast (List.cons_ne_nil c rest)).ptr

/-- Node `c` is laid out in the heap as the invariant wants: value, backward
pointer `prev`, `c.height` level entries, entry `i` pointing to the next node
above level `i` among `rest`; spans are only meaningful below the list level. -/
def NodeOk {α : Type} (heap : Heap α) (lvl : Nat) (prev : Option Nat) (c : Cell α)
    (rest : List (Cell α)) : Prop :=
  getValue heap c.ptr = c.val ∧ Prev heap c.ptr = some prev ∧
  getHeight heap c.ptr = some c.height ∧
  ∀ i, i < c.height → ∃ l, getLevel heap c.ptr i = some l ∧
    l.forward = (link i rest).forward ∧ (i < lvl → l.span = (link i rest).span)

/-- Every node of `header :: L` is laid out as the invariant wants. -/
def Shape {α : Type} (heap : Heap α) (header lvl : Nat) (L : List (Cell α)) : Prop :=
  ∀ a c b, hcell header :: L = a ++ c :: b → NodeOk heap lvl (prevOf a) c b

/-- The representation invariant: the list `sl` holds exactly the cells `L`,
in this order, on its level-0 chain. -/
structure Rep {α : Type} (sl : SkipList α) (L : List (Cell α)) : Prop where
  shape : Shape sl.heap sl.header sl.level L
  nodup : ((hcell sl.header :: L).map Cell.ptr).Nodup
  vals : ∀ c ∈ L, ∃ a, c.val = some a
  height : ∀ c ∈ L, 1 ≤ c.height ∧ c.height ≤ sl.level
  level_pos : 1 ≤ sl.level
  level_le : sl.level ≤ SKIPLIST_MAXLEVEL
  level_max : sl.level = 1 ∨ ∃ c ∈ L, c.height = sl.level
  length : sl.length = (L.length : Int)
  tail : sl.tail = L.getLast?.map Cell.ptr
  update_len : sl.update.length = SKIPLIST_MAXLEVEL
  rank_len : sl.rank.length = SKIPLIST_MAXLEVEL

/-- The nodes of the abstract list with their values, in order. -/
def pairs {α : Type} (L : List (Cell α)) : List (Nat × α) :=
  L.filterMap (fun c => c.val.map (fun a => (c.ptr, a)))

/-- A traversal loop at level `i` with an arbitrary continuation test on the
target node and the rank reached; the loops of `find`, `Insert`, `GetRank` and
`GetNodeByRank` are instances. -/
def genAdvance {α : Type} (heap : Heap α) (test : Nat → Int → Option Bool) (i : Nat) :
    Nat → Nat → Int → Option (Nat × Int)
  | 0, _, _ => none
  | fuel + 1, x, r =>
    match getLevel heap x i with
    | none => none
    | some l =>
      match l.forward with
      | none => some (x, r)
      | some f =>
        match test f (r + l.span) with
        | none => none
        | some true => genAdvance heap test i fuel f (r + l.span)
        | some false => some (x, r)

/-- The heap `heap'` is `heap` with entry `i` of node `p` replaced by `l`. -/
def LevelUpd {α : Type} (heap heap' : Heap α) (p i : Nat) (l : skiplistLevel) : Prop :=
  heap'.length = heap.length ∧ (∀ q, getValue heap' q = getValue heap q) ∧
  (∀ q, Prev heap' q = Prev heap q) ∧ (∀ q, getHeight heap' q = getHeight heap q) ∧
  ∀ q j, getLevel heap' q j = if q = p ∧ j = i then some l else getLevel heap q j

/-- The heap `heap'` is `heap` with the backward pointer of node `p` replaced by `b`. -/
def BackUpd {α : Type} (heap heap' : Heap α) (p : Nat) (b : Option Nat) : Prop :=
  heap'.length = heap.length ∧ (∀ q, getValue heap' q = getValue heap q) ∧
  (∀ q, Prev heap' q = if q = p then some b else Prev heap q) ∧
  (∀ q, getHeight heap' q = getHeight heap q) ∧
  ∀ q j, getLevel heap' q j = getLevel heap q j

/-- After a descent over the nodes `lo'` (header first): `update[i]` is the last
node of `lo'` above level `i` and `rank[i]` is its position. -/
def UpdAt {α : Type} (lo' : List (Cell α)) (upd : List (Option Nat)) (rk : List Int)
    (i : Nat) : Prop :=
  ∃ a c b, lo' = a ++ c :: b ∧ i < c.height ∧ (∀ e ∈ b, e.height ≤ i) ∧
    upd[i]? = some (some c.ptr) ∧ rk[i]? = some (a.length : Int)

/-- The cells `lo` are all `Less` than `v` and none of the cells `hi` is. -/
def Splits {α : Type} (less : α → α → Bool) (v : α) (lo hi : List (Cell α)) : Prop :=
  (∀ c ∈ lo, ∃ a, c.val = some a ∧ less a v = true) ∧
  (∀ c ∈ hi, ∃ a, c.val = some a ∧ less a v = false)

/-- The level-`i` entries of the nodes `F` (header first) are as the invariant wants. -/
def LinksAt {α : Type} (heap : Heap α) (lvl i : Nat) (F : List (Cell α)) : Prop :=
  ∀ a c b, F = a ++ c :: b → i < c.height → ∃ l, getLevel heap c.ptr i = some l ∧
    l.forward = (link i b).forward ∧ (i < lvl → l.span = (link i b).span)

/-- The values, backward pointers and heights of the nodes `F` (header first)
are as the invariant wants. -/
def BaseOk {α : Type} (heap : Heap α) (F : List (Cell α)) : Prop :=
  ∀ a c b, F = a ++ c :: b →
    getValue heap c.ptr = c.val ∧ Prev heap c.ptr = some (prevOf a) ∧
    getHeight heap c.ptr = some c.height

/-- The heap `heap'` agrees with `heap` on everything but level entries. -/
def LevelFrame {α : Type} (heap heap' : Heap α) : Prop :=
  heap'.length = heap.length ∧ (∀ q, getValue heap' q = getValue heap q) ∧
  (∀ q, Prev heap' q = Prev heap q) ∧ (∀ q, getHeight heap' q = getHeight heap q)

/-- The stored values are in non-decreasing comparator order. -/
def WSorted {α : Type} (less : α → α → Bool) (L : List (Cell α)) : Prop :=
  L.Pairwise (fun c d => ∀ x y, c.val = some x → d.val = some y → less y x = false)

/-- The stored values are in strictly ascending comparator order. -/
def SSorted {α : Type} (less : α → α → Bool) (L : List (Cell α)) : Prop :=
  L.Pairwise (fun c d => ∀ x y, c.val = some x → d.val = some y → less x y = true)

/-! ## Reachable lists -/

/-- The lists reachable from `New()` through the public operations that
change the list or its scratch arrays. -/
inductive Reachable {α : Type} [DecidableEq α] (less : α → α → Bool) : SkipList α → Prop
  | new : Reachable less New
  | init {sl : SkipList α} : Reachable less sl → Reachable less (Init sl)
  | insert {sl sl' : SkipList α} {v : α} {rnd : List Nat} {x : Nat} :
      Reachable less sl → Insert less sl v rnd = some (x, sl') → Reachable less sl'
  | delete {sl sl' : SkipList α} {v : α} {r : Option α} :
      Reachable less sl → Delete less sl v = some (r, sl') → Reachable less sl'
  | remove {sl sl' : SkipList α} {e : Nat} {r : Option α} :
      Reachable less sl → Remove less sl e = some (r, sl') → Reachable less sl'
  | find {sl sl' : SkipList α} {v : α} {r : Option Nat × Option String} :
      Reachable less sl → Find less sl v = some (r, sl') → Reachable less sl'

/-- A run of `Insert` calls, each with its value and the draws of the random source. -/
def insertAll {α : Type} [DecidableEq α] (less : α → α → Bool) :
    SkipList α → List (α × List Nat) → Option (SkipList α)
  | sl, [] => some sl
  | sl, (v, rnd) :: ops =>
    match Insert less sl v rnd with
    | none => none
    | some (_, sl') => insertAll less sl' ops

/-- A run of `Insert` calls that also collects the nodes the calls return. -/
def insertTrace {α : Type} [DecidableEq α] (less : α → α → Bool) :
    SkipList α → List (α × List Nat) → Option (List Nat × SkipList α)
  | sl, [] => some ([], sl)
  | sl, (v, rnd) :: ops =>
    match Insert less sl v rnd with
    | none => none
    | some (x, sl') =>
      match insertTrace less sl' ops with
      | none => none
      | some (xs, sl'') => some (x :: xs, sl'')

/-- The comparator of the natural numbers, used for concrete runs. -/
def lessNat (a b : Nat) : Bool := decide (a < b)

/-! ## Callers that keep the values unique -/

/-- No two stored values are comparator-equal. -/
def NoEq {α : Type} (less : α → α → Bool) (L : List (Cell α)) : Prop :=
  L.Pairwise (fun c d => ∀ x y, c.val = some x → d.val = some y → ¬ cmpEq less x y)

/-- The key index maps every stored value to the node that holds it. -/
def KeysOk {α : Type} [DecidableEq α] (sl : SkipList α) (L : List (Cell α)) : Prop :=
  ∀ c ∈ L, ∀ k, c.val = some k → mapGet sl.nodes k = some c.ptr

/-- The lists reachable by a caller who keeps the values unique, as the comment of
`Insert` asks: `Insert(v)` is only called when no stored value is comparator-equal
to `v`. -/
inductive ReachableU {α : Type} [DecidableEq α] (less : α → α → Bool) : SkipList α → Prop
  | new : ReachableU less New
  | init {sl : SkipList α} : ReachableU less sl → ReachableU less (Init sl)
  | insert {sl sl' : SkipList α} {v : α} {rnd : List Nat} {x : Nat} :
      ReachableU less sl → (∀ ps, chain sl = some ps → ∀ q ∈ ps, ¬ cmpEq less q.2 v) →
      Insert less sl v rnd = some (x, sl') → ReachableU less sl'
  | delete {sl sl' : SkipList α} {v : α} {r : Option α} :
      ReachableU less sl → Delete less sl v = some (r, sl') → ReachableU less sl'
  | remove {sl sl' : SkipList α} {e : Nat} {r : Option α} :
      ReachableU less sl → Remove less sl e = some (r, sl') → ReachableU less sl'
  | find {sl sl' : SkipList α} {v : α} {r : Option Nat × Option String} :
      ReachableU less sl → Find less sl v = some (r, sl') → ReachableU less sl'

/-! ## Concrete lists -/

/-- The list after `Insert(5)` into `New()`, the random source yielding `1` (height 1). -/
def exOne : SkipList Nat := ((Insert lessNat New 5 [1]).map Prod.snd).getD New

/-- The list after a second `Insert(5)` into `exOne`: two comparator-equal values. -/
def exDup : SkipList Nat := ((Insert lessNat exOne 5 [1]).map Prod.snd).getD New

/-- The Go struct `Player` of `skiplist_test.go`. -/
structure Player where
  Name : String
  Score : Int
deriving DecidableEq, Repr

/-- The Go method `Player.Less` of `skiplist_test.go`: players are compared by their
scores, the higher score first. -/
def Player.Less (p otherPlayer : Player) : Bool := decide (p.Score > otherPlayer.Score)

/-- The list after `Insert(Player{"A", 10})` into `New()` (height 1). -/
def exTieA : SkipList Player :=
  ((Insert Player.Less New ⟨"A", 10⟩ [1]).map Prod.snd).getD New

/-- The list after `Insert(Player{"B", 10})` into `exTieA` (height 1): two distinct
values that tie under the comparator. -/
def exTie : SkipList Player :=
  ((Insert Player.Less exTieA ⟨"B", 10⟩ [1]).map Prod.snd).getD New

/-! ## Height generation -/

/-- The loop condition of `randomLevel` on one draw: `(r & 0xFFFF) % SKIPLIST_BRANCH == 0`. -/
def luck (r : Nat) : Bool := decide ((r &&& 0xFFFF) % SKIPLIST_BRANCH = 0)

/-! ## Observations on the backward chain and the spans -/

/-- The walk `Back()`, then `Prev()` repeatedly: the nodes visited, the last one first. -/
def walkBack {α : Type} (heap : Heap α) : Nat → Option Nat → Option (List Nat)
  | _, none => some []
  | 0, some _ => none
  | fuel + 1, some p =>
    match Prev heap p with
    | none => none
    | some pv =>
      match walkBack heap fuel pv with
      | none => none
      | some rest => some (p :: rest)

/-- The backward chain of the list, from `Back()`. -/
def backChain {α : Type} (sl : SkipList α) : Option (List Nat) :=
  walkBack sl.heap sl.heap.length (Back sl)

/-- The sum of the fields `level[0].span` along the level-0 chain, from node `p` on. -/
def spanSum {α : Type} (heap : Heap α) : Nat → Option Nat → Option Int
  | _, none => some 0
  | 0, some _ => none
  | fuel + 1, some p =>
    match getLevel heap p 0 with
    | none => none
    | some l =>
      match spanSum heap fuel l.forward with
      | none => none
      | some s => some (l.span + s)

/-! ## Heap primitives -/

theorem setLevel_spec {α : Type} {heap : Heap α} {p i : Nat} {l0 : skiplistLevel}
    (l : skiplistLevel) (h0 : getLevel heap p i = some l0) :
    ∃ heap', setLevel heap p i l = some heap' ∧ LevelUpd heap heap' p i l := by
  unfold getLevel at h0
  cases hn : heap[p]? with
  | none => simp [hn] at h0
  | some n =>
    simp only [hn] at h0
    have hi : i < n.level.length := by
      rcases List.getElem?_eq_some_iff.mp h0 with ⟨h, _⟩; exact h
    have hp : p < heap.length := by
      rcases List.getElem?_eq_some_iff.mp hn with ⟨h, _⟩; exact h
    refine ⟨heap.set p { n with level := n.level.set i l }, ?_, ?_, ?_, ?_, ?_, ?_⟩
    · simp [setLevel, hn, hi]
    · simp
    · intro q
      by_cases hq : p = q
      · subst hq; simp [getValue, List.getElem?_set, hp, hn]
      · simp [getValue, List.getElem?_set, hq]
    · intro q
      by_cases hq : p = q
      · subst hq; simp [Prev, List.getElem?_set, hp, hn]
      · simp [Prev, List.getElem?_set, hq]
    · intro q
      by_cases hq : p = q
      · subst hq; simp [getHeight, List.getElem?_set, hp, hn]
      · simp [getHeight, List.getElem?_set, hq]
    · intro q j
      by_cases hq : p = q
      · subst hq
        by_cases hj : i = j
        · subst hj; simp [getLevel, List.getElem?_set, hp, hi]
        · have hj' : ¬ j = i := fun h => hj h.symm
          simp [getLevel, List.getElem?_set, hp, hj, hj', hn]
      · have hq' : ¬ q = p := fun h => hq h.symm
        simp [getLevel, List.getElem?_set, hq, hq']

theorem setForward_spec {α : Type} {heap : Heap α} {p i : Nat} {l0 : skiplistLevel}
    (f : Option Nat) (h0 : getLevel heap p i = some l0) :
    ∃ heap', setForward heap p i f = some heap' ∧ LevelUpd heap heap' p i ⟨f, l0.span⟩ := by
  obtain ⟨heap', h1, h2⟩ := setLevel_spec ⟨f, l0.span⟩ h0
  exact ⟨heap', by simp [setForward, h0, h1], h2⟩

theorem setSpan_spec {α : Type} {heap : Heap α} {p i : Nat} {l0 : skiplistLevel}
    (sp : Int) (h0 : getLevel heap p i = some l0) :
    ∃ heap', setSpan heap p i sp = some heap' ∧ LevelUpd heap heap' p i ⟨l0.forward, sp⟩ := by
  obtain ⟨heap', h1, h2⟩ := setLevel_spec ⟨l0.forward, sp⟩ h0
  exact ⟨heap', by simp [setSpan, h0, h1], h2⟩

theorem setBackward_spec {α : Type} {heap : Heap α} {p h : Nat} (b : Option Nat)
    (h0 : getHeight heap p = some h) :
    ∃ heap', setBackward heap p b = some heap' ∧ BackUpd heap heap' p b := by
  unfold getHeight at h0
  cases hn : heap[p]? with
  | none => simp [hn] at h0
  | some n =>
    have hp : p < heap.length := by
      rcases List.getElem?_eq_some_iff.mp hn with ⟨h, _⟩; exact h
    refine ⟨heap.set p { n with backward := b }, ?_, ?_, ?_, ?_, ?_, ?_⟩
    · simp [setBackward, hn]
    · simp
    · intro q
      by_cases hq : p = q
      · subst hq; simp [getValue, List.getElem?_set, hp, hn]
      · simp [getValue, List.getElem?_set, hq]
    · intro q
      by_cases hq : p = q
      · subst hq; simp [Prev, List.getElem?_set, hp]
      · have hq' : ¬ q = p := fun h => hq h.symm
        simp [Prev, List.getElem?_set, hq, hq']
    · intro q
      by_cases hq : p = q
      · subst hq; simp [getHeight, List.getElem?_set, hp, hn]
      · simp [getHeight, List.getElem?_set, hq]
    · intro q j
      by_cases hq : p = q
      · subst hq; simp [getLevel, List.getElem?_set, hp, hn]
      · simp [getLevel, List.getElem?_set, hq]

/-- Observations of a heap after allocating one more node. -/
theorem alloc_spec {α : Type} (heap : Heap α) (n : Node α) :
    (∀ q, q < heap.length → getValue (heap ++ [n]) q = getValue heap q ∧
      Prev (heap ++ [n]) q = Prev heap q ∧ getHeight (heap ++ [n]) q = getHeight heap q ∧
      ∀ j, getLevel (heap ++ [n]) q j = getLevel heap q j) ∧
    getValue (heap ++ [n]) heap.length = n.Value ∧
    Prev (heap ++ [n]) heap.length = some n.backward ∧
    getHeight (heap ++ [n]) heap.length = some n.level.length ∧
    ∀ j, getLevel (heap ++ [n]) heap.length j = n.level[j]? := by
  refine ⟨?_, ?_, ?_, ?_, ?_⟩
  · intro q hq
    simp [getValue, Prev, getHeight, getLevel, List.getElem?_append_left hq]
  · simp [getValue]
  · simp [Prev]
  · simp [getHeight]
  · simp [getLevel]

theorem getHeight_lt {α : Type} {heap : Heap α} {p h : Nat} (h0 : getHeight heap p = some h) :
    p < heap.length := by
  unfold getHeight at h0
  cases hn : heap[p]? with
  | none => simp [hn] at h0
  | some n => rcases List.getElem?_eq_some_iff.mp hn with ⟨h, _⟩; exact h

/-! ## The canonical links -/

theorem link_nil {α : Type} (i : Nat) : link i ([] : List (Cell α)) = ⟨none, 0⟩ := rfl

theorem link_cons {α : Type} (i : Nat) (c : Cell α) (rest : List (Cell α)) :
    link i (c :: rest) =
      if i < c.height then ⟨some c.ptr, 1⟩
      else ⟨(link i rest).forward, (link i rest).span + 1⟩ := rfl

theorem link_all_le {α : Type} (i : Nat) (b r : List (Cell α))
    (hb : ∀ e ∈ b, e.height ≤ i) :
    link i (b ++ r) = ⟨(link i r).forward, (link i r).span + b.length⟩ := by
  induction b with
  | nil => simp
  | cons e b ih =>
    have he : ¬ i < e.height := by
      have := hb e (List.mem_cons_self _ _); omega
    have ih' := ih (fun x hx => hb x (List.mem_cons_of_mem _ hx))
    rw [List.cons_append, link_cons, if_neg he, ih']
    simp only [List.length_cons, skiplistLevel.mk.injEq, true_and]
    push_cast; ring

theorem link_first {α : Type} (i : Nat) (b1 : List (Cell α)) (c : Cell α) (r : List (Cell α))
    (hb : ∀ e ∈ b1, e.height ≤ i) (hc : i < c.height) :
    link i (b1 ++ c :: r) = ⟨some c.ptr, (b1.length : Int) + 1⟩ := by
  rw [link_all_le i b1 (c :: r) hb, link_cons, if_pos hc]
  simp only [skiplistLevel.mk.injEq, true_and]
  ring

theorem first_above {α : Type} (i : Nat) (b : List (Cell α)) :
    (∀ e ∈ b, e.height ≤ i) ∨
    ∃ b1 c b2, b = b1 ++ c :: b2 ∧ (∀ e ∈ b1, e.height ≤ i) ∧ i < c.height := by
  induction b with
  | nil => left; simp
  | cons e b ih =>
    by_cases he : i < e.height
    · right; exact ⟨[], e, b, rfl, by simp, he⟩
    · rcases ih with h | ⟨b1, c, b2, h1, h2, h3⟩
      · left
        intro x hx
        rcases List.mem_cons.mp hx with rfl | hx
        · omega
        · exact h x hx
      · right
        refine ⟨e :: b1, c, b2, by simp [h1], ?_, h3⟩
        intro x hx
        rcases List.mem_cons.mp hx with rfl | hx
        · omega
        · exact h2 x hx

theorem last_above {α : Type} (i : Nat) (b : List (Cell α)) :
    (∀ e ∈ b, e.height ≤ i) ∨
    ∃ b1 c b2, b = b1 ++ c :: b2 ∧ i < c.height ∧ (∀ e ∈ b2, e.height ≤ i) := by
  induction b with
  | nil => left; simp
  | cons e b ih =>
    rcases ih with h | ⟨b1, c, b2, h1, h2, h3⟩
    · by_cases he : i < e.height
      · right; exact ⟨[], e, b, rfl, he, h⟩
      · left
        intro x hx
        rcases List.mem_cons.mp hx with rfl | hx
        · omega
        · exact h x hx
    · right
      exact ⟨e :: b1, c, b2, by simp [h1], h2, h3⟩

theorem link_forward_none {α : Type} (i : Nat) (L : List (Cell α)) :
    (link i L).forward = none ↔ ∀ e ∈ L, e.height ≤ i := by
  constructor
  · intro h
    rcases first_above i L with h1 | ⟨b1, c, b2, h1, h2, h3⟩
    · exact h1
    · rw [h1, link_first i b1 c b2 h2 h3] at h
      simp at h
  · intro h
    have := link_all_le i L [] h
    simp only [List.append_nil] at this
    rw [this]; rfl

theorem link_none_span {α : Type} (i : Nat) (L : List (Cell α))
    (h : ∀ e ∈ L, e.height ≤ i) : (link i L).span = L.length := by
  have := link_all_le i L [] h
  simp only [List.append_nil] at this
  rw [this]; simp [link_nil]

theorem link_forward_some {α : Type} (i : Nat) (L : List (Cell α)) (f : Nat)
    (h : (link i L).forward = some f) :
    ∃ b1 c b2, L = b1 ++ c :: b2 ∧ (∀ e ∈ b1, e.height ≤ i) ∧ i < c.height ∧ c.ptr = f ∧
      (link i L).span = (b1.length : Int) + 1 := by
  rcases first_above i L with h1 | ⟨b1, c, b2, h1, h2, h3⟩
  · rw [(link_forward_none i L).mpr h1] at h; simp at h
  · refine ⟨b1, c, b2, h1, h2, h3, ?_, ?_⟩
    · rw [h1, link_first i b1 c b2 h2 h3] at h
      simpa using h
    · rw [h1, link_first i b1 c b2 h2 h3]

theorem link_span_nonneg {α : Type} (i : Nat) (L : List (Cell α)) : 0 ≤ (link i L).span := by
  induction L with
  | nil => simp [link_nil]
  | cons c L ih =>
    rw [link_cons]
    split
    · simp
    · simp; omega

/-! ## Access to the shape -/

theorem Shape.entry {α : Type} {heap : Heap α} {hdr lvl : Nat} {L : List (Cell α)}
    (hs : Shape heap hdr lvl L) {a : List (Cell α)} {c : Cell α} {b : List (Cell α)}
    (hF : hcell hdr :: L = a ++ c :: b) {i : Nat} (hi : i < c.height) (hl : i < lvl) :
    getLevel heap c.ptr i = some (link i b) := by
  obtain ⟨_, _, _, h4⟩ := hs a c b hF
  obtain ⟨l, h5, h6, h7⟩ := h4 i hi
  rw [h5]
  congr 1
  cases l with
  | mk f s =>
    simp only at h6 h7
    have := h7 hl
    cases hlk : link i b with
    | mk f' s' => rw [hlk] at h6 this; simp at h6 this; simp [h6, this]

theorem Shape.value {α : Type} {heap : Heap α} {hdr lvl : Nat} {L : List (Cell α)}
    (hs : Shape heap hdr lvl L) {a : List (Cell α)} {c : Cell α} {b : List (Cell α)}
    (hF : hcell hdr :: L = a ++ c :: b) : getValue heap c.ptr = c.val :=
  (hs a c b hF).1

/-! ## The traversal loops -/

/-- The generic traversal loop from the node `c` at position `a.length`: when
the test lets through every node of `b` above level `i` and stops at the
first node of `hi` above level `i`, the loop ends on the last node of
`c :: b` above level `i`, with its position as rank. -/
theorem genAdvance_spec {α : Type} {heap : Heap α} {hdr lvl : Nat} {L : List (Cell α)}
    (hs : Shape heap hdr lvl L) (test : Nat → Int → Option Bool) (i : Nat) (hl : i < lvl)
    (hi : List (Cell α)) :
    ∀ (n : Nat) (b : List (Cell α)) (a : List (Cell α)) (c : Cell α) (fuel : Nat),
      b.length = n →
      hcell hdr :: L = a ++ c :: (b ++ hi) → i < c.height → b.length < fuel →
      (∀ b1 e b2, b = b1 ++ e :: b2 → i < e.height →
        test e.ptr ((a.length + 1 + b1.length : Nat) : Int) = some true) →
      (∀ h1 e h2, hi = h1 ++ e :: h2 → i < e.height →
        test e.ptr ((a.length + 1 + b.length + h1.length : Nat) : Int) = some false) →
      ∃ a' c' b', a ++ c :: b = a' ++ c' :: b' ∧ i < c'.height ∧ (∀ e ∈ b', e.height ≤ i) ∧
        genAdvance heap test i fuel c.ptr (a.length : Int) = some (c'.ptr, (a'.length : Int)) := by
  intro n
  induction n using Nat.strong_induction_on with
  | _ n ih =>
    intro b a c fuel hn hF hc hfuel hlo hhi
    have hent := hs.entry hF hc hl
    obtain ⟨fuel', rfl⟩ : ∃ f', fuel = f' + 1 := ⟨fuel - 1, by omega⟩
    rcases first_above i b with hall | ⟨b1, e, b2, hb, hb1, he⟩
    · -- no node of `b` is above level `i`
      refine ⟨a, c, b, rfl, hc, hall, ?_⟩
      rw [link_all_le i b hi hall] at hent
      unfold genAdvance
      rw [hent]
      cases hf : (link i hi).forward with
      | none => simp
      | some f =>
        obtain ⟨h1, e, h2, hhi', hh1, he, hptr, hspan⟩ := link_forward_some i hi f hf
        have ht := hhi h1 e h2 hhi' he
        have harg : (a.length : Int) + ((link i hi).span + (b.length : Int)) =
            ((a.length + 1 + b.length + h1.length : Nat) : Int) := by
          rw [hspan]; push_cast; ring
        simp only [harg, ← hptr, ht]
    · -- `e` is the first node of `b` above level `i`
      subst hb
      have hF' : hcell hdr :: L = (a ++ c :: b1) ++ e :: (b2 ++ hi) := by
        rw [hF]; simp
      have hlen : b2.length < n := by
        rw [← hn]; simp; omega
      obtain ⟨a', c', b', h1, h2, h3, h4⟩ :=
        ih b2.length hlen b2 (a ++ c :: b1) e fuel' rfl hF' he
          (by simp at hfuel; omega)
          (by
            intro x1 y x2 hx hy
            have := hlo (b1 ++ e :: x1) y x2 (by rw [hx]; simp) hy
            rw [← this]; congr 1; simp; omega)
          (by
            intro x1 y x2 hx hy
            have := hhi x1 y x2 hx hy
            rw [← this]; congr 1; simp; omega)
      refine ⟨a', c', b', by rw [← h1]; simp, h2, h3, ?_⟩
      have hlk : link i ((b1 ++ e :: b2) ++ hi) = ⟨some e.ptr, (b1.length : Int) + 1⟩ := by
        rw [List.append_assoc, List.cons_append]
        exact link_first i b1 e (b2 ++ hi) hb1 he
      rw [hlk] at hent
      have ht := hlo b1 e b2 rfl he
      have harg : (a.length : Int) + ((b1.length : Int) + 1) =
          ((a.length + 1 + b1.length : Nat) : Int) := by
        push_cast; ring
      have harg2 : ((a ++ c :: b1).length : Int) = ((a.length + 1 + b1.length : Nat) : Int) := by
        simp; ring
      unfold genAdvance
      rw [hent]
      simp only [harg, ht]
      rw [← harg2]
      exact h4

theorem insertAdvance_eq_gen {α : Type} (less : α → α → Bool) (v : α) (heap : Heap α) (i : Nat)
    (fuel x : Nat) (r : Int) :
    insertAdvance less v heap i fuel x r =
      genAdvance heap (fun f _ => (getValue heap f).map (fun fv => less fv v)) i fuel x r := by
  induction fuel generalizing x r with
  | zero => rfl
  | succ fuel ih =>
    unfold insertAdvance genAdvance
    cases getLevel heap x i with
    | none => rfl
    | some l =>
      rcases l with ⟨_ | f, s⟩
      · rfl
      · simp only []
        cases hv : getValue heap f with
        | none => simp
        | some fv => cases hb : less fv v <;> simp [hb, ih]

theorem rankAdvance_eq_gen {α : Type} (less : α → α → Bool) (v : α) (heap : Heap α) (i : Nat)
    (fuel x : Nat) (r : Int) :
    rankAdvance less v heap i fuel x r =
      genAdvance heap (fun f _ => (getValue heap f).map (fun fv => less fv v)) i fuel x r := by
  induction fuel generalizing x r with
  | zero => rfl
  | succ fuel ih =>
    unfold rankAdvance genAdvance
    cases getLevel heap x i with
    | none => rfl
    | some l =>
      rcases l with ⟨_ | f, s⟩
      · rfl
      · simp only []
        cases hv : getValue heap f with
        | none => simp
        | some fv => cases hb : less fv v <;> simp [hb, ih]

theorem findAdvance_eq_gen {α : Type} (less : α → α → Bool) (v : α) (heap : Heap α) (i : Nat)
    (fuel x : Nat) (r : Int) :
    findAdvance less v heap i fuel x =
      (genAdvance heap (fun f _ => (getValue heap f).map (fun fv => less fv v)) i fuel x r).map
        Prod.fst := by
  induction fuel generalizing x r with
  | zero => rfl
  | succ fuel ih =>
    unfold findAdvance genAdvance
    cases getLevel heap x i with
    | none => rfl
    | some l =>
      rcases l with ⟨_ | f, s⟩
      · rfl
      · simp only []
        cases hv : getValue heap f with
        | none => simp
        | some fv =>
          cases hb : less fv v
          · simp [hb]
          · simp [hb]; exact ih f _

theorem byRankAdvance_eq_gen {α : Type} (heap : Heap α) (rank : Int) (i : Nat)
    (fuel x : Nat) (r : Int) :
    byRankAdvance heap rank i fuel x r =
      genAdvance heap (fun _ t => some (decide (t ≤ rank))) i fuel x r := by
  induction fuel generalizing x r with
  | zero => rfl
  | succ fuel ih =>
    unfold byRankAdvance genAdvance
    cases getLevel heap x i with
    | none => rfl
    | some l =>
      rcases l with ⟨_ | f, s⟩
      · rfl
      · simp only []
        by_cases hb : r + s ≤ rank <;> simp [hb, ih]

/-! ## Loop rules -/

theorem forDown_inv {σ : Type} (body : Nat → σ → Option σ) (Inv : Nat → σ → Prop) (n : Nat)
    (hstep : ∀ i st, i < n → Inv (i + 1) st → ∃ st', body i st = some st' ∧ Inv i st') :
    ∀ m st, m ≤ n → Inv m st → ∃ st', forDown body m st = some st' ∧ Inv 0 st' := by
  intro m
  induction m with
  | zero => intro st _ h; exact ⟨st, rfl, h⟩
  | succ m ih =>
    intro st hm h
    obtain ⟨st1, h1, h2⟩ := hstep m st (by omega) h
    obtain ⟨st2, h3, h4⟩ := ih st1 (by omega) h2
    exact ⟨st2, by simp [forDown, h1, h3], h4⟩

theorem forUp_inv {σ : Type} (body : Nat → σ → Option σ) (Inv : Nat → σ → Prop) (lo n : Nat)
    (hstep : ∀ i st, lo ≤ i → i < lo + n → Inv i st → ∃ st', body i st = some st' ∧ Inv (i + 1) st') :
    ∀ m i st, i + m = lo + n → lo ≤ i → Inv i st →
      ∃ st', forUp body m i st = some st' ∧ Inv (lo + n) st' := by
  intro m
  induction m with
  | zero =>
    intro i st hi _ h
    have : i = lo + n := by omega
    subst this
    exact ⟨st, rfl, h⟩
  | succ m ih =>
    intro i st hi hlo h
    obtain ⟨st1, h1, h2⟩ := hstep i st hlo (by omega) h
    obtain ⟨st2, h3, h4⟩ := ih (i + 1) st1 (by omega) (by omega) h2
    exact ⟨st2, by simp [forUp, h1, h3], h4⟩

/-! ## Fuel -/

theorem nodup_bounded_length (l : List Nat) (n : Nat) (hnd : l.Nodup) (hb : ∀ x ∈ l, x < n) :
    l.length ≤ n := by
  have hsub : l ⊆ List.range n := fun x hx => List.mem_range.mpr (hb x hx)
  have := (List.Nodup.subperm hnd hsub).length_le
  simpa using this

theorem Shape.ptr_lt {α : Type} {heap : Heap α} {hdr lvl : Nat} {L : List (Cell α)}
    (hs : Shape heap hdr lvl L) {c : Cell α} (hc : c ∈ hcell hdr :: L) : c.ptr < heap.length := by
  obtain ⟨a, b, hab⟩ := List.append_of_mem hc
  obtain ⟨_, _, h3, _⟩ := hs a c b hab
  exact getHeight_lt h3

theorem Shape.length_lt {α : Type} {heap : Heap α} {hdr lvl : Nat} {L : List (Cell α)}
    (hs : Shape heap hdr lvl L) (hnd : ((hcell hdr :: L).map Cell.ptr).Nodup) :
    L.length < heap.length := by
  have := nodup_bounded_length _ heap.length hnd (by
    intro x hx
    obtain ⟨c, hc, rfl⟩ := List.mem_map.mp hx
    exact hs.ptr_lt hc)
  simp at this
  omega

/-! ## The descent of `Insert` and `find` -/

theorem Splits.test_lo {α : Type} {less : α → α → Bool} {v : α} {lo hi : List (Cell α)}
    {heap : Heap α} {hdr lvl : Nat} (hsp : Splits less v lo hi)
    (hs : Shape heap hdr lvl (lo ++ hi)) {e : Cell α} (he : e ∈ lo) :
    (getValue heap e.ptr).map (fun fv => less fv v) = some true := by
  obtain ⟨x, hx1, hx2⟩ := hsp.1 e he
  obtain ⟨a, b, hab⟩ := List.append_of_mem he
  have hF : hcell hdr :: (lo ++ hi) = (hcell hdr :: a) ++ e :: (b ++ hi) := by
    rw [hab]; simp
  rw [hs.value hF, hx1]; simp [hx2]

theorem Splits.test_hi {α : Type} {less : α → α → Bool} {v : α} {lo hi : List (Cell α)}
    {heap : Heap α} {hdr lvl : Nat} (hsp : Splits less v lo hi)
    (hs : Shape heap hdr lvl (lo ++ hi)) {e : Cell α} (he : e ∈ hi) :
    (getValue heap e.ptr).map (fun fv => less fv v) = some false := by
  obtain ⟨x, hx1, hx2⟩ := hsp.2 e he
  obtain ⟨a, b, hab⟩ := List.append_of_mem he
  have hF : hcell hdr :: (lo ++ hi) = (hcell hdr :: lo ++ a) ++ e :: b := by
    rw [hab]; simp
  rw [hs.value hF, hx1]; simp [hx2]

theorem insertDescend_spec {α : Type} {heap : Heap α} {hdr lvl : Nat} {lo hi : List (Cell α)}
    (less : α → α → Bool) (v : α)
    (hs : Shape heap hdr lvl (lo ++ hi))
    (hnd : ((hcell hdr :: (lo ++ hi)).map Cell.ptr).Nodup)
    (hl1 : 1 ≤ lvl) (hl2 : lvl ≤ SKIPLIST_MAXLEVEL)
    (hsp : Splits less v lo hi) (upd : List (Option Nat)) (rk : List Int)
    (hu : upd.length = SKIPLIST_MAXLEVEL) (hr : rk.length = SKIPLIST_MAXLEVEL) :
    ∃ x upd' rk', forDown (insertBody less v heap lvl) lvl (hdr, upd, rk) = some (x, upd', rk') ∧
      upd'.length = SKIPLIST_MAXLEVEL ∧ rk'.length = SKIPLIST_MAXLEVEL ∧
      (∀ i, i < lvl → UpdAt (hcell hdr :: lo) upd' rk' i) ∧
      upd'[0]? = some (some x) := by
  have hfuel := hs.length_lt hnd
  let Inv : Nat → Nat × List (Option Nat) × List Int → Prop := fun m st =>
    st.2.1.length = SKIPLIST_MAXLEVEL ∧ st.2.2.length = SKIPLIST_MAXLEVEL ∧
    (∀ i, m ≤ i → i < lvl → UpdAt (hcell hdr :: lo) st.2.1 st.2.2 i) ∧
    ((m = lvl ∧ st.1 = hdr) ∨ (m < lvl ∧ st.2.1[m]? = some (some st.1)))
  have hstep : ∀ i st, i < lvl → Inv (i + 1) st →
      ∃ st', insertBody less v heap lvl i st = some st' ∧ Inv i st' := by
    rintro i ⟨x, upd, rk⟩ hil ⟨hu, hr, hall, hx⟩
    simp only at hu hr hall hx
    -- the start of level `i`
    have hstart : ∃ a c b, hcell hdr :: lo = a ++ c :: b ∧ i < c.height ∧ x = c.ptr ∧
        (if i + 1 = lvl then some (0 : Int) else rk[i + 1]?) = some (a.length : Int) := by
      rcases hx with ⟨h1, h2⟩ | ⟨h1, h2⟩
      · refine ⟨[], hcell hdr, lo, rfl, ?_, h2, by simp [h1]⟩
        show i < SKIPLIST_MAXLEVEL
        omega
      · obtain ⟨a, c, b, h3, h4, _, h6, h7⟩ := hall (i + 1) (le_refl _) h1
        rw [h2] at h6
        have hne : ¬ i + 1 = lvl := by omega
        refine ⟨a, c, b, h3, by omega, by simpa using h6, by simp [hne, h7]⟩
    obtain ⟨a, c, b, hdec, hc, hxc, hr0⟩ := hstart
    have hF : hcell hdr :: (lo ++ hi) = a ++ c :: (b ++ hi) := by
      rw [← List.cons_append, hdec]; simp
    have hblo : ∀ e ∈ b, e ∈ lo := by
      intro e he
      have : e ∈ hcell hdr :: lo := by rw [hdec]; simp [he]
      rcases List.mem_cons.mp this with rfl | h
      · exfalso
        -- the header is not among the nodes after `c`
        have hnd' := hnd
        rw [hF] at hnd'
        simp only [List.map_append, List.map_cons] at hnd'
        have h1 := (List.nodup_append.mp hnd').2.1
        have h2 := List.nodup_cons.mp h1
        rcases a with _ | ⟨a0, a⟩
        · simp at hdec
          have h3 := h2.1
          rw [← hdec.1] at h3
          apply h3
          simp
          exact Or.inl ⟨_, he, rfl⟩
        · simp at hdec
          have h3 := (List.nodup_append.mp hnd').2.2
          have : (hcell hdr : Cell α).ptr ∈ List.map Cell.ptr (a0 :: a) := by
            rw [hdec.1]; simp
          exact h3 this (by simp; exact Or.inr (Or.inl ⟨_, he, rfl⟩))
      · exact h
    obtain ⟨a', c', b', h1, h2, h3, h4⟩ :=
      genAdvance_spec hs (fun f _ => (getValue heap f).map (fun fv => less fv v)) i
        (by omega) hi b.length b a c heap.length rfl hF hc
        (by
          have : b.length ≤ lo.length := by
            have := congrArg List.length hdec
            simp at this; omega
          simp at hfuel; omega)
        (by
          intro b1 e b2 hb _
          exact hsp.test_lo hs (hblo e (by rw [hb]; simp)))
        (by
          intro h1 e h2 hh _
          exact hsp.test_hi hs (by rw [hh]; simp))
    refine ⟨(c'.ptr, upd.set i (some c'.ptr), rk.set i (a'.length : Int)), ?_, ?_, ?_, ?_, ?_⟩
    · have hi1 : i < rk.length := by rw [hr]; omega
      have hi2 : i < upd.length := by rw [hu]; omega
      simp only [insertBody, hi1, hi2, and_self, if_true, hr0, insertAdvance_eq_gen, hxc, h4]
    · simp [hu]
    · simp [hr]
    · intro j hj1 hj2
      by_cases hji : j = i
      · subst hji
        refine ⟨a', c', b', ?_, h2, h3, ?_, ?_⟩
        · rw [← h1, hdec]
        · simp only; rw [List.getElem?_set_self (by rw [hu]; omega)]
        · simp only; rw [List.getElem?_set_self (by rw [hr]; omega)]
      · obtain ⟨a2, c2, b2, g1, g2, g3, g4, g5⟩ := hall j (by omega) hj2
        refine ⟨a2, c2, b2, g1, g2, g3, ?_, ?_⟩
        · simp only; rw [List.getElem?_set_ne (by omega)]; exact g4
        · simp only; rw [List.getElem?_set_ne (by omega)]; exact g5
    · right
      refine ⟨hil, ?_⟩
      simp only; rw [List.getElem?_set_self (by rw [hu]; omega)]
  obtain ⟨⟨x, upd', rk'⟩, h1, h2, h3, h4, h5⟩ :=
    forDown_inv (insertBody less v heap lvl) Inv lvl hstep lvl (hdr, upd, rk) (le_refl _)
      ⟨hu, hr, fun i h1 h2 => by omega, Or.inl ⟨rfl, rfl⟩⟩
  refine ⟨x, upd', rk', h1, h2, h3, fun i hi => h4 i (Nat.zero_le _) hi, ?_⟩
  rcases h5 with ⟨h6, _⟩ | ⟨_, h6⟩
  · omega
  · exact h6

theorem findDescend_of_insert {α : Type} (less : α → α → Bool) (v : α) (heap : Heap α) (lvl : Nat) :
    ∀ (n x : Nat) (upd : List (Option Nat)) (rk : List Int) (x' : Nat) (upd' : List (Option Nat))
      (rk' : List Int),
      forDown (insertBody less v heap lvl) n (x, upd, rk) = some (x', upd', rk') →
      forDown (findBody less v heap) n (x, upd) = some (x', upd') := by
  intro n
  induction n with
  | zero =>
    intro x upd rk x' upd' rk' h
    simp [forDown] at h
    simp [forDown, h.1, h.2.1]
  | succ n ih =>
    intro x upd rk x' upd' rk' h
    simp only [forDown] at h ⊢
    cases hb : insertBody less v heap lvl n (x, upd, rk) with
    | none => simp [hb] at h
    | some st =>
      rcases st with ⟨x1, upd1, rk1⟩
      simp only [hb] at h
      have := ih x1 upd1 rk1 x' upd' rk' h
      unfold insertBody at hb
      simp only at hb
      split at hb
      · next hlen =>
        split at hb
        · simp at hb
        · next r0 hr0 =>
          cases ha : insertAdvance less v heap n heap.length x r0 with
          | none => simp [ha] at hb
          | some xr =>
            rcases xr with ⟨x2, r2⟩
            simp only [ha, Option.some.injEq, Prod.mk.injEq] at hb
            obtain ⟨rfl, rfl, rfl⟩ := hb
            have hfa : findAdvance less v heap n heap.length x = some x2 := by
              rw [findAdvance_eq_gen less v heap n heap.length x r0, ← insertAdvance_eq_gen, ha]
              rfl
            simp only [findBody, hfa, hlen.2, if_true]
            exact this
      · simp at hb

/-! ## Decompositions of the node list -/

theorem split_cases {α : Type} {a' : List α} {c' : α} {b' X : List α} {y : α} {Z : List α}
    (h : a' ++ c' :: b' = X ++ y :: Z) :
    (∃ t, X = a' ++ c' :: t ∧ b' = t ++ y :: Z) ∨ (a' = X ∧ c' = y ∧ b' = Z) ∨
    (∃ t, Z = t ++ c' :: b' ∧ a' = X ++ y :: t) := by
  rcases List.append_eq_append_iff.mp h with ⟨t, h1, h2⟩ | ⟨t, h1, h2⟩
  · -- X = a' ++ t, c' :: b' = t ++ y :: Z
    cases t with
    | nil =>
      simp at h1 h2
      right; left
      exact ⟨h1.symm, h2.1, h2.2⟩
    | cons t0 t =>
      simp at h2
      left
      exact ⟨t, by rw [h1, h2.1], h2.2⟩
  · -- a' = X ++ t, y :: Z = t ++ c' :: b'
    cases t with
    | nil =>
      simp at h1 h2
      right; left
      exact ⟨h1, h2.1.symm, h2.2.symm⟩
    | cons t0 t =>
      simp at h2
      right; right
      exact ⟨t, h2.2, by rw [h1, h2.1]⟩

theorem nodup_split_ne {α : Type} {A : List (Cell α)} {c1 : Cell α} {B : List (Cell α)}
    {c2 : Cell α} {C : List (Cell α)}
    (hnd : ((A ++ c1 :: (B ++ c2 :: C)).map Cell.ptr).Nodup) : c1.ptr ≠ c2.ptr := by
  simp only [List.map_append, List.map_cons] at hnd
  have h1 := (List.nodup_append.mp hnd).2.1
  have h2 := (List.nodup_cons.mp h1).1
  intro h
  apply h2
  rw [h]
  simp

theorem nodup_split_unique {α : Type} {a : List (Cell α)} {c : Cell α} {b a' : List (Cell α)}
    {c' : Cell α} {b' : List (Cell α)}
    (hnd : ((a ++ c :: b).map Cell.ptr).Nodup) (h : a ++ c :: b = a' ++ c' :: b')
    (hp : c.ptr = c'.ptr) : a = a' ∧ c = c' ∧ b = b' := by
  rcases split_cases h with ⟨t, h1, h2⟩ | h1 | ⟨t, h1, h2⟩
  · exfalso
    rw [h2] at hnd
    exact nodup_split_ne hnd hp
  · exact h1
  · exfalso
    rw [h2, List.append_assoc, List.cons_append] at hnd
    exact nodup_split_ne hnd hp.symm

theorem mem_lo_of_dec {α : Type} {hd : Cell α} {lo a : List (Cell α)} {c : Cell α}
    {b : List (Cell α)} (h : hd :: lo = a ++ c :: b) {e : Cell α} (he : e ∈ b) : e ∈ lo := by
  cases a with
  | nil => simp at h; rw [h.2]; exact he
  | cons a0 a => simp at h; rw [h.2]; simp [he]

theorem link_prefix {α : Type} (i : Nat) (p r1 r2 : List (Cell α))
    (h : ∃ e ∈ p, i < e.height) : link i (p ++ r1) = link i (p ++ r2) := by
  rcases first_above i p with h1 | ⟨b1, c, b2, h1, h2, h3⟩
  · obtain ⟨e, he, hlt⟩ := h
    have := h1 e he
    omega
  · rw [h1]
    simp only [List.append_assoc, List.cons_append]
    rw [link_first i b1 c _ h2 h3, link_first i b1 c _ h2 h3]

/-! ## The shape, level by level -/

theorem shape_iff {α : Type} (heap : Heap α) (hdr lvl : Nat) (L : List (Cell α)) :
    Shape heap hdr lvl L ↔
      BaseOk heap (hcell hdr :: L) ∧ ∀ i, LinksAt heap lvl i (hcell hdr :: L) := by
  constructor
  · intro h
    refine ⟨fun a c b hF => ?_, fun i a c b hF hi => ?_⟩
    · obtain ⟨h1, h2, h3, _⟩ := h a c b hF
      exact ⟨h1, h2, h3⟩
    · obtain ⟨_, _, _, h4⟩ := h a c b hF
      exact h4 i hi
  · rintro ⟨h1, h2⟩ a c b hF
    obtain ⟨g1, g2, g3⟩ := h1 a c b hF
    exact ⟨g1, g2, g3, fun i hi => h2 i a c b hF hi⟩

theorem getLevel_of_height {α : Type} {heap : Heap α} {p h i : Nat}
    (hh : getHeight heap p = some h) (hi : i < h) : ∃ l, getLevel heap p i = some l := by
  unfold getHeight at hh
  unfold getLevel
  cases hn : heap[p]? with
  | none => simp [hn] at hh
  | some n =>
    simp [hn] at hh
    subst hh
    exact ⟨n.level[i], by simp [List.getElem?_eq_getElem hi]⟩

theorem UpdAt.zero {α : Type} {hd : Cell α} {lo : List (Cell α)} {upd : List (Option Nat)}
    {rk : List Int} (h : UpdAt (hd :: lo) upd rk 0) (hh : ∀ c ∈ lo, 1 ≤ c.height) :
    ∃ a c, hd :: lo = a ++ [c] ∧ upd[0]? = some (some c.ptr) ∧
      rk[0]? = some (lo.length : Int) := by
  obtain ⟨a, c, b, h1, _, h3, h4, h5⟩ := h
  have hb : b = [] := by
    cases b with
    | nil => rfl
    | cons e b =>
      have h6 := h3 e (by simp)
      have h7 := hh e (mem_lo_of_dec h1 (by simp))
      omega
  subst hb
  refine ⟨a, c, h1, h4, ?_⟩
  have := congrArg List.length h1
  simp at this
  rw [h5, this]

theorem link_zero {α : Type} (hi : List (Cell α)) (hh : ∀ c ∈ hi, 1 ≤ c.height) :
    (link 0 hi).forward = hi.head?.map Cell.ptr := by
  cases hi with
  | nil => rfl
  | cons e hi =>
    have := hh e (by simp)
    rw [link_cons, if_pos (by omega)]
    rfl

theorem Rep.set_update {α : Type} {sl : SkipList α} {L : List (Cell α)} (h : Rep sl L)
    (upd : List (Option Nat)) (hu : upd.length = SKIPLIST_MAXLEVEL) :
    Rep { sl with update := upd } L :=
  { shape := h.shape, nodup := h.nodup, vals := h.vals, height := h.height,
    level_pos := h.level_pos, level_le := h.level_le, level_max := h.level_max,
    length := h.length, tail := h.tail, update_len := hu, rank_len := h.rank_len }

/-- The descent of `find`: it returns, and yields the first node that is not
`Less` than `v` (`nil` when there is none) with the predecessors in `update`. -/
theorem find_spec {α : Type} {sl : SkipList α} {lo hi : List (Cell α)}
    (less : α → α → Bool) (v : α) (hrep : Rep sl (lo ++ hi)) (hsp : Splits less v lo hi) :
    ∃ upd rk, find less sl v = some (hi.head?.map Cell.ptr, { sl with update := upd }) ∧
      upd.length = SKIPLIST_MAXLEVEL ∧
      ∀ i, i < sl.level → UpdAt (hcell sl.header :: lo) upd rk i := by
  obtain ⟨x, upd, rk, h1, h2, _, h4, h5⟩ :=
    insertDescend_spec less v hrep.shape hrep.nodup hrep.level_pos hrep.level_le hsp
      sl.update sl.rank hrep.update_len hrep.rank_len
  have h6 := findDescend_of_insert less v sl.heap sl.level sl.level sl.header sl.update sl.rank
    x upd rk h1
  refine ⟨upd, rk, ?_, h2, h4⟩
  have hlo : ∀ c ∈ lo, 1 ≤ c.height := fun c hc => (hrep.height c (by simp [hc])).1
  have hhi : ∀ c ∈ hi, 1 ≤ c.height := fun c hc => (hrep.height c (by simp [hc])).1
  obtain ⟨a, c, g1, g2, _⟩ := (h4 0 hrep.level_pos).zero hlo
  have hx : x = c.ptr := by
    rw [h5] at g2; simpa using g2
  have hF : hcell sl.header :: (lo ++ hi) = a ++ c :: hi := by
    rw [← List.cons_append, g1]; simp
  have hc : 0 < c.height := by
    cases a with
    | nil =>
      simp at g1
      rw [← g1.1]; show 0 < SKIPLIST_MAXLEVEL; decide
    | cons a0 a =>
      simp at g1
      have : c ∈ lo := by rw [g1.2]; simp
      exact hlo c this
  have hent := hrep.shape.entry hF hc hrep.level_pos
  unfold find
  rw [h6]
  simp only [hx, hent, link_zero hi hhi]

theorem split_cases2 {α : Type} {a' : List α} {c' : α} {b' X Z : List α}
    (h : a' ++ c' :: b' = X ++ Z) :
    (∃ t, X = a' ++ c' :: t ∧ b' = t ++ Z) ∨ (∃ t, Z = t ++ c' :: b' ∧ a' = X ++ t) := by
  rcases List.append_eq_append_iff.mp h with ⟨t, h1, h2⟩ | ⟨t, h1, h2⟩
  · cases t with
    | nil =>
      simp at h1 h2
      right
      exact ⟨[], by simp [h2], by simp [h1]⟩
    | cons t0 t =>
      simp at h2
      left
      exact ⟨t, by rw [h1, h2.1], h2.2⟩
  · right
    exact ⟨t, h2, h1⟩

theorem LinksAt.entry_at {α : Type} {heap : Heap α} {lvl i : Nat} {F : List (Cell α)}
    (hs : LinksAt heap lvl i F) {a : List (Cell α)} {c : Cell α} {b : List (Cell α)}
    (hF : F = a ++ c :: b) (hi : i < c.height) (hl : i < lvl) :
    getLevel heap c.ptr i = some (link i b) := by
  obtain ⟨l, h5, h6, h7⟩ := hs a c b hF hi
  rw [h5]
  congr 1
  cases l with
  | mk f s =>
    simp only at h6 h7
    have := h7 hl
    cases hlk : link i b with
    | mk f' s' => rw [hlk] at h6 this; simp at h6 this; simp [h6, this]

theorem LinksAt.of_exact {α : Type} {heap : Heap α} {lvl i : Nat} {F : List (Cell α)}
    (h : ∀ a c b, F = a ++ c :: b → i < c.height → getLevel heap c.ptr i = some (link i b)) :
    LinksAt heap lvl i F :=
  fun a c b hF hi => ⟨link i b, h a c b hF hi, rfl, fun _ => rfl⟩

theorem LinksAt.congr {α : Type} {heap heap' : Heap α} {lvl i : Nat} {F : List (Cell α)}
    (hs : LinksAt heap lvl i F) (h : ∀ q, getLevel heap' q i = getLevel heap q i) :
    LinksAt heap' lvl i F := by
  intro a c b hF hi
  rw [h]
  exact hs a c b hF hi

/-- One level of the splice of `Insert`: when the entry of the predecessor
`c` and the entry of the new node are set as the invariant wants and no other
level-`i` entry changes, level `i` is right for the list with the new node. -/
theorem links_insert_step {α : Type} {heap heap' : Heap α} {lvl i : Nat}
    {lo' hi a b : List (Cell α)} {c new : Cell α}
    (hold : LinksAt heap lvl i (lo' ++ hi)) (hl : i < lvl)
    (hdec : lo' = a ++ c :: b) (hc : i < c.height) (hb : ∀ e ∈ b, e.height ≤ i)
    (hnd : ((lo' ++ new :: hi).map Cell.ptr).Nodup)
    (hother : ∀ q, q ≠ c.ptr → q ≠ new.ptr → getLevel heap' q i = getLevel heap q i)
    (hc' : getLevel heap' c.ptr i = some (link i (b ++ new :: hi)))
    (hnew : i < new.height → getLevel heap' new.ptr i = some (link i hi)) :
    LinksAt heap' lvl i (lo' ++ new :: hi) := by
  apply LinksAt.of_exact
  intro a' c' b' hF' hi'
  rcases split_cases hF'.symm with ⟨t, h1, h2⟩ | ⟨h1, h2, h3⟩ | ⟨t, h1, h2⟩
  · -- `c'` is one of the nodes before the new one
    rw [hdec] at h1
    rcases split_cases h1.symm with ⟨t2, g1, g2⟩ | ⟨g1, g2, g3⟩ | ⟨t2, g1, g2⟩
    · -- `c'` is before `c`
      have hne1 : c'.ptr ≠ c.ptr := by
        rw [hdec, g1] at hnd
        simp only [List.append_assoc, List.cons_append] at hnd
        exact nodup_split_ne hnd
      have hne2 : c'.ptr ≠ new.ptr := by
        rw [hdec, g1] at hnd
        simp only [List.append_assoc, List.cons_append] at hnd
        have : a' ++ c' :: (t2 ++ c :: (b ++ new :: hi)) =
            a' ++ c' :: ((t2 ++ c :: b) ++ new :: hi) := by simp
        rw [this] at hnd
        exact nodup_split_ne hnd
      rw [hother _ hne1 hne2]
      have hF : lo' ++ hi = a' ++ c' :: (t ++ hi) := by
        rw [hdec, h1]; simp
      rw [hold.entry_at hF hi' hl, h2]
      congr 1
      apply link_prefix
      exact ⟨c, by rw [g2]; simp, hc⟩
    · -- `c'` is `c`
      subst g2
      rw [h2, g3]
      exact hc'
    · -- `c'` is after `c`
      have := hb c' (by rw [g1]; simp)
      omega
  · -- `c'` is the new node
    subst h2
    rw [h3]
    exact hnew hi'
  · -- `c'` is one of the nodes after the new one
    have hne2 : c'.ptr ≠ new.ptr := by
      rw [h1] at hnd
      have := nodup_split_ne hnd
      exact fun h => this h.symm
    have hne1 : c'.ptr ≠ c.ptr := by
      rw [hdec, h1] at hnd
      simp only [List.append_assoc, List.cons_append] at hnd
      have : a ++ c :: (b ++ new :: (t ++ c' :: b')) =
          a ++ c :: ((b ++ new :: t) ++ c' :: b') := by simp
      rw [this] at hnd
      have := nodup_split_ne hnd
      exact fun h => this h.symm
    rw [hother _ hne1 hne2]
    have hF : lo' ++ hi = (lo' ++ t) ++ c' :: b' := by
      rw [h1]; simp
    exact hold.entry_at hF hi' hl

/-- One level of the unlinking of `deleteNode`: when the entry of the
predecessor `c` is set as the invariant wants and no other level-`i` entry
changes, level `i` is right for the list without the node `e`. -/
theorem links_delete_step {α : Type} {heap heap' : Heap α} {lvl i : Nat}
    {lo' hi a b : List (Cell α)} {c e : Cell α}
    (hold : LinksAt heap lvl i (lo' ++ e :: hi)) (hl : i < lvl)
    (hdec : lo' = a ++ c :: b) (hc : i < c.height) (hb : ∀ x ∈ b, x.height ≤ i)
    (hnd : ((lo' ++ e :: hi).map Cell.ptr).Nodup)
    (hother : ∀ q, q ≠ c.ptr → getLevel heap' q i = getLevel heap q i)
    (hc' : getLevel heap' c.ptr i = some (link i (b ++ hi))) :
    LinksAt heap' lvl i (lo' ++ hi) := by
  apply LinksAt.of_exact
  intro a' c' b' hF' hi'
  rcases split_cases2 hF'.symm with ⟨t, h1, h2⟩ | ⟨t, h1, h2⟩
  · rw [hdec] at h1
    rcases split_cases h1.symm with ⟨t2, g1, g2⟩ | ⟨g1, g2, g3⟩ | ⟨t2, g1, g2⟩
    · have hne1 : c'.ptr ≠ c.ptr := by
        rw [hdec, g1] at hnd
        simp only [List.append_assoc, List.cons_append] at hnd
        exact nodup_split_ne hnd
      rw [hother _ hne1]
      have hF : lo' ++ e :: hi = a' ++ c' :: (t ++ e :: hi) := by
        rw [hdec, h1]; simp
      rw [hold.entry_at hF hi' hl, h2]
      congr 1
      apply link_prefix
      exact ⟨c, by rw [g2]; simp, hc⟩
    · subst g2
      rw [h2, g3]
      exact hc'
    · have := hb c' (by rw [g1]; simp)
      omega
  · have hne1 : c'.ptr ≠ c.ptr := by
      rw [hdec, h1] at hnd
      simp only [List.append_assoc, List.cons_append] at hnd
      have : a ++ c :: (b ++ e :: (t ++ c' :: b')) =
          a ++ c :: ((b ++ e :: t) ++ c' :: b') := by simp
      rw [this] at hnd
      have := nodup_split_ne hnd
      exact fun h => this h.symm
    rw [hother _ hne1]
    have hF : lo' ++ e :: hi = (lo' ++ e :: t) ++ c' :: b' := by
      rw [h1]; simp
    exact hold.entry_at hF hi' hl

theorem LevelFrame.refl {α : Type} (heap : Heap α) : LevelFrame heap heap :=
  ⟨rfl, fun _ => rfl, fun _ => rfl, fun _ => rfl⟩

theorem LevelFrame.trans {α : Type} {h1 h2 h3 : Heap α} (a : LevelFrame h1 h2)
    (b : LevelFrame h2 h3) : LevelFrame h1 h3 :=
  ⟨b.1.trans a.1, fun q => (b.2.1 q).trans (a.2.1 q), fun q => (b.2.2.1 q).trans (a.2.2.1 q),
    fun q => (b.2.2.2 q).trans (a.2.2.2 q)⟩

theorem LevelUpd.to_frame {α : Type} {heap heap' : Heap α} {p i : Nat} {l : skiplistLevel}
    (h : LevelUpd heap heap' p i l) : LevelFrame heap heap' :=
  ⟨h.1, h.2.1, h.2.2.1, h.2.2.2.1⟩

theorem BaseOk.of_frame {α : Type} {heap heap' : Heap α} {F : List (Cell α)}
    (h : BaseOk heap F) (hf : LevelFrame heap heap') : BaseOk heap' F := by
  intro a c b hF
  obtain ⟨h1, h2, h3⟩ := h a c b hF
  exact ⟨by rw [hf.2.1]; exact h1, by rw [hf.2.2.1]; exact h2, by rw [hf.2.2.2]; exact h3⟩

/-! ## The loop bodies of `Insert` and `deleteNode` -/

theorem spliceBody_spec {α : Type} {heap : Heap α} {x u i : Nat} {upd : List (Option Nat)}
    {rk : List Int} {r0 ri : Int} {lu lx : skiplistLevel}
    (hu : upd[i]? = some (some u)) (h0 : rk[0]? = some r0) (hi : rk[i]? = some ri)
    (hlu : getLevel heap u i = some lu) (hlx : getLevel heap x i = some lx) (hne : u ≠ x) :
    ∃ heap', spliceBody x upd rk i heap = some heap' ∧ LevelFrame heap heap' ∧
      ∀ q j, getLevel heap' q j =
        if q = u ∧ j = i then some ⟨some x, r0 - ri + 1⟩
        else if q = x ∧ j = i then some ⟨lu.forward, lu.span - r0 + ri⟩
        else getLevel heap q j := by
  obtain ⟨h1, e1, u1⟩ := setForward_spec lu.forward hlx
  have g1 : getLevel h1 u i = some lu := by
    rw [u1.2.2.2.2]; simp [hne, hlu]
  obtain ⟨h2, e2, u2⟩ := setForward_spec (some x) g1
  have g2 : getLevel h2 u i = some ⟨some x, lu.span⟩ := by
    rw [u2.2.2.2.2]; simp
  have g3 : getLevel h2 x i = some ⟨lu.forward, lx.span⟩ := by
    rw [u2.2.2.2.2, u1.2.2.2.2]
    have : ¬ x = u := fun h => hne h.symm
    simp [this]
  obtain ⟨h3, e3, u3⟩ := setSpan_spec (lu.span - r0 + ri) g3
  have g4 : getLevel h3 u i = some ⟨some x, lu.span⟩ := by
    rw [u3.2.2.2.2]; simp [hne, g2]
  obtain ⟨h4, e4, u4⟩ := setSpan_spec (r0 - ri + 1) g4
  refine ⟨h4, ?_, ?_, ?_⟩
  · simp only [spliceBody, hu, h0, hi, hlu, e1, e2, g2, e3, e4]
  · exact (u1.to_frame.trans u2.to_frame).trans (u3.to_frame.trans u4.to_frame)
  · intro q j
    rw [u4.2.2.2.2, u3.2.2.2.2, u2.2.2.2.2, u1.2.2.2.2]
    by_cases hq : q = u ∧ j = i
    · simp [hq]
    · by_cases hq2 : q = x ∧ j = i
      · simp [hq, hq2]
      · simp [hq, hq2]

theorem bumpBody_spec {α : Type} {heap : Heap α} {u i : Nat} {upd : List (Option Nat)}
    {lu : skiplistLevel} (hu : upd[i]? = some (some u))
    (hlu : getLevel heap u i = some lu) :
    ∃ heap', bumpBody upd i heap = some heap' ∧
      LevelUpd heap heap' u i ⟨lu.forward, lu.span + 1⟩ := by
  obtain ⟨h1, e1, u1⟩ := setSpan_spec (lu.span + 1) hlu
  exact ⟨h1, by simp only [bumpBody, hu, hlu, e1], u1⟩

theorem unlinkBody_spec {α : Type} {heap : Heap α} {e u i : Nat} {upd : List (Option Nat)}
    {lu : skiplistLevel} (hu : upd[i]? = some (some u))
    (hlu : getLevel heap u i = some lu)
    (hle : lu.forward = some e → ∃ le, getLevel heap e i = some le) (hne : u ≠ e) :
    ∃ heap', unlinkBody e upd i heap = some heap' ∧ LevelFrame heap heap' ∧
      ∀ q j, getLevel heap' q j =
        if q = u ∧ j = i then
          (if lu.forward = some e then
            (getLevel heap e i).map (fun le => ⟨le.forward, lu.span + (le.span - 1)⟩)
          else some ⟨lu.forward, lu.span - 1⟩)
        else getLevel heap q j := by
  by_cases hf : lu.forward = some e
  · obtain ⟨le, hle'⟩ := hle hf
    obtain ⟨h1, e1, u1⟩ := setSpan_spec (lu.span + (le.span - 1)) hlu
    have g1 : getLevel h1 e i = some le := by
      rw [u1.2.2.2.2]
      have : ¬ e = u := fun h => hne h.symm
      simp [this, hle']
    have g2 : getLevel h1 u i = some ⟨lu.forward, lu.span + (le.span - 1)⟩ := by
      rw [u1.2.2.2.2]; simp
    obtain ⟨h2, e2, u2⟩ := setForward_spec le.forward g2
    refine ⟨h2, ?_, u1.to_frame.trans u2.to_frame, ?_⟩
    · simp only [unlinkBody, hu, hlu, hf, if_true, hle', e1, g1, e2]
    · intro q j
      rw [u2.2.2.2.2, u1.2.2.2.2]
      by_cases hq : q = u ∧ j = i
      · simp [hq, hf, hle']
      · simp [hq]
  · obtain ⟨h1, e1, u1⟩ := setSpan_spec (lu.span - 1) hlu
    refine ⟨h1, ?_, u1.to_frame, ?_⟩
    · simp only [unlinkBody, hu, hlu, hf, if_false, e1]
    · intro q j
      rw [u1.2.2.2.2]
      by_cases hq : q = u ∧ j = i
      · simp [hq, hf]
      · simp [hq]

theorem raiseBody_spec {α : Type} {heap : Heap α} {hdr i : Nat} (len : Int)
    {upd : List (Option Nat)} {rk : List Int} {l0 : skiplistLevel}
    (hu : i < upd.length) (hr : i < rk.length) (hl : getLevel heap hdr i = some l0) :
    ∃ heap', raiseBody hdr len i (heap, upd, rk) =
        some (heap', upd.set i (some hdr), rk.set i 0) ∧
      LevelUpd heap heap' hdr i ⟨l0.forward, len⟩ := by
  obtain ⟨h1, e1, u1⟩ := setSpan_spec len hl
  exact ⟨h1, by simp only [raiseBody, hu, hr, and_self, if_true, e1], u1⟩

/-! ## `Insert`: activating new header levels -/

theorem hcell_split {α : Type} {hdr : Nat} {L a : List (Cell α)} {c : Cell α}
    {b : List (Cell α)} (hF : hcell hdr :: L = a ++ c :: b) :
    (a = [] ∧ c = hcell hdr ∧ b = L) ∨ (∃ a', a = hcell hdr :: a' ∧ L = a' ++ c :: b) := by
  cases a with
  | nil => simp at hF; left; exact ⟨rfl, hF.1.symm, hF.2.symm⟩
  | cons a0 a => simp at hF; right; exact ⟨a, by rw [hF.1], hF.2⟩

theorem shape_raise {α : Type} {heap heap' : Heap α} {hdr i : Nat} {L : List (Cell α)}
    {l0 : skiplistLevel}
    (hs : Shape heap hdr i L) (hnd : ((hcell hdr :: L).map Cell.ptr).Nodup)
    (hh : ∀ c ∈ L, c.height ≤ i) (hl0 : getLevel heap hdr i = some l0)
    (hu : LevelUpd heap heap' hdr i ⟨l0.forward, (L.length : Int)⟩) :
    Shape heap' hdr (i + 1) L := by
  intro a c b hF
  obtain ⟨v1, v2, v3, v4⟩ := hs a c b hF
  refine ⟨by rw [hu.2.1]; exact v1, by rw [hu.2.2.1]; exact v2, by rw [hu.2.2.2.1]; exact v3, ?_⟩
  intro j hj
  rw [hu.2.2.2.2]
  by_cases hq : c.ptr = hdr ∧ j = i
  · obtain ⟨hq1, hq2⟩ := hq
    subst hq2
    have huniq := nodup_split_unique (a := []) (c := hcell hdr) (b := L)
      (by simpa using hnd) (by simpa using hF) (by rw [hq1]; rfl)
    obtain ⟨rfl, rfl, rfl⟩ := huniq
    obtain ⟨l, g1, g2, _⟩ := v4 j hj
    have hl : l = l0 := by
      have : getLevel heap hdr j = some l := g1
      rw [hl0] at this; simpa using this.symm
    subst hl
    refine ⟨⟨l.forward, (L.length : Int)⟩, by simp [hcell], g2, fun _ => ?_⟩
    exact (link_none_span j L hh).symm
  · obtain ⟨l, g1, g2, g3⟩ := v4 j hj
    refine ⟨l, by rw [if_neg hq]; exact g1, g2, fun hlt => ?_⟩
    rcases hcell_split hF with ⟨_, h2, _⟩ | ⟨a', _, h2⟩
    · have hji : j ≠ i := fun h => hq ⟨by rw [h2]; rfl, h⟩
      exact g3 (by omega)
    · have := hh c (by rw [h2]; simp)
      exact g3 (by omega)

theorem raise_spec {α : Type} {heap : Heap α} {hdr lvl h : Nat} {lo hi : List (Cell α)}
    {upd : List (Option Nat)} {rk : List Int}
    (hs : Shape heap hdr lvl (lo ++ hi))
    (hnd : ((hcell hdr :: (lo ++ hi)).map Cell.ptr).Nodup)
    (hh : ∀ c ∈ lo ++ hi, c.height ≤ lvl) (hlh : lvl ≤ h) (h32 : h ≤ SKIPLIST_MAXLEVEL)
    (hu : upd.length = SKIPLIST_MAXLEVEL) (hr : rk.length = SKIPLIST_MAXLEVEL)
    (hupd : ∀ j, j < lvl → UpdAt (hcell hdr :: lo) upd rk j) :
    ∃ heap1 upd1 rk1,
      forUp (raiseBody hdr ((lo ++ hi).length : Int)) (h - lvl) lvl (heap, upd, rk) =
        some (heap1, upd1, rk1) ∧
      LevelFrame heap heap1 ∧ Shape heap1 hdr h (lo ++ hi) ∧
      upd1.length = SKIPLIST_MAXLEVEL ∧ rk1.length = SKIPLIST_MAXLEVEL ∧
      ∀ j, j < h → UpdAt (hcell hdr :: lo) upd1 rk1 j := by
  let Inv : Nat → Heap α × List (Option Nat) × List Int → Prop := fun i st =>
    LevelFrame heap st.1 ∧ Shape st.1 hdr i (lo ++ hi) ∧
    st.2.1.length = SKIPLIST_MAXLEVEL ∧ st.2.2.length = SKIPLIST_MAXLEVEL ∧
    ∀ j, j < i → UpdAt (hcell hdr :: lo) st.2.1 st.2.2 j
  have hstep : ∀ i st, lvl ≤ i → i < lvl + (h - lvl) → Inv i st →
      ∃ st', raiseBody hdr ((lo ++ hi).length : Int) i st = some st' ∧ Inv (i + 1) st' := by
    rintro i ⟨heap', upd', rk'⟩ hi1 hi2 ⟨f1, s1, u1, r1, a1⟩
    simp only at f1 s1 u1 r1 a1
    have hi32 : i < SKIPLIST_MAXLEVEL := by omega
    have hhdr : getHeight heap' hdr = some SKIPLIST_MAXLEVEL :=
      (s1 [] (hcell hdr) (lo ++ hi) rfl).2.2.1
    obtain ⟨l0, hl0⟩ := getLevel_of_height hhdr hi32
    obtain ⟨heap'', e1, lu⟩ := @raiseBody_spec _ _ _ _ ((lo ++ hi).length : Int) upd' rk' _
      (by omega) (by omega) hl0
    refine ⟨_, e1, f1.trans lu.to_frame, ?_, by simp [u1], by simp [r1], ?_⟩
    · exact shape_raise s1 hnd (fun c hc => by have := hh c hc; omega) hl0 lu
    · intro j hj
      by_cases hji : j = i
      · subst hji
        refine ⟨[], hcell hdr, lo, rfl, hi32, ?_, ?_, ?_⟩
        · intro e he
          have := hh e (by simp [he]); omega
        · simp only; rw [List.getElem?_set_self (by omega)]; rfl
        · simp only; rw [List.getElem?_set_self (by omega)]; rfl
      · obtain ⟨a2, c2, b2, g1, g2, g3, g4, g5⟩ := a1 j (by omega)
        refine ⟨a2, c2, b2, g1, g2, g3, ?_, ?_⟩
        · simp only; rw [List.getElem?_set_ne (by omega)]; exact g4
        · simp only; rw [List.getElem?_set_ne (by omega)]; exact g5
  obtain ⟨⟨heap1, upd1, rk1⟩, h1, h2, h3, h4, h5, h6⟩ :=
    forUp_inv (raiseBody hdr ((lo ++ hi).length : Int)) Inv lvl (h - lvl) hstep (h - lvl) lvl
      (heap, upd, rk) rfl (le_refl _) ⟨LevelFrame.refl heap, hs, hu, hr, hupd⟩
  have hlh' : lvl + (h - lvl) = h := by omega
  rw [hlh'] at h3 h6
  exact ⟨heap1, upd1, rk1, h1, h2, h3, h4, h5, h6⟩

/-! ## `Insert`: the splice, level by level -/

theorem insert_inv_step {α : Type} {heap2 heap' heap'' : Heap α} {lvl' i : Nat}
    {lo' hi a b : List (Cell α)} {c new : Cell α}
    (hs2 : LinksAt heap2 lvl' i (lo' ++ hi)) (hl : i < lvl')
    (hdec : lo' = a ++ c :: b) (hc : i < c.height) (hb : ∀ e ∈ b, e.height ≤ i)
    (hnd : ((lo' ++ new :: hi).map Cell.ptr).Nodup)
    (hinv2 : ∀ j, j < i → LinksAt heap' lvl' j (lo' ++ new :: hi))
    (hinv3 : ∀ j, i ≤ j → ∀ q, getLevel heap' q j = getLevel heap2 q j)
    (hlev : ∀ q j, j ≠ i → getLevel heap'' q j = getLevel heap' q j)
    (hother : ∀ q, q ≠ c.ptr → q ≠ new.ptr → getLevel heap'' q i = getLevel heap' q i)
    (hc' : getLevel heap'' c.ptr i = some (link i (b ++ new :: hi)))
    (hnew : i < new.height → getLevel heap'' new.ptr i = some (link i hi)) :
    (∀ j, j < i + 1 → LinksAt heap'' lvl' j (lo' ++ new :: hi)) ∧
    (∀ j, i + 1 ≤ j → ∀ q, getLevel heap'' q j = getLevel heap2 q j) := by
  constructor
  · intro j hj
    by_cases hji : j = i
    · subst hji
      exact links_insert_step hs2 hl hdec hc hb hnd
        (fun q h1 h2 => by rw [hother q h1 h2, hinv3 j (le_refl _)]) hc' hnew
    · exact (hinv2 j (by omega)).congr (fun q => hlev q j hji)
  · intro j hj q
    rw [hlev q j (by omega), hinv3 j (by omega)]

theorem dec_length {α : Type} {hd : Cell α} {lo a : List (Cell α)} {c : Cell α}
    {b : List (Cell α)} (h : hd :: lo = a ++ c :: b) : lo.length = a.length + b.length := by
  have := congrArg List.length h
  simp at this
  omega

theorem splice_bump_spec {α : Type} {heap2 : Heap α} {hdr lvl' h x : Nat} {v : α}
    {lo hi : List (Cell α)} {upd : List (Option Nat)} {rk : List Int}
    (hs : Shape heap2 hdr lvl' (lo ++ hi))
    (hnd : ((hcell hdr :: lo ++ ⟨x, some v, h⟩ :: hi).map Cell.ptr).Nodup)
    (hx : getHeight heap2 x = some h) (hh : h ≤ lvl')
    (hlo : ∀ c ∈ lo, 1 ≤ c.height) (h1 : 1 ≤ lvl')
    (hheights : ∀ c ∈ lo ++ hi, c.height ≤ lvl')
    (hupd : ∀ j, j < lvl' → UpdAt (hcell hdr :: lo) upd rk j) :
    ∃ heap3 heap4, forUp (spliceBody x upd rk) h 0 heap2 = some heap3 ∧
      forUp (bumpBody upd) (lvl' - h) h heap3 = some heap4 ∧
      LevelFrame heap2 heap4 ∧
      ∀ j, LinksAt heap4 lvl' j (hcell hdr :: lo ++ ⟨x, some v, h⟩ :: hi) := by
  have hs2 := ((shape_iff heap2 hdr lvl' (lo ++ hi)).mp hs).2
  obtain ⟨_, _, _, _, hrk0⟩ := (hupd 0 h1).zero hlo
  let Inv : Nat → Heap α → Prop := fun i heap' =>
    LevelFrame heap2 heap' ∧
    (∀ j, j < i → LinksAt heap' lvl' j (hcell hdr :: lo ++ ⟨x, some v, h⟩ :: hi)) ∧
    (∀ j, i ≤ j → ∀ q, getLevel heap' q j = getLevel heap2 q j)
  -- the splice loop
  have hstep1 : ∀ i st, 0 ≤ i → i < 0 + h → Inv i st →
      ∃ st', spliceBody x upd rk i st = some st' ∧ Inv (i + 1) st' := by
    intro i heap' _ hiu ⟨f1, i2, i3⟩
    have hil : i < lvl' := by omega
    obtain ⟨a, c, b, hdec, hc, hb, hu, hr⟩ := hupd i hil
    have hF : hcell hdr :: (lo ++ hi) = a ++ c :: (b ++ hi) := by
      rw [← List.cons_append, hdec]; simp
    have hlu : getLevel heap' c.ptr i = some (link i (b ++ hi)) := by
      rw [i3 i (le_refl _)]; exact (hs2 i).entry_at hF hc hil
    obtain ⟨lx, hlx⟩ := getLevel_of_height (by rw [f1.2.2.2]; exact hx) (by omega : i < h)
    have hne : c.ptr ≠ x := by
      have hnd' := hnd
      rw [hdec] at hnd'
      simp only [List.append_assoc, List.cons_append] at hnd'
      exact nodup_split_ne hnd'
    obtain ⟨heap'', e1, f2, g⟩ := spliceBody_spec hu hrk0 hr hlu hlx hne
    have hlen := dec_length hdec
    obtain ⟨r1, r2⟩ := @insert_inv_step _ _ _ heap'' _ _ _ _ _ _ _ ⟨x, some v, h⟩
      (by simpa using hs2 i) hil hdec hc hb hnd i2 i3
      (fun q j hj => by rw [g]; simp [hj])
      (fun q hq1 hq2 => by rw [g]; simp [hq1]; intro hq; exact absurd hq hq2)
      (by
        rw [g]; simp only [and_self, if_true]
        rw [link_first i b ⟨x, some v, h⟩ hi hb (by simpa using hiu)]
        simp only [Option.some.injEq, skiplistLevel.mk.injEq, true_and]
        omega)
      (by
        intro _
        rw [g]
        have : ¬ (x = c.ptr) := fun h => hne h.symm
        simp only [this, false_and, if_false, and_self, if_true]
        rw [link_all_le i b hi hb]
        simp only [Option.some.injEq]
        cases hlk : link i hi with
        | mk f s => simp; omega)
    exact ⟨heap'', e1, f1.trans f2, r1, r2⟩
  obtain ⟨heap3, e3, f3, i3a, i3b⟩ :=
    forUp_inv (spliceBody x upd rk) Inv 0 h hstep1 h 0 heap2 (by omega) (le_refl _)
      ⟨LevelFrame.refl heap2, fun j hj => by omega, fun j _ q => rfl⟩
  -- the loop over the untouched levels
  have hstep2 : ∀ i st, h ≤ i → i < h + (lvl' - h) → Inv i st →
      ∃ st', bumpBody upd i st = some st' ∧ Inv (i + 1) st' := by
    intro i heap' hih hiu ⟨f1, i2, i3⟩
    have hil : i < lvl' := by omega
    obtain ⟨a, c, b, hdec, hc, hb, hu, hr⟩ := hupd i hil
    have hF : hcell hdr :: (lo ++ hi) = a ++ c :: (b ++ hi) := by
      rw [← List.cons_append, hdec]; simp
    have hlu : getLevel heap' c.ptr i = some (link i (b ++ hi)) := by
      rw [i3 i (le_refl _)]; exact (hs2 i).entry_at hF hc hil
    obtain ⟨heap'', e1, lu⟩ := bumpBody_spec hu hlu
    have g := lu.2.2.2.2
    obtain ⟨r1, r2⟩ := @insert_inv_step _ _ _ heap'' _ _ _ _ _ _ _ ⟨x, some v, h⟩
      (by simpa using hs2 i) hil hdec hc hb hnd i2 i3
      (fun q j hj => by rw [g]; simp [hj])
      (fun q hq1 hq2 => by rw [g]; simp [hq1])
      (by
        rw [g]; simp only [and_self, if_true]
        have hb' : ∀ e ∈ b ++ [⟨x, some v, h⟩], e.height ≤ i := by
          intro e he
          rcases List.mem_append.mp he with he | he
          · exact hb e he
          · simp at he; subst he; exact hih
        have := link_all_le i (b ++ [⟨x, some v, h⟩]) hi hb'
        simp only [List.append_assoc, List.singleton_append] at this
        rw [this, link_all_le i b hi hb]
        simp only [Option.some.injEq, skiplistLevel.mk.injEq, true_and, List.length_append,
          List.length_singleton]
        push_cast; ring)
      (by intro hlt; simp at hlt; omega)
    exact ⟨heap'', e1, f1.trans lu.to_frame, r1, r2⟩
  obtain ⟨heap4, e4, f4, i4a, i4b⟩ :=
    forUp_inv (bumpBody upd) Inv h (lvl' - h) hstep2 (lvl' - h) h heap3 rfl (le_refl _)
      (by
        have : 0 + h = h := by omega
        rw [this] at i3a i3b
        exact ⟨f3, i3a, i3b⟩)
  have hlh : h + (lvl' - h) = lvl' := by omega
  rw [hlh] at i4a i4b
  refine ⟨heap3, heap4, e3, e4, f4, ?_⟩
  intro j
  by_cases hj : j < lvl'
  · exact i4a j hj
  · -- above the list level only the header has entries
    intro a' c' b' hF' hj'
    rw [i4b j (by omega)]
    rcases hcell_split (L := lo ++ ⟨x, some v, h⟩ :: hi) (by simpa using hF') with
      ⟨g1, g2, g3⟩ | ⟨a'', _, g2⟩
    · subst g1 g2
      obtain ⟨l, k1, k2, _⟩ := hs2 j [] (hcell hdr) (lo ++ hi) rfl hj'
      refine ⟨l, k1, ?_, fun h => by omega⟩
      rw [k2, g3]
      rw [(link_forward_none j (lo ++ hi)).mpr (fun e he => by have := hheights e he; omega)]
      rw [(link_forward_none j _).mpr]
      intro e he
      rcases List.mem_append.mp he with he | he
      · have := hheights e (by simp [he]); omega
      · rcases List.mem_cons.mp he with rfl | he
        · simp; omega
        · have := hheights e (by simp [he]); omega
    · exfalso
      have hmem : c' ∈ lo ++ ⟨x, some v, h⟩ :: hi := by rw [g2]; simp
      rcases List.mem_append.mp hmem with he | he
      · have := hheights c' (by simp [he]); omega
      · rcases List.mem_cons.mp he with rfl | he
        · simp at hj'; omega
        · have := hheights c' (by simp [he]); omega

/-! ## `Insert`: backward pointers -/

theorem prevOf_eq {α : Type} (a : List (Cell α)) :
    prevOf a = if 2 ≤ a.length then a.getLast?.map Cell.ptr else none := by
  match a with
  | [] => rfl
  | [_] => rfl
  | x :: c :: rest =>
    simp only [prevOf, List.length_cons]
    rw [if_pos (by omega), List.getLast?_cons_cons, List.getLast?_eq_getLast _ (by simp)]
    rfl

theorem prevOf_snoc {α : Type} (a : List (Cell α)) (c : Cell α) (ha : a ≠ []) :
    prevOf (a ++ [c]) = some c.ptr := by
  rw [prevOf_eq]
  have : 2 ≤ (a ++ [c]).length := by
    cases a with
    | nil => exact absurd rfl ha
    | cons x a => simp
  rw [if_pos this, List.getLast?_concat]
  rfl

theorem prevOf_append {α : Type} (a t : List (Cell α)) (ha : a ≠ []) (ht : t ≠ []) :
    prevOf (a ++ t) = t.getLast?.map Cell.ptr := by
  rw [prevOf_eq]
  have : 2 ≤ (a ++ t).length := by
    cases a with
    | nil => exact absurd rfl ha
    | cons x a =>
      cases t with
      | nil => exact absurd rfl ht
      | cons y t => simp; omega
  rw [if_pos this, List.getLast?_append]
  cases t with
  | nil => exact absurd rfl ht
  | cons y t =>
    rw [List.getLast?_eq_getLast _ (by simp)]
    rfl

/-- The values, backward pointers and heights after `Insert` has set the
backward pointer of the new node and of its successor. -/
theorem baseOk_insert {α : Type} {heap heapF : Heap α} {lo' hi : List (Cell α)} {new : Cell α}
    (hbase : BaseOk heap (lo' ++ hi)) (hlo' : lo' ≠ [])
    (hnd : ((lo' ++ new :: hi).map Cell.ptr).Nodup)
    (hval : ∀ q, getValue heapF q = getValue heap q)
    (hht : ∀ q, getHeight heapF q = getHeight heap q)
    (hnv : getValue heap new.ptr = new.val) (hnh : getHeight heap new.ptr = some new.height)
    (hprev : ∀ q, Prev heapF q =
      if hi.head?.map Cell.ptr = some q then some (some new.ptr)
      else if q = new.ptr then some (prevOf lo') else Prev heap q) :
    BaseOk heapF (lo' ++ new :: hi) := by
  intro a' c' b' hF'
  rw [hval, hht, hprev]
  rcases split_cases hF'.symm with ⟨t, h1, h2⟩ | ⟨h1, h2, h3⟩ | ⟨t, h1, h2⟩
  · -- a node before the new one
    have hF : lo' ++ hi = a' ++ c' :: (t ++ hi) := by rw [h1]; simp
    obtain ⟨g1, g2, g3⟩ := hbase a' c' (t ++ hi) hF
    have hne : c'.ptr ≠ new.ptr := by
      rw [h1] at hnd
      simp only [List.append_assoc, List.cons_append] at hnd
      exact nodup_split_ne hnd
    have hne2 : ¬ hi.head?.map Cell.ptr = some c'.ptr := by
      cases hi with
      | nil => simp
      | cons e hi' =>
        simp only [List.head?_cons, Option.map_some', Option.some.injEq]
        rw [h1] at hnd
        simp only [List.append_assoc, List.cons_append] at hnd
        have : a' ++ c' :: (t ++ new :: e :: hi') = a' ++ c' :: ((t ++ [new]) ++ e :: hi') := by
          simp
        rw [this] at hnd
        have := nodup_split_ne hnd
        exact fun h => this h.symm
    rw [if_neg hne2, if_neg hne]
    exact ⟨g1, g2, g3⟩
  · -- the new node
    subst h2
    have hne2 : ¬ hi.head?.map Cell.ptr = some c'.ptr := by
      cases hi with
      | nil => simp
      | cons e hi' =>
        simp only [List.head?_cons, Option.map_some', Option.some.injEq]
        have : lo' ++ c' :: e :: hi' = lo' ++ c' :: ([] ++ e :: hi') := by simp
        rw [this] at hnd
        have := nodup_split_ne hnd
        exact fun h => this h.symm
    rw [if_neg hne2, if_pos rfl, h1]
    exact ⟨hnv, rfl, hnh⟩
  · -- a node after the new one
    have hF : lo' ++ hi = (lo' ++ t) ++ c' :: b' := by rw [h1]; simp
    obtain ⟨g1, g2, g3⟩ := hbase (lo' ++ t) c' b' hF
    refine ⟨g1, ?_, g3⟩
    cases t with
    | nil =>
      simp only [List.nil_append] at h1
      rw [h1]
      simp only [List.head?_cons, Option.map_some', if_true]
      rw [h2]
      have := prevOf_snoc lo' new hlo'
      simp only [List.append_assoc, List.singleton_append] at this ⊢
      rw [this]
    | cons t0 t =>
      have hne : c'.ptr ≠ new.ptr := by
        rw [h1] at hnd
        have := nodup_split_ne hnd
        exact fun h => this h.symm
      have hne2 : ¬ hi.head?.map Cell.ptr = some c'.ptr := by
        rw [h1]
        simp only [List.cons_append, List.head?_cons, Option.map_some', Option.some.injEq]
        rw [h1] at hnd
        have : lo' ++ new :: (t0 :: t ++ c' :: b') = (lo' ++ [new]) ++ t0 :: (t ++ c' :: b') := by
          simp
        rw [this] at hnd
        exact nodup_split_ne hnd
      rw [if_neg hne2, if_neg hne, g2, h2]
      congr 1
      rw [prevOf_append lo' (t0 :: t) hlo' (by simp)]
      have : lo' ++ new :: t0 :: t = (lo' ++ [new]) ++ t0 :: t := by simp
      rw [this, prevOf_append (lo' ++ [new]) (t0 :: t) (by simp) (by simp)]

/-! ## `Insert` keeps the representation invariant -/

theorem Shape.alloc {α : Type} {heap : Heap α} {hdr lvl : Nat} {L : List (Cell α)}
    (hs : Shape heap hdr lvl L) (n : Node α) : Shape (heap ++ [n]) hdr lvl L := by
  intro a c b hF
  obtain ⟨v1, v2, v3, v4⟩ := hs a c b hF
  have hlt := getHeight_lt v3
  obtain ⟨g1, g2, g3, g4⟩ := (alloc_spec heap n).1 c.ptr hlt
  refine ⟨by rw [g1]; exact v1, by rw [g2]; exact v2, by rw [g3]; exact v3, ?_⟩
  intro i hi
  rw [g4]
  exact v4 i hi

theorem raise_or_keep {α : Type} {sl : SkipList α} {lo hi : List (Cell α)} (h : Nat)
    (hrep : Rep sl (lo ++ hi)) (h32 : h ≤ SKIPLIST_MAXLEVEL)
    {upd0 : List (Option Nat)} {rk0 : List Int}
    (hu : upd0.length = SKIPLIST_MAXLEVEL) (hr : rk0.length = SKIPLIST_MAXLEVEL)
    (hupd : ∀ j, j < sl.level → UpdAt (hcell sl.header :: lo) upd0 rk0 j) :
    ∃ heap1 upd rk,
      (if h > sl.level then
        forUp (raiseBody sl.header sl.length) (h - sl.level) sl.level (sl.heap, upd0, rk0)
       else some (sl.heap, upd0, rk0)) = some (heap1, upd, rk) ∧
      LevelFrame sl.heap heap1 ∧
      Shape heap1 sl.header (if h > sl.level then h else sl.level) (lo ++ hi) ∧
      upd.length = SKIPLIST_MAXLEVEL ∧ rk.length = SKIPLIST_MAXLEVEL ∧
      ∀ j, j < (if h > sl.level then h else sl.level) →
        UpdAt (hcell sl.header :: lo) upd rk j := by
  by_cases hgt : h > sl.level
  · simp only [hgt, if_true]
    rw [hrep.length]
    exact raise_spec hrep.shape hrep.nodup (fun c hc => (hrep.height c hc).2) (by omega) h32
      hu hr hupd
  · simp only [hgt, if_false]
    exact ⟨sl.heap, upd0, rk0, rfl, LevelFrame.refl _, hrep.shape, hu, hr, hupd⟩

theorem getLast?_insert_cell {α : Type} (lo hi : List (Cell α)) (new : Cell α) :
    (lo ++ new :: hi).getLast? = if hi.isEmpty then some new else (lo ++ hi).getLast? := by
  cases hi with
  | nil => simp
  | cons e hi =>
    simp only [List.getLast?_append, List.isEmpty_cons, Bool.false_eq_true, if_false]
    rw [List.getLast?_cons_cons]

/-- `Insert` with drawn height `h` returns, and places the new node between
the nodes `Less` than `v` and the others. -/
theorem insertLevel_spec {α : Type} [DecidableEq α] {sl : SkipList α} {lo hi : List (Cell α)}
    (less : α → α → Bool) (v : α) (h : Nat)
    (hrep : Rep sl (lo ++ hi)) (hsp : Splits less v lo hi)
    (h1 : 1 ≤ h) (h32 : h ≤ SKIPLIST_MAXLEVEL) :
    ∃ sl', insertLevel less sl v h = some (sl.heap.length, sl') ∧
      Rep sl' (lo ++ ⟨sl.heap.length, some v, h⟩ :: hi) ∧
      sl'.header = sl.header ∧ sl'.nodes = mapSet sl.nodes v sl.heap.length ∧
      sl'.heap.length = sl.heap.length + 1 ∧
      (∀ q, q < sl.heap.length → getValue sl'.heap q = getValue sl.heap q) ∧
      getValue sl'.heap sl.heap.length = some v := by
  -- the descent
  obtain ⟨x0, upd0, rk0, e1, hu0, hr0, hupd0, _⟩ :=
    insertDescend_spec less v hrep.shape hrep.nodup hrep.level_pos hrep.level_le hsp
      sl.update sl.rank hrep.update_len hrep.rank_len
  -- new header levels
  obtain ⟨heap1, upd, rk, e2, f1, s1, hu, hr, hupd⟩ := raise_or_keep h hrep h32 hu0 hr0 hupd0
  generalize hlvl' : (if h > sl.level then h else sl.level) = lvl' at s1 hupd
  have hl1 : 1 ≤ lvl' := by
    have := hrep.level_pos; rw [← hlvl']; split <;> omega
  have hl2 : lvl' ≤ SKIPLIST_MAXLEVEL := by
    have := hrep.level_le; rw [← hlvl']; split <;> omega
  have hhl : h ≤ lvl' := by rw [← hlvl']; split <;> omega
  have hll : sl.level ≤ lvl' := by rw [← hlvl']; split <;> omega
  -- the new node
  have hxlen : heap1.length = sl.heap.length := f1.1
  have s2 := s1.alloc (newNode h (some v))
  obtain ⟨_, av, ap, ah, al⟩ := alloc_spec heap1 (newNode h (some v))
  rw [hxlen] at av ap ah al
  have hfresh : sl.heap.length ∉ (hcell sl.header :: (lo ++ hi)).map Cell.ptr := by
    intro hmem
    obtain ⟨c, hc, hcp⟩ := List.mem_map.mp hmem
    have := hrep.shape.ptr_lt hc
    omega
  have hnd : ((hcell sl.header :: lo ++ ⟨sl.heap.length, some v, h⟩ :: hi).map
      Cell.ptr).Nodup := by
    simp only [List.map_append, List.map_cons]
    rw [List.nodup_middle]
    refine List.nodup_cons.mpr ⟨?_, ?_⟩
    · simpa using hfresh
    · simpa using hrep.nodup
  have hlo : ∀ c ∈ lo, 1 ≤ c.height := fun c hc => (hrep.height c (by simp [hc])).1
  have hhi : ∀ c ∈ hi, 1 ≤ c.height := fun c hc => (hrep.height c (by simp [hc])).1
  -- the splice
  obtain ⟨heap3, heap4, e3, e4, f4, hlinks⟩ :=
    splice_bump_spec (v := v) s2 hnd (by simpa [newNode] using ah) hhl hlo hl1
      (fun c hc => by have := (hrep.height c hc).2; omega) hupd
  -- backward pointers
  obtain ⟨a0, c0, hdec0, hu0', _⟩ := (hupd 0 hl1).zero hlo
  have hxh : getHeight heap4 sl.heap.length = some h := by
    rw [f4.2.2.2]; simpa [newNode] using ah
  obtain ⟨heap5, e5, b5⟩ := setBackward_spec
    (if c0.ptr = sl.header then none else some c0.ptr) hxh
  have hlx : getLevel heap5 sl.heap.length 0 = some (link 0 hi) := by
    rw [b5.2.2.2.2]
    exact (hlinks 0).entry_at (a := hcell sl.header :: lo)
      (c := ⟨sl.heap.length, some v, h⟩) (b := hi) (by simp) (by simpa using h1) hl1
  have hbx : (if c0.ptr = sl.header then none else some c0.ptr) =
      prevOf (hcell sl.header :: lo) := by
    cases a0 with
    | nil =>
      simp at hdec0
      rw [← hdec0.1, hdec0.2]
      simp [hcell, prevOf]
    | cons a00 a0 =>
      simp at hdec0
      have hc0 : c0 ∈ lo := by rw [hdec0.2]; simp
      have hne : c0.ptr ≠ sl.header := by
        intro heq
        have := hrep.nodup
        simp only [List.map_cons, List.nodup_cons] at this
        apply this.1
        rw [← heq]
        exact List.mem_map.mpr ⟨c0, by simp [hc0], rfl⟩
      rw [if_neg hne, hdec0.2]
      have := prevOf_snoc (hcell sl.header :: a0) c0 (by simp)
      simpa using this.symm
  have hbase4 : BaseOk heap4 (hcell sl.header :: lo ++ hi) :=
    (((shape_iff _ _ _ _).mp s2).1).of_frame f4
  have hnv : getValue heap4 sl.heap.length = some v := by
    rw [f4.2.1]; simpa [newNode] using av
  have hlen4 : heap4.length = sl.heap.length + 1 := by
    rw [f4.1]; simp [hxlen]
  have hvalframe : ∀ q, q < sl.heap.length → getValue heap4 q = getValue sl.heap q := by
    intro q hq
    rw [f4.2.1, ((alloc_spec heap1 (newNode h (some v))).1 q (by omega)).1, f1.2.1]
  -- the common part of the two results
  have hfinal : ∀ heapF tailF,
      (∀ q, getValue heapF q = getValue heap4 q) →
      (∀ q, getHeight heapF q = getHeight heap4 q) →
      (∀ q j, getLevel heapF q j = getLevel heap4 q j) →
      (∀ q, Prev heapF q =
        if hi.head?.map Cell.ptr = some q then some (some sl.heap.length)
        else if q = sl.heap.length then some (prevOf (hcell sl.header :: lo))
        else Prev heap4 q) →
      tailF = (if hi.isEmpty then some sl.heap.length else sl.tail) →
      Rep { heap := heapF, header := sl.header, tail := tailF, update := upd, rank := rk,
            length := sl.length + 1, level := lvl', nodes := mapSet sl.nodes v sl.heap.length }
        (lo ++ ⟨sl.heap.length, some v, h⟩ :: hi) := by
    intro heapF tailF hv hh hlv hp ht
    refine
      { shape := ?_, nodup := hnd, vals := ?_, height := ?_, level_pos := hl1, level_le := hl2,
        level_max := ?_, length := ?_, tail := ?_, update_len := hu, rank_len := hr }
    · apply (shape_iff _ _ _ _).mpr
      refine ⟨?_, fun j => (hlinks j).congr (fun q => hlv q j)⟩
      exact @baseOk_insert _ _ _ _ _ ⟨sl.heap.length, some v, h⟩ hbase4 (by simp) hnd hv hh
        hnv hxh hp
    · intro c hc
      rcases List.mem_append.mp hc with hc | hc
      · exact hrep.vals c (by simp [hc])
      · rcases List.mem_cons.mp hc with rfl | hc
        · exact ⟨v, rfl⟩
        · exact hrep.vals c (by simp [hc])
    · intro c hc
      show 1 ≤ c.height ∧ c.height ≤ lvl'
      rcases List.mem_append.mp hc with hc | hc
      · have := hrep.height c (by simp [hc]); omega
      · rcases List.mem_cons.mp hc with rfl | hc
        · exact ⟨h1, hhl⟩
        · have := hrep.height c (by simp [hc]); omega
    · show lvl' = 1 ∨ ∃ c ∈ lo ++ ⟨sl.heap.length, some v, h⟩ :: hi, c.height = lvl'
      by_cases hgt : h > sl.level
      · right
        refine ⟨⟨sl.heap.length, some v, h⟩, by simp, ?_⟩
        rw [← hlvl', if_pos hgt]
      · rw [if_neg hgt] at hlvl'
        rcases hrep.level_max with hm | ⟨c, hc, hm⟩
        · left; omega
        · right
          refine ⟨c, ?_, by omega⟩
          rcases List.mem_append.mp hc with hc | hc
          · exact List.mem_append.mpr (Or.inl hc)
          · exact List.mem_append.mpr (Or.inr (List.mem_cons_of_mem _ hc))
    · show sl.length + 1 = _
      rw [hrep.length]; simp; omega
    · show tailF = _
      rw [ht, getLast?_insert_cell]
      cases hi with
      | nil => simp
      | cons e hi' =>
        simp only [List.isEmpty_cons, Bool.false_eq_true, if_false]
        exact hrep.tail
  -- run the code
  have hrun : insertLevel less sl v h =
      match (link 0 hi).forward with
      | some f =>
        match setBackward heap5 f (some sl.heap.length) with
        | none => none
        | some heap6 =>
          some (sl.heap.length,
            { heap := heap6, header := sl.header, tail := sl.tail, update := upd, rank := rk,
              length := sl.length + 1, level := lvl',
              nodes := mapSet sl.nodes v sl.heap.length })
      | none =>
        some (sl.heap.length,
          { heap := heap5, header := sl.header, tail := some sl.heap.length, update := upd,
            rank := rk, length := sl.length + 1, level := lvl',
            nodes := mapSet sl.nodes v sl.heap.length }) := by
    unfold insertLevel
    rw [e1]
    simp only []
    rw [e2]
    simp only [hxlen, hlvl']
    rw [e3]
    simp only []
    rw [e4]
    simp only [hu0']
    rw [e5]
    simp only [hlx]
  rw [hrun]
  cases hhi' : hi with
  | nil =>
    subst hhi'
    simp only [link_nil]
    refine ⟨_, rfl, ?_, rfl, rfl, ?_, ?_, ?_⟩
    · apply hfinal heap5 _ b5.2.1 b5.2.2.2.1 b5.2.2.2.2 _ (by simp)
      intro q
      rw [b5.2.2.1, hbx]
      simp
    · show heap5.length = _
      rw [b5.1, hlen4]
    · intro q hq
      show getValue heap5 q = _
      rw [b5.2.1, hvalframe q hq]
    · show getValue heap5 _ = _
      rw [b5.2.1, hnv]
  | cons e hi' =>
    subst hhi'
    have he1 := hhi e (by simp)
    rw [link_cons, if_pos (by omega)]
    simp only []
    have heh : getHeight heap5 e.ptr = some e.height := by
      rw [b5.2.2.2.1]
      exact (hbase4 (hcell sl.header :: lo) e hi' (by simp)).2.2
    obtain ⟨heap6, e6, b6⟩ := setBackward_spec (some sl.heap.length) heh
    rw [e6]
    have hne : e.ptr ≠ sl.heap.length := by
      intro heq
      apply hfresh
      rw [← heq]
      exact List.mem_map.mpr ⟨e, by simp, rfl⟩
    refine ⟨_, rfl, ?_, rfl, rfl, ?_, ?_, ?_⟩
    · apply hfinal heap6 _ (fun q => by rw [b6.2.1, b5.2.1])
        (fun q => by rw [b6.2.2.2.1, b5.2.2.2.1])
        (fun q j => by rw [b6.2.2.2.2, b5.2.2.2.2]) _ (by simp)
      intro q
      rw [b6.2.2.1, b5.2.2.1, hbx]
      simp only [List.head?_cons, Option.map_some', Option.some.injEq]
      by_cases hq : q = e.ptr
      · subst hq; simp
      · have : ¬ e.ptr = q := fun h => hq h.symm
        simp [hq, this]
    · show heap6.length = _
      rw [b6.1, b5.1, hlen4]
    · intro q hq
      show getValue heap6 q = _
      rw [b6.2.1, b5.2.1, hvalframe q hq]
    · show getValue heap6 _ = _
      rw [b6.2.1, b5.2.1, hnv]

/-! ## `deleteNode` keeps the representation invariant -/

theorem prevOf_cons {α : Type} (hd : Cell α) (lo : List (Cell α)) :
    prevOf (hd :: lo) = lo.getLast?.map Cell.ptr := by
  cases lo with
  | nil => rfl
  | cons c rest =>
    have := prevOf_append [hd] (c :: rest) (by simp) (by simp)
    simpa using this

theorem Shape.mono {α : Type} {heap : Heap α} {hdr lvl lvl' : Nat} {L : List (Cell α)}
    (hs : Shape heap hdr lvl L) (hle : lvl' ≤ lvl) : Shape heap hdr lvl' L := by
  intro a c b hF
  obtain ⟨v1, v2, v3, v4⟩ := hs a c b hF
  refine ⟨v1, v2, v3, fun i hi => ?_⟩
  obtain ⟨l, g1, g2, g3⟩ := v4 i hi
  exact ⟨l, g1, g2, fun h => g3 (by omega)⟩

theorem shrinkLevel_spec {α : Type} (heap : Heap α) (hdr : Nat) :
    ∀ lvl, (∀ j, j < lvl → ∃ l, getLevel heap hdr j = some l) →
      ∃ l', shrinkLevel heap hdr lvl = some l' ∧ l' ≤ lvl ∧ (1 ≤ lvl → 1 ≤ l') ∧
        (∀ j, l' ≤ j → j < lvl → ∃ l, getLevel heap hdr j = some l ∧ l.forward = none) ∧
        (l' ≤ 1 ∨ ∃ l, getLevel heap hdr (l' - 1) = some l ∧ l.forward ≠ none) := by
  intro lvl
  induction lvl with
  | zero =>
    intro _
    exact ⟨0, rfl, le_refl _, fun h => by omega, fun j h1 h2 => by omega, Or.inl (by omega)⟩
  | succ n ih =>
    intro hall
    unfold shrinkLevel
    by_cases hn : n + 1 > 1
    · rw [if_pos hn]
      obtain ⟨l, hl⟩ := hall n (by omega)
      rw [hl]
      by_cases hf : l.forward = none
      · simp only [hf, if_true]
        obtain ⟨l', g1, g2, g3, g4, g5⟩ := ih (fun j hj => hall j (by omega))
        refine ⟨l', g1, by omega, fun _ => g3 (by omega), ?_, g5⟩
        intro j hj1 hj2
        by_cases hjn : j = n
        · subst hjn; exact ⟨l, hl, hf⟩
        · exact g4 j hj1 (by omega)
      · simp only [hf, if_false]
        refine ⟨n + 1, rfl, le_refl _, fun _ => by omega, fun j h1 h2 => by omega, Or.inr ?_⟩
        exact ⟨l, by simpa using hl, hf⟩
    · rw [if_neg hn]
      exact ⟨n + 1, rfl, le_refl _, fun _ => by omega, fun j h1 h2 => by omega,
        Or.inl (by omega)⟩

theorem delete_inv_step {α : Type} {heap0 heap' heap'' : Heap α} {lvl i : Nat}
    {lo' hi a b : List (Cell α)} {c e : Cell α}
    (hs2 : LinksAt heap0 lvl i (lo' ++ e :: hi)) (hl : i < lvl)
    (hdec : lo' = a ++ c :: b) (hc : i < c.height) (hb : ∀ x ∈ b, x.height ≤ i)
    (hnd : ((lo' ++ e :: hi).map Cell.ptr).Nodup)
    (hinv2 : ∀ j, j < i → LinksAt heap' lvl j (lo' ++ hi))
    (hinv3 : ∀ j, i ≤ j → ∀ q, getLevel heap' q j = getLevel heap0 q j)
    (hlev : ∀ q j, j ≠ i → getLevel heap'' q j = getLevel heap' q j)
    (hother : ∀ q, q ≠ c.ptr → getLevel heap'' q i = getLevel heap' q i)
    (hc' : getLevel heap'' c.ptr i = some (link i (b ++ hi))) :
    (∀ j, j < i + 1 → LinksAt heap'' lvl j (lo' ++ hi)) ∧
    (∀ j, i + 1 ≤ j → ∀ q, getLevel heap'' q j = getLevel heap0 q j) := by
  constructor
  · intro j hj
    by_cases hji : j = i
    · subst hji
      exact links_delete_step hs2 hl hdec hc hb hnd
        (fun q h1 => by rw [hother q h1, hinv3 j (le_refl _)]) hc'
    · exact (hinv2 j (by omega)).congr (fun q => hlev q j hji)
  · intro j hj q
    rw [hlev q j (by omega), hinv3 j (by omega)]

/-- The values, backward pointers and heights after `deleteNode` has set the
backward pointer of the successor of the removed node. -/
theorem baseOk_delete {α : Type} {heap heapF : Heap α} {lo' hi : List (Cell α)} {e : Cell α}
    (hbase : BaseOk heap (lo' ++ e :: hi)) (hlo' : lo' ≠ [])
    (hnd : ((lo' ++ e :: hi).map Cell.ptr).Nodup)
    (hval : ∀ q, getValue heapF q = getValue heap q)
    (hht : ∀ q, getHeight heapF q = getHeight heap q)
    (hprev : ∀ q, Prev heapF q =
      if hi.head?.map Cell.ptr = some q then some (prevOf lo') else Prev heap q) :
    BaseOk heapF (lo' ++ hi) := by
  intro a' c' b' hF'
  rw [hval, hht, hprev]
  rcases split_cases2 hF'.symm with ⟨t, h1, h2⟩ | ⟨t, h1, h2⟩
  · have hF : lo' ++ e :: hi = a' ++ c' :: (t ++ e :: hi) := by rw [h1]; simp
    obtain ⟨g1, g2, g3⟩ := hbase a' c' (t ++ e :: hi) hF
    have hne2 : ¬ hi.head?.map Cell.ptr = some c'.ptr := by
      cases hi with
      | nil => simp
      | cons f hi' =>
        simp only [List.head?_cons, Option.map_some', Option.some.injEq]
        rw [h1] at hnd
        simp only [List.append_assoc, List.cons_append] at hnd
        have : a' ++ c' :: (t ++ e :: f :: hi') = a' ++ c' :: ((t ++ [e]) ++ f :: hi') := by
          simp
        rw [this] at hnd
        have := nodup_split_ne hnd
        exact fun h => this h.symm
    rw [if_neg hne2]
    exact ⟨g1, g2, g3⟩
  · have hF : lo' ++ e :: hi = (lo' ++ e :: t) ++ c' :: b' := by rw [h1]; simp
    obtain ⟨g1, g2, g3⟩ := hbase (lo' ++ e :: t) c' b' hF
    refine ⟨g1, ?_, g3⟩
    cases t with
    | nil =>
      simp only [List.nil_append] at h1
      rw [h1]
      simp only [List.head?_cons, Option.map_some', if_true]
      rw [h2]
      simp
    | cons t0 t =>
      have hne2 : ¬ hi.head?.map Cell.ptr = some c'.ptr := by
        rw [h1]
        simp only [List.cons_append, List.head?_cons, Option.map_some', Option.some.injEq]
        rw [h1] at hnd
        have : lo' ++ e :: (t0 :: t ++ c' :: b') = (lo' ++ [e]) ++ t0 :: (t ++ c' :: b') := by
          simp
        rw [this] at hnd
        exact nodup_split_ne hnd
      rw [if_neg hne2, g2, h2]
      congr 1
      rw [prevOf_append lo' (t0 :: t) hlo' (by simp)]
      have : lo' ++ e :: t0 :: t = (lo' ++ [e]) ++ t0 :: t := by simp
      rw [this, prevOf_append (lo' ++ [e]) (t0 :: t) (by simp) (by simp)]

theorem unlink_spec {α : Type} {heap : Heap α} {hdr lvl : Nat} {lo hi : List (Cell α)}
    {e : Cell α} {upd : List (Option Nat)} {rk : List Int}
    (hs : Shape heap hdr lvl (lo ++ e :: hi))
    (hnd : ((hcell hdr :: lo ++ e :: hi).map Cell.ptr).Nodup)
    (hheights : ∀ c ∈ lo ++ e :: hi, c.height ≤ lvl)
    (hupd : ∀ j, j < lvl → UpdAt (hcell hdr :: lo) upd rk j) :
    ∃ heap1, forUp (unlinkBody e.ptr upd) lvl 0 heap = some heap1 ∧
      LevelFrame heap heap1 ∧
      (∀ j, LinksAt heap1 lvl j (hcell hdr :: lo ++ hi)) ∧
      (∀ j, getLevel heap1 e.ptr j = getLevel heap e.ptr j) := by
  have hs2 := ((shape_iff heap hdr lvl (lo ++ e :: hi)).mp hs).2
  let Inv : Nat → Heap α → Prop := fun i heap' =>
    LevelFrame heap heap' ∧
    (∀ j, j < i → LinksAt heap' lvl j (hcell hdr :: lo ++ hi)) ∧
    (∀ j, i ≤ j → ∀ q, getLevel heap' q j = getLevel heap q j) ∧
    (∀ j, getLevel heap' e.ptr j = getLevel heap e.ptr j)
  have hstep : ∀ i st, 0 ≤ i → i < 0 + lvl → Inv i st →
      ∃ st', unlinkBody e.ptr upd i st = some st' ∧ Inv (i + 1) st' := by
    intro i heap' _ hiu ⟨f1, i2, i3, i4⟩
    have hil : i < lvl := by omega
    obtain ⟨a, c, b, hdec, hc, hb, hu, _⟩ := hupd i hil
    have hF : hcell hdr :: (lo ++ e :: hi) = a ++ c :: (b ++ e :: hi) := by
      rw [← List.cons_append, hdec]; simp
    have hlu : getLevel heap' c.ptr i = some (link i (b ++ e :: hi)) := by
      rw [i3 i (le_refl _)]; exact (hs2 i).entry_at hF hc hil
    have hne : c.ptr ≠ e.ptr := by
      have hnd' := hnd
      rw [hdec] at hnd'
      simp only [List.append_assoc, List.cons_append] at hnd'
      exact nodup_split_ne hnd'
    have hFe : hcell hdr :: (lo ++ e :: hi) = (hcell hdr :: lo) ++ e :: hi := by simp
    have hnothi : (link i hi).forward ≠ some e.ptr := by
      intro hf
      obtain ⟨b1, c2, b2, k1, _, _, k4, _⟩ := link_forward_some i hi e.ptr hf
      have hnd' := hnd
      rw [k1] at hnd'
      exact nodup_split_ne hnd' k4.symm
    by_cases hie : i < e.height
    · have hlk : link i (b ++ e :: hi) = ⟨some e.ptr, (b.length : Int) + 1⟩ :=
        link_first i b e hi hb hie
      have hle : getLevel heap' e.ptr i = some (link i hi) := by
        rw [i3 i (le_refl _)]; exact (hs2 i).entry_at hFe hie hil
      obtain ⟨heap'', e1, f2, g⟩ := unlinkBody_spec hu hlu (fun _ => ⟨_, hle⟩) hne
      obtain ⟨r1, r2⟩ := @delete_inv_step _ _ _ heap'' _ _ _ _ _ _ _ e
        (by simpa using hs2 i) hil hdec hc hb hnd i2 i3
        (fun q j hj => by rw [g]; simp [hj])
        (fun q hq1 => by rw [g]; simp [hq1])
        (by
          rw [g]; simp only [and_self, if_true, hlk, hle, Option.map_some']
          rw [link_all_le i b hi hb]
          simp only [Option.some.injEq, skiplistLevel.mk.injEq, true_and]
          omega)
      refine ⟨heap'', e1, f1.trans f2, r1, r2, ?_⟩
      intro j
      rw [g, ← i4 j]
      have : ¬ e.ptr = c.ptr := fun h => hne h.symm
      simp [this]
    · have hb' : ∀ x ∈ b ++ [e], x.height ≤ i := by
        intro x hx
        rcases List.mem_append.mp hx with hx | hx
        · exact hb x hx
        · simp at hx; subst hx; omega
      have hlk : link i (b ++ e :: hi) =
          ⟨(link i hi).forward, (link i hi).span + ((b.length : Int) + 1)⟩ := by
        have := link_all_le i (b ++ [e]) hi hb'
        simp only [List.append_assoc, List.singleton_append] at this
        rw [this]
        simp
      obtain ⟨heap'', e1, f2, g⟩ := unlinkBody_spec (e := e.ptr) hu hlu
        (fun hf => by rw [hlk] at hf; exact absurd hf hnothi) hne
      obtain ⟨r1, r2⟩ := @delete_inv_step _ _ _ heap'' _ _ _ _ _ _ _ e
        (by simpa using hs2 i) hil hdec hc hb hnd i2 i3
        (fun q j hj => by rw [g]; simp [hj])
        (fun q hq1 => by rw [g]; simp [hq1])
        (by
          rw [g]; simp only [and_self, if_true, hlk, hnothi, if_false]
          rw [link_all_le i b hi hb]
          simp only [Option.some.injEq, skiplistLevel.mk.injEq, true_and]
          omega)
      refine ⟨heap'', e1, f1.trans f2, r1, r2, ?_⟩
      intro j
      rw [g, ← i4 j]
      have : ¬ e.ptr = c.ptr := fun h => hne h.symm
      simp [this]
  obtain ⟨heap1, e1, f1, i1a, i1b, i1c⟩ :=
    forUp_inv (unlinkBody e.ptr upd) Inv 0 lvl hstep lvl 0 heap (by omega) (le_refl _)
      ⟨LevelFrame.refl heap, fun j hj => by omega, fun j _ q => rfl, fun j => rfl⟩
  have h0 : 0 + lvl = lvl := by omega
  rw [h0] at i1a i1b
  refine ⟨heap1, e1, f1, ?_, i1c⟩
  intro j
  by_cases hj : j < lvl
  · exact i1a j hj
  · intro a' c' b' hF' hj'
    rw [i1b j (by omega)]
    rcases hcell_split (L := lo ++ hi) (by simpa using hF') with
      ⟨g1, g2, g3⟩ | ⟨a'', _, g2⟩
    · subst g1 g2
      obtain ⟨l, k1, k2, _⟩ := hs2 j [] (hcell hdr) (lo ++ e :: hi) rfl hj'
      refine ⟨l, k1, ?_, fun h => by omega⟩
      rw [k2, g3]
      rw [(link_forward_none j (lo ++ e :: hi)).mpr
        (fun x hx => by have := hheights x hx; omega)]
      rw [(link_forward_none j _).mpr]
      intro x hx
      have hx' : x ∈ lo ++ e :: hi := by
        rcases List.mem_append.mp hx with hx | hx
        · simp [hx]
        · simp [hx]
      have := hheights x hx'; omega
    · exfalso
      have hmem : c' ∈ lo ++ hi := by rw [g2]; simp
      have hx' : c' ∈ lo ++ e :: hi := by
        rcases List.mem_append.mp hmem with hx | hx
        · simp [hx]
        · simp [hx]
      have := hheights c' hx'; omega

theorem getLast?_delete_cell {α : Type} (lo hi : List (Cell α)) (e : Cell α) :
    (lo ++ hi).getLast? = if hi.isEmpty then lo.getLast? else (lo ++ e :: hi).getLast? := by
  cases hi with
  | nil => simp
  | cons f hi =>
    simp only [List.getLast?_append, List.isEmpty_cons, Bool.false_eq_true, if_false]
    rw [List.getLast?_cons_cons]

/-- `deleteNode` returns and removes the node `e` from the list, when
`update` holds the predecessors of `e`. -/
theorem deleteNode_spec {α : Type} {sl : SkipList α} {lo hi : List (Cell α)} {e : Cell α}
    {upd : List (Option Nat)} {rk : List Int}
    (hrep : Rep sl (lo ++ e :: hi))
    (hupd : ∀ j, j < sl.level → UpdAt (hcell sl.header :: lo) upd rk j) :
    ∃ sl', deleteNode sl e.ptr upd = some sl' ∧ Rep sl' (lo ++ hi) ∧
      sl'.header = sl.header ∧ sl'.nodes = sl.nodes ∧ sl'.length = sl.length - 1 ∧
      sl'.heap.length = sl.heap.length ∧
      (∀ q, getValue sl'.heap q = getValue sl.heap q) := by
  have hnd := hrep.nodup
  have hnd' : ((hcell sl.header :: lo ++ e :: hi).map Cell.ptr).Nodup := by simpa using hnd
  obtain ⟨heap1, e1, f1, hlinks, he⟩ :=
    unlink_spec hrep.shape hnd' (fun c hc => (hrep.height c hc).2) hupd
  have hbase := ((shape_iff _ _ _ _).mp hrep.shape).1
  have hbase1 : BaseOk heap1 (hcell sl.header :: lo ++ e :: hi) := by
    have := hbase.of_frame f1
    simpa using this
  obtain ⟨ev, ep, eh⟩ := hbase1 (hcell sl.header :: lo) e hi rfl
  have he1 : 1 ≤ e.height := (hrep.height e (by simp)).1
  have hhi : ∀ c ∈ hi, 1 ≤ c.height := fun c hc => (hrep.height c (by simp [hc])).1
  have hle : getLevel heap1 e.ptr 0 = some (link 0 hi) := by
    rw [he]
    exact hrep.shape.entry (a := hcell sl.header :: lo) (by simp) (by omega) hrep.level_pos
  -- the node `e` itself
  obtain ⟨en, hen, hback⟩ : ∃ en, heap1[e.ptr]? = some en ∧
      en.backward = prevOf (hcell sl.header :: lo) := by
    unfold Prev at ep
    cases hn : heap1[e.ptr]? with
    | none => simp [hn] at ep
    | some en => exact ⟨en, rfl, by simpa [hn] using ep⟩
  -- the common part of the two results
  have hfinal : ∀ heapF tailF,
      (∀ q, getValue heapF q = getValue heap1 q) →
      (∀ q, getHeight heapF q = getHeight heap1 q) →
      (∀ q j, getLevel heapF q j = getLevel heap1 q j) →
      (∀ q, Prev heapF q =
        if hi.head?.map Cell.ptr = some q then some (prevOf (hcell sl.header :: lo))
        else Prev heap1 q) →
      tailF = (if hi.isEmpty then prevOf (hcell sl.header :: lo) else sl.tail) →
      heapF.length = sl.heap.length →
      ∃ sl', (match shrinkLevel heapF sl.header sl.level with
          | none => none
          | some level =>
            some { sl with heap := heapF, tail := tailF, level := level,
                           length := sl.length - 1 }) = some sl' ∧
        Rep sl' (lo ++ hi) ∧
        sl'.header = sl.header ∧ sl'.nodes = sl.nodes ∧ sl'.length = sl.length - 1 ∧
        sl'.heap.length = sl.heap.length ∧
        (∀ q, getValue sl'.heap q = getValue sl.heap q) := by
    intro heapF tailF hv hh hlv hp ht hlen
    have hbaseF : BaseOk heapF (hcell sl.header :: lo ++ hi) :=
      baseOk_delete hbase1 (by simp) hnd' hv hh hp
    have hlinksF : ∀ j, LinksAt heapF sl.level j (hcell sl.header :: lo ++ hi) :=
      fun j => (hlinks j).congr (fun q => hlv q j)
    have hshapeF : Shape heapF sl.header sl.level (lo ++ hi) :=
      (shape_iff _ _ _ _).mpr ⟨by simpa using hbaseF, by simpa using hlinksF⟩
    have hhdrh : getHeight heapF sl.header = some SKIPLIST_MAXLEVEL :=
      (hshapeF [] (hcell sl.header) (lo ++ hi) rfl).2.2.1
    obtain ⟨l', s1, s2, s3, s4, s5⟩ := shrinkLevel_spec heapF sl.header sl.level
      (fun j hj => getLevel_of_height hhdrh (by have := hrep.level_le; omega))
    rw [s1]
    refine ⟨_, rfl, ?_, rfl, rfl, rfl, hlen, fun q => by
      show getValue heapF q = _
      rw [hv, f1.2.1]⟩
    have hl'1 : 1 ≤ l' := s3 hrep.level_pos
    have hentry : ∀ j, j < sl.level →
        getLevel heapF sl.header j = some (link j (lo ++ hi)) := by
      intro j hj
      exact hshapeF.entry (a := []) (c := hcell sl.header) rfl
        (by show j < SKIPLIST_MAXLEVEL; have := hrep.level_le; omega) hj
    refine
      { shape := hshapeF.mono s2, nodup := ?_, vals := ?_, height := ?_, level_pos := hl'1,
        level_le := ?_, level_max := ?_, length := ?_, tail := ?_,
        update_len := hrep.update_len, rank_len := hrep.rank_len }
    · have hsub : List.Sublist (hcell sl.header :: (lo ++ hi))
          (hcell sl.header :: (lo ++ e :: hi)) :=
        List.Sublist.cons₂ _ ((List.Sublist.refl lo).append (List.sublist_cons_self e hi))
      exact List.Nodup.sublist (hsub.map Cell.ptr) hnd
    · intro c hc
      apply hrep.vals c
      rcases List.mem_append.mp hc with hc | hc
      · simp [hc]
      · simp [hc]
    · intro c hc
      have hc' : c ∈ lo ++ e :: hi := by
        rcases List.mem_append.mp hc with hc | hc
        · simp [hc]
        · simp [hc]
      have hcl := hrep.height c hc'
      refine ⟨hcl.1, ?_⟩
      show c.height ≤ l'
      by_contra hgt
      obtain ⟨l, k1, k2⟩ := s4 (c.height - 1) (by omega) (by omega)
      rw [hentry _ (by omega)] at k1
      have k3 : (link (c.height - 1) (lo ++ hi)).forward = none := by
        have := Option.some.inj k1
        rw [this]; exact k2
      have := (link_forward_none _ _).mp k3 c hc
      omega
    · show l' ≤ SKIPLIST_MAXLEVEL
      have := hrep.level_le; omega
    · show l' = 1 ∨ ∃ c ∈ lo ++ hi, c.height = l'
      rcases s5 with h1 | ⟨l, k1, k2⟩
      · left; omega
      · right
        rw [hentry _ (by omega)] at k1
        have k3 : (link (l' - 1) (lo ++ hi)).forward ≠ none := by
          have := Option.some.inj k1
          rw [this]; exact k2
        obtain ⟨f, hf⟩ := Option.ne_none_iff_exists'.mp k3
        obtain ⟨b1, c, b2, m1, _, m3, _, _⟩ := link_forward_some _ _ f hf
        have hc : c ∈ lo ++ hi := by rw [m1]; simp
        refine ⟨c, hc, ?_⟩
        -- no node is higher than the new level
        by_contra hne
        have hgt : l' < c.height := by omega
        have hc' : c ∈ lo ++ e :: hi := by
          rcases List.mem_append.mp hc with hc | hc
          · simp [hc]
          · simp [hc]
        have hcl := hrep.height c hc'
        obtain ⟨l2, n1, n2⟩ := s4 (c.height - 1) (by omega) (by omega)
        rw [hentry _ (by omega)] at n1
        have n3 : (link (c.height - 1) (lo ++ hi)).forward = none := by
          have := Option.some.inj n1
          rw [this]; exact n2
        have := (link_forward_none _ _).mp n3 c hc
        omega
    · show sl.length - 1 = _
      rw [hrep.length]; simp; omega
    · show tailF = _
      rw [ht, getLast?_delete_cell lo hi e, prevOf_cons]
      cases hi with
      | nil => simp
      | cons f hi' =>
        simp only [List.isEmpty_cons, Bool.false_eq_true, if_false]
        exact hrep.tail
  -- run the code
  unfold deleteNode
  rw [e1]
  simp only [hen, hle]
  cases hhi' : hi with
  | nil =>
    subst hhi'
    simp only [link_nil]
    exact hfinal heap1 en.backward (fun _ => rfl) (fun _ => rfl) (fun _ _ => rfl)
      (fun q => by simp) (by simp [hback]) f1.1
  | cons f hi' =>
    subst hhi'
    have hf1 := hhi f (by simp)
    rw [link_cons, if_pos (by omega)]
    simp only []
    have hfh : getHeight heap1 f.ptr = some f.height :=
      (hbase1 (hcell sl.header :: lo ++ [e]) f hi' (by simp)).2.2
    obtain ⟨heap2, e2, b2⟩ := setBackward_spec en.backward hfh
    rw [e2]
    simp only [Option.map_some']
    exact hfinal heap2 sl.tail b2.2.1 b2.2.2.2.1 b2.2.2.2.2
      (fun q => by
        rw [b2.2.2.1, hback]
        simp only [List.head?_cons, Option.map_some', Option.some.injEq]
        by_cases hq : q = f.ptr
        · subst hq; simp
        · have : ¬ f.ptr = q := fun h => hq h.symm
          simp [hq, this])
      (by simp) (by rw [b2.1, f1.1])

/-! ## The empty list -/

theorem rep_fresh_header {α : Type} (heap : Heap α) (m : List (α × Nat)) :
    Rep { heap := heap ++ [newNode SKIPLIST_MAXLEVEL none], header := heap.length, tail := none,
          update := List.replicate SKIPLIST_MAXLEVEL none,
          rank := List.replicate SKIPLIST_MAXLEVEL 0, length := 0, level := 1, nodes := m }
      ([] : List (Cell α)) := by
  obtain ⟨_, av, ap, ah, al⟩ := alloc_spec heap (newNode SKIPLIST_MAXLEVEL (none : Option α))
  refine
    { shape := ?_, nodup := by simp, vals := by simp, height := by simp, level_pos := le_refl _,
      level_le := (by show 1 ≤ SKIPLIST_MAXLEVEL; decide), level_max := Or.inl rfl, length := rfl, tail := rfl,
      update_len := by simp, rank_len := by simp }
  intro a c b hF
  rcases hcell_split hF with ⟨rfl, rfl, rfl⟩ | ⟨a', _, h2⟩
  · refine ⟨av, ap, by simpa [newNode] using ah, ?_⟩
    intro i hi
    refine ⟨⟨none, 0⟩, ?_, rfl, fun _ => rfl⟩
    show getLevel (heap ++ [newNode SKIPLIST_MAXLEVEL none]) heap.length i = _
    rw [al]
    have : i < SKIPLIST_MAXLEVEL := hi
    simp [newNode, List.getElem?_replicate, this]
  · simp at h2

theorem rep_New {α : Type} : Rep (New : SkipList α) [] :=
  rep_fresh_header [] []

theorem rep_Init {α : Type} (sl : SkipList α) : Rep (Init sl) [] :=
  rep_fresh_header sl.heap sl.nodes

/-! ## The level-0 walk -/

theorem pairs_cons {α : Type} (c : Cell α) (t : List (Cell α)) (x : α) (h : c.val = some x) :
    pairs (c :: t) = (c.ptr, x) :: pairs t := by
  simp [pairs, List.filterMap_cons, h]

theorem walk_spec {α : Type} {heap : Heap α} {hdr lvl : Nat} {L : List (Cell α)}
    (hs : Shape heap hdr lvl L) (hl : 1 ≤ lvl) (hv : ∀ c ∈ L, ∃ a, c.val = some a)
    (hh : ∀ c ∈ L, 1 ≤ c.height) :
    ∀ (t a : List (Cell α)) (fuel : Nat), hcell hdr :: L = a ++ t → a ≠ [] → t.length ≤ fuel →
      walk heap fuel (t.head?.map Cell.ptr) = some (pairs t) := by
  intro t
  induction t with
  | nil =>
    intro a fuel _ _ _
    cases fuel <;> rfl
  | cons c t ih =>
    intro a fuel hF ha hfuel
    obtain ⟨f, rfl⟩ : ∃ f, fuel = f + 1 := ⟨fuel - 1, by simp at hfuel; omega⟩
    have hcL : c ∈ L := by
      cases a with
      | nil => exact absurd rfl ha
      | cons a0 a => simp at hF; rw [hF.2]; simp
    have htL : ∀ d ∈ t, d ∈ L := by
      intro d hd
      cases a with
      | nil => exact absurd rfl ha
      | cons a0 a => simp at hF; rw [hF.2]; simp [hd]
    obtain ⟨x, hx⟩ := hv c hcL
    have hval : getValue heap c.ptr = some x := by rw [hs.value hF, hx]
    have hent := hs.entry hF (hh c hcL) hl
    have hnext : Next heap c.ptr = some (t.head?.map Cell.ptr) := by
      unfold Next
      rw [hent, Option.map_some', link_zero t (fun d hd => hh d (htL d hd))]
    have hrec := ih (a ++ [c]) f (by rw [hF]; simp) (by simp) (by simp at hfuel; omega)
    simp only [List.head?_cons, Option.map_some', walk, hval, hnext, hrec]
    rw [pairs_cons c t x hx]

/-- On a well-formed list the walk `Front`, `Next`, `Next`, ... returns the
nodes of the abstract list with their values. -/
theorem Rep.chain_eq {α : Type} {sl : SkipList α} {L : List (Cell α)} (h : Rep sl L) :
    chain sl = some (pairs L) := by
  have hh : ∀ c ∈ L, 1 ≤ c.height := fun c hc => (h.height c hc).1
  have hent := h.shape.entry (a := []) (c := hcell sl.header) (b := L) rfl
    (by show 0 < SKIPLIST_MAXLEVEL; decide) h.level_pos
  have hfront : Front sl = some (L.head?.map Cell.ptr) := by
    unfold Front
    have : getLevel sl.heap sl.header 0 = some (link 0 L) := hent
    rw [this, Option.map_some', link_zero L hh]
  unfold chain
  rw [hfront]
  have hlen := h.shape.length_lt h.nodup
  exact walk_spec h.shape h.level_pos h.vals hh L [hcell sl.header] sl.heap.length rfl
    (by simp) (by omega)

theorem pairs_length {α : Type} {L : List (Cell α)} (hv : ∀ c ∈ L, ∃ a, c.val = some a) :
    (pairs L).length = L.length := by
  induction L with
  | nil => rfl
  | cons c t ih =>
    obtain ⟨x, hx⟩ := hv c (by simp)
    rw [pairs_cons c t x hx]
    simp [ih (fun d hd => hv d (by simp [hd]))]

theorem pairs_append {α : Type} (A B : List (Cell α)) : pairs (A ++ B) = pairs A ++ pairs B := by
  simp [pairs, List.filterMap_append]

/-! ## Order and splits -/

theorem StrictWeak.irrefl {α : Type} {less : α → α → Bool} (h : StrictWeak less) (a : α) :
    less a a = false := by
  cases hb : less a a with
  | false => rfl
  | true => have := h.asymm a a hb; rw [hb] at this; exact this

theorem StrictWeak.not_lt_trans {α : Type} {less : α → α → Bool} (h : StrictWeak less)
    {a b c : α} (h1 : less a b = false) (h2 : less b c = false) : less a c = false := by
  cases hb : less a c with
  | false => rfl
  | true =>
    rcases h.negtrans a c b hb with h3 | h3
    · rw [h1] at h3; exact absurd h3 (by simp)
    · rw [h2] at h3; exact absurd h3 (by simp)

theorem exists_splits {α : Type} {less : α → α → Bool} (hsw : StrictWeak less)
    {L : List (Cell α)} (hv : ∀ c ∈ L, ∃ a, c.val = some a) (hs : WSorted less L) (v : α) :
    ∃ lo hi, L = lo ++ hi ∧ Splits less v lo hi := by
  induction L with
  | nil => exact ⟨[], [], rfl, by simp [Splits]⟩
  | cons c t ih =>
    obtain ⟨x, hx⟩ := hv c (by simp)
    have hs' := List.pairwise_cons.mp hs
    cases hlt : less x v with
    | true =>
      obtain ⟨lo, hi, h1, h2, h3⟩ := ih (fun d hd => hv d (by simp [hd])) hs'.2
      refine ⟨c :: lo, hi, by rw [h1]; simp, ?_, h3⟩
      intro d hd
      rcases List.mem_cons.mp hd with rfl | hd
      · exact ⟨x, hx, hlt⟩
      · exact h2 d hd
    | false =>
      refine ⟨[], c :: t, rfl, by simp, ?_⟩
      intro d hd
      rcases List.mem_cons.mp hd with rfl | hd
      · exact ⟨x, hx, hlt⟩
      · obtain ⟨y, hy⟩ := hv d (by simp [hd])
        exact ⟨y, hy, hsw.not_lt_trans (hs'.1 d hd x y hx hy) hlt⟩

theorem exists_splits_strict {α : Type} {less : α → α → Bool} (hso : StrictOrder less)
    {L : List (Cell α)} (hv : ∀ c ∈ L, ∃ a, c.val = some a) (hs : SSorted less L) (v : α)
    (hcmp : ∀ c ∈ L, ∀ x, c.val = some x → less x v = true ∨ less v x = true) :
    ∃ lo hi, L = lo ++ hi ∧ Splits less v lo hi := by
  induction L with
  | nil => exact ⟨[], [], rfl, by simp [Splits]⟩
  | cons c t ih =>
    obtain ⟨x, hx⟩ := hv c (by simp)
    have hs' := List.pairwise_cons.mp hs
    cases hlt : less x v with
    | true =>
      obtain ⟨lo, hi, h1, h2, h3⟩ := ih (fun d hd => hv d (by simp [hd])) hs'.2
        (fun d hd => hcmp d (by simp [hd]))
      refine ⟨c :: lo, hi, by rw [h1]; simp, ?_, h3⟩
      intro d hd
      rcases List.mem_cons.mp hd with rfl | hd
      · exact ⟨x, hx, hlt⟩
      · exact h2 d hd
    | false =>
      have hvx : less v x = true := by
        rcases hcmp c (by simp) x hx with h | h
        · rw [hlt] at h; exact absurd h (by simp)
        · exact h
      refine ⟨[], c :: t, rfl, by simp, ?_⟩
      intro d hd
      rcases List.mem_cons.mp hd with rfl | hd
      · exact ⟨x, hx, hlt⟩
      · obtain ⟨y, hy⟩ := hv d (by simp [hd])
        have hxy := hs'.1 d hd x y hx hy
        exact ⟨y, hy, hso.asymm v y (hso.trans v x y hvx hxy)⟩

theorem WSorted.insert_weak {α : Type} {less : α → α → Bool} (hsw : StrictWeak less)
    {lo hi : List (Cell α)} {v : α} (hs : WSorted less (lo ++ hi)) (hsp : Splits less v lo hi)
    (p h : Nat) : WSorted less (lo ++ ⟨p, some v, h⟩ :: hi) := by
  unfold WSorted at hs ⊢
  rw [List.pairwise_append] at hs ⊢
  obtain ⟨h1, h2, h3⟩ := hs
  refine ⟨h1, List.pairwise_cons.mpr ⟨?_, h2⟩, ?_⟩
  · intro d hd x y hx hy
    simp at hx; subst hx
    obtain ⟨z, hz, hlt⟩ := hsp.2 d hd
    rw [hz] at hy; simp at hy; subst hy
    exact hlt
  · intro c hc d hd
    rcases List.mem_cons.mp hd with rfl | hd
    · intro x y hx hy
      simp at hy; subst hy
      obtain ⟨z, hz, hlt⟩ := hsp.1 c hc
      rw [hz] at hx; simp at hx; subst hx
      exact hsw.asymm _ _ hlt
    · exact h3 c hc d hd

theorem WSorted.delete_weak {α : Type} {less : α → α → Bool} {lo hi : List (Cell α)} {e : Cell α}
    (hs : WSorted less (lo ++ e :: hi)) : WSorted less (lo ++ hi) := by
  unfold WSorted at hs ⊢
  exact List.Pairwise.sublist ((List.Sublist.refl lo).append (List.sublist_cons_self e hi)) hs

theorem SSorted.insert_strict {α : Type} {less : α → α → Bool}
    {lo hi : List (Cell α)} {v : α} (hs : SSorted less (lo ++ hi)) (hsp : Splits less v lo hi)
    (hcmp : ∀ c ∈ lo ++ hi, ∀ x, c.val = some x → less x v = true ∨ less v x = true)
    (p h : Nat) : SSorted less (lo ++ ⟨p, some v, h⟩ :: hi) := by
  unfold SSorted at hs ⊢
  rw [List.pairwise_append] at hs ⊢
  obtain ⟨h1, h2, h3⟩ := hs
  refine ⟨h1, List.pairwise_cons.mpr ⟨?_, h2⟩, ?_⟩
  · intro d hd x y hx hy
    simp at hx; subst hx
    obtain ⟨z, hz, hlt⟩ := hsp.2 d hd
    rw [hz] at hy
    have hyz : z = y := Option.some.inj hy
    subst hyz
    rcases hcmp d (by simp [hd]) z hz with h | h
    · rw [hlt] at h; exact absurd h (by simp)
    · exact h
  · intro c hc d hd
    rcases List.mem_cons.mp hd with rfl | hd
    · intro x y hx hy
      simp at hy; subst hy
      obtain ⟨z, hz, hlt⟩ := hsp.1 c hc
      rw [hz] at hx; simp at hx; subst hx
      exact hlt
    · exact h3 c hc d hd

/-! ## `Find`, `Delete` and `Remove` on a well-formed list -/

theorem Rep.value_of_mem {α : Type} {sl : SkipList α} {L : List (Cell α)} (h : Rep sl L)
    {c : Cell α} (hc : c ∈ L) : getValue sl.heap c.ptr = c.val := by
  obtain ⟨a, b, hab⟩ := List.append_of_mem hc
  exact h.shape.value (a := hcell sl.header :: a) (b := b) (by rw [hab]; simp)

theorem Find_found {α : Type} {sl : SkipList α} {lo hi : List (Cell α)} {e : Cell α} {x : α}
    (less : α → α → Bool) (v : α) (hrep : Rep sl (lo ++ e :: hi))
    (hsp : Splits less v lo (e :: hi)) (hx : e.val = some x) (hle : less v x = false) :
    ∃ upd, upd.length = SKIPLIST_MAXLEVEL ∧
      Find less sl v = some ((some e.ptr, none), { sl with update := upd }) := by
  obtain ⟨upd, rk, h1, h2, _⟩ := find_spec less v hrep hsp
  refine ⟨upd, h2, ?_⟩
  have hval : getValue sl.heap e.ptr = some x := by
    rw [hrep.value_of_mem (by simp), hx]
  unfold Find
  rw [h1]
  simp only [List.head?_cons, Option.map_some', hval, hle, Bool.not_false, if_true]

theorem Find_notfound {α : Type} {sl : SkipList α} {lo hi : List (Cell α)}
    (less : α → α → Bool) (v : α) (hrep : Rep sl (lo ++ hi))
    (hsp : Splits less v lo hi)
    (hno : ∀ e x, hi.head? = some e → e.val = some x → less v x = true) :
    ∃ upd, upd.length = SKIPLIST_MAXLEVEL ∧
      Find less sl v = some ((none, some "node not found"), { sl with update := upd }) := by
  obtain ⟨upd, rk, h1, h2, _⟩ := find_spec less v hrep hsp
  refine ⟨upd, h2, ?_⟩
  unfold Find
  rw [h1]
  cases hi with
  | nil => rfl
  | cons e hi' =>
    obtain ⟨x, hx⟩ := hrep.vals e (by simp)
    have hval : getValue sl.heap e.ptr = some x := by
      rw [hrep.value_of_mem (by simp), hx]
    have hlt := hno e x rfl hx
    simp only [List.head?_cons, Option.map_some', hval, hlt, Bool.not_true]
    rfl

theorem Delete_found {α : Type} {sl : SkipList α} {lo hi : List (Cell α)} {e : Cell α} {x : α}
    (less : α → α → Bool) (v : α) (hrep : Rep sl (lo ++ e :: hi))
    (hsp : Splits less v lo (e :: hi)) (hx : e.val = some x) (hle : less v x = false) :
    ∃ sl', Delete less sl v = some (some x, sl') ∧ Rep sl' (lo ++ hi) ∧
      sl'.header = sl.header ∧ sl'.nodes = sl.nodes ∧ sl'.length = sl.length - 1 ∧
      sl'.heap.length = sl.heap.length ∧
      (∀ q, getValue sl'.heap q = getValue sl.heap q) := by
  obtain ⟨upd, rk, h1, h2, h3⟩ := find_spec less v hrep hsp
  have hval : getValue sl.heap e.ptr = some x := by
    rw [hrep.value_of_mem (by simp), hx]
  obtain ⟨sl', g1, g2, g3, g4, g5, g6, g7⟩ :=
    @deleteNode_spec _ { sl with update := upd } _ _ _ upd rk (hrep.set_update upd h2) h3
  refine ⟨sl', ?_, g2, g3, g4, g5, g6, g7⟩
  unfold Delete
  rw [h1]
  simp only [List.head?_cons, Option.map_some', hval, hle, Bool.not_false, if_true, g1]

theorem Delete_notfound {α : Type} {sl : SkipList α} {lo hi : List (Cell α)}
    (less : α → α → Bool) (v : α) (hrep : Rep sl (lo ++ hi))
    (hsp : Splits less v lo hi)
    (hno : ∀ e x, hi.head? = some e → e.val = some x → less v x = true) :
    ∃ upd, upd.length = SKIPLIST_MAXLEVEL ∧
      Delete less sl v = some (none, { sl with update := upd }) := by
  obtain ⟨upd, rk, h1, h2, _⟩ := find_spec less v hrep hsp
  refine ⟨upd, h2, ?_⟩
  unfold Delete
  rw [h1]
  cases hi with
  | nil => rfl
  | cons e hi' =>
    obtain ⟨x, hx⟩ := hrep.vals e (by simp)
    have hval : getValue sl.heap e.ptr = some x := by
      rw [hrep.value_of_mem (by simp), hx]
    have hlt := hno e x rfl hx
    simp only [List.head?_cons, Option.map_some', hval, hlt, Bool.not_true]
    rfl

theorem Remove_first {α : Type} {sl : SkipList α} {lo hi : List (Cell α)} {e : Cell α} {x : α}
    (less : α → α → Bool) (hrep : Rep sl (lo ++ e :: hi)) (hx : e.val = some x)
    (hsp : Splits less x lo (e :: hi)) (hirr : less x x = false) :
    ∃ sl', Remove less sl e.ptr = some (some x, sl') ∧ Rep sl' (lo ++ hi) ∧
      sl'.header = sl.header ∧ sl'.nodes = sl.nodes ∧ sl'.length = sl.length - 1 ∧
      sl'.heap.length = sl.heap.length ∧
      (∀ q, getValue sl'.heap q = getValue sl.heap q) := by
  obtain ⟨upd, rk, h1, h2, h3⟩ := find_spec less x hrep hsp
  have hval : getValue sl.heap e.ptr = some x := by
    rw [hrep.value_of_mem (by simp), hx]
  obtain ⟨sl', g1, g2, g3, g4, g5, g6, g7⟩ :=
    @deleteNode_spec _ { sl with update := upd } _ _ _ upd rk (hrep.set_update upd h2) h3
  refine ⟨sl', ?_, g2, g3, g4, g5, g6, g7⟩
  unfold Remove
  rw [hval]
  simp only []
  rw [h1]
  simp only [List.head?_cons, Option.map_some', if_true, hval, hirr, Bool.not_false, g1]

theorem Remove_other {α : Type} {sl : SkipList α} {lo hi : List (Cell α)} {p : Nat} {ev : α}
    (less : α → α → Bool) (hrep : Rep sl (lo ++ hi)) (hval : getValue sl.heap p = some ev)
    (hsp : Splits less ev lo hi) (hne : hi.head?.map Cell.ptr ≠ some p) :
    ∃ upd, upd.length = SKIPLIST_MAXLEVEL ∧
      Remove less sl p = some (none, { sl with update := upd }) := by
  obtain ⟨upd, rk, h1, h2, _⟩ := find_spec less ev hrep hsp
  refine ⟨upd, h2, ?_⟩
  unfold Remove
  rw [hval]
  simp only []
  rw [h1]
  simp only [hne, if_false]

/-! ## `GetNodeByRank` and `GetRank` on a well-formed list -/

theorem dec_zero_nil {α : Type} {hd : Cell α} {lo a : List (Cell α)} {c : Cell α}
    {b : List (Cell α)} (hdec : hd :: lo = a ++ c :: b) (hb : ∀ e ∈ b, e.height ≤ 0)
    (hh : ∀ c ∈ lo, 1 ≤ c.height) : b = [] := by
  cases b with
  | nil => rfl
  | cons e b =>
    have h6 := hb e (by simp)
    have h7 := hh e (mem_lo_of_dec hdec (by simp))
    omega

theorem byRankLoop_spec {α : Type} {heap : Heap α} {hdr lvl : Nat} {lo hi : List (Cell α)}
    (hs : Shape heap hdr lvl (lo ++ hi))
    (hnd : ((hcell hdr :: (lo ++ hi)).map Cell.ptr).Nodup)
    (hh : ∀ c ∈ lo, 1 ≤ c.height) (rank : Int)
    (H1 : rank < 0 → lo = []) (H2 : 0 ≤ rank → (lo.length : Int) ≤ rank)
    (H3 : hi ≠ [] → rank ≤ (lo.length : Int)) :
    ∀ (n : Nat) (a : List (Cell α)) (c : Cell α) (b : List (Cell α)), n + 1 ≤ lvl →
      hcell hdr :: lo = a ++ c :: b → n < c.height →
      byRankLoop heap rank (n + 1) c.ptr (a.length : Int) =
        some (if (lo.length : Int) = rank then
                some ((hcell hdr :: lo).getLast (List.cons_ne_nil _ _)).ptr
              else none) := by
  have hfuel := hs.length_lt hnd
  intro n
  induction n with
  | zero =>
    intro a c b hl hdec hc
    have hF : hcell hdr :: (lo ++ hi) = a ++ c :: (b ++ hi) := by
      rw [← List.cons_append, hdec]; simp
    have hlen := dec_length hdec
    obtain ⟨a', c', b', h1, h2, h3, h4⟩ :=
      genAdvance_spec hs (fun _ t => some (decide (t ≤ rank))) 0 (by omega) hi b.length b a c
        heap.length rfl hF hc (by simp at hfuel; omega)
        (by
          intro b1 e b2 hb _
          have hbl : b.length = b1.length + 1 + b2.length := by rw [hb]; simp; omega
          have hne : lo ≠ [] := by
            intro h0; rw [h0] at hlen; simp at hlen; omega
          have hr : 0 ≤ rank := by
            by_contra hneg
            exact hne (H1 (by omega))
          have := H2 hr
          simp only [Option.some.injEq, decide_eq_true_eq]
          omega)
        (by
          intro h1 e h2 hh' _
          have := H3 (by rw [hh']; simp)
          simp only [Option.some.injEq, decide_eq_false_iff_not]
          omega)
    have hdec' : hcell hdr :: lo = a' ++ c' :: b' := by rw [hdec, h1]
    have hb' := dec_zero_nil hdec' h3 hh
    subst hb'
    have hlen' := dec_length hdec'
    simp only [List.length_nil, Nat.add_zero] at hlen'
    unfold byRankLoop
    rw [byRankAdvance_eq_gen, h4]
    simp only []
    by_cases heq : (a'.length : Int) = rank
    · rw [if_pos heq, if_pos (by omega)]
      congr 2
      simp only [hdec', List.getLast_append_singleton]
    · rw [if_neg heq, if_neg (by omega)]
      rfl
  | succ n ih =>
    intro a c b hl hdec hc
    have hF : hcell hdr :: (lo ++ hi) = a ++ c :: (b ++ hi) := by
      rw [← List.cons_append, hdec]; simp
    have hlen := dec_length hdec
    obtain ⟨a', c', b', h1, h2, h3, h4⟩ :=
      genAdvance_spec hs (fun _ t => some (decide (t ≤ rank))) (n + 1) (by omega) hi b.length b
        a c heap.length rfl hF hc (by simp at hfuel; omega)
        (by
          intro b1 e b2 hb _
          have hbl : b.length = b1.length + 1 + b2.length := by rw [hb]; simp; omega
          have hne : lo ≠ [] := by
            intro h0; rw [h0] at hlen; simp at hlen; omega
          have hr : 0 ≤ rank := by
            by_contra hneg
            exact hne (H1 (by omega))
          have := H2 hr
          simp only [Option.some.injEq, decide_eq_true_eq]
          omega)
        (by
          intro h1 e h2 hh' _
          have := H3 (by rw [hh']; simp)
          simp only [Option.some.injEq, decide_eq_false_iff_not]
          omega)
    have hdec' : hcell hdr :: lo = a' ++ c' :: b' := by rw [hdec, h1]
    have hlen' := dec_length hdec'
    unfold byRankLoop
    rw [byRankAdvance_eq_gen, h4]
    simp only []
    by_cases heq : (a'.length : Int) = rank
    · rw [if_pos heq]
      have hr : 0 ≤ rank := by omega
      have := H2 hr
      have hb' : b' = [] := by
        cases b' with
        | nil => rfl
        | cons e b' => simp at hlen'; omega
      subst hb'
      simp only [List.length_nil, Nat.add_zero] at hlen'
      rw [if_pos (by omega)]
      congr 2
      simp only [hdec', List.getLast_append_singleton]
    · rw [if_neg heq]
      exact ih a' c' b' (by omega) hdec' (by omega)

/-- `GetNodeByRank` returns; it yields the last of the first `rank` nodes when
the list has that many, the header for rank `0`, and `nil` otherwise. -/
theorem GetNodeByRank_spec {α : Type} {sl : SkipList α} {lo hi : List (Cell α)}
    (hrep : Rep sl (lo ++ hi)) (rank : Int)
    (H1 : rank < 0 → lo = []) (H2 : 0 ≤ rank → (lo.length : Int) ≤ rank)
    (H3 : hi ≠ [] → rank ≤ (lo.length : Int)) :
    GetNodeByRank sl rank =
      some (if (lo.length : Int) = rank then
              some ((hcell sl.header :: lo).getLast (List.cons_ne_nil _ _)).ptr
            else none) := by
  have hh : ∀ c ∈ lo, 1 ≤ c.height := fun c hc => (hrep.height c (by simp [hc])).1
  obtain ⟨n, hn⟩ : ∃ n, sl.level = n + 1 := ⟨sl.level - 1, by have := hrep.level_pos; omega⟩
  have := byRankLoop_spec hrep.shape hrep.nodup hh rank H1 H2 H3 n [] (hcell sl.header) lo
    (by omega) rfl (by show n < SKIPLIST_MAXLEVEL; have := hrep.level_le; omega)
  unfold GetNodeByRank
  rw [hn]
  simpa using this

theorem rankLoop_spec {α : Type} {heap : Heap α} {hdr lvl : Nat} {lo hi : List (Cell α)}
    (less : α → α → Bool) (v : α)
    (hs : Shape heap hdr lvl (lo ++ hi))
    (hnd : ((hcell hdr :: (lo ++ hi)).map Cell.ptr).Nodup)
    (hh : ∀ c ∈ lo ++ hi, 1 ≤ c.height) (hsp : Splits less v lo hi) :
    ∀ (n : Nat) (a : List (Cell α)) (c : Cell α) (b : List (Cell α)), n + 1 ≤ lvl →
      hcell hdr :: lo = a ++ c :: b → n < c.height →
      ∃ r, rankLoop less v heap (n + 1) c.ptr (a.length : Int) = some r ∧
        ((r = 0 ∧ ∀ e x, hi.head? = some e → e.val = some x → less v x = true) ∨
         (∃ h1 e h2 y, hi = h1 ++ e :: h2 ∧ e.val = some y ∧ less v y = false ∧
            r = ((lo.length + h1.length + 1 : Nat) : Int))) := by
  have hfuel := hs.length_lt hnd
  intro n
  induction n with
  | zero =>
    intro a c b hl hdec hc
    have hF : hcell hdr :: (lo ++ hi) = a ++ c :: (b ++ hi) := by
      rw [← List.cons_append, hdec]; simp
    have hlen := dec_length hdec
    obtain ⟨a', c', b', h1, h2, h3, h4⟩ :=
      genAdvance_spec hs (fun f _ => (getValue heap f).map (fun fv => less fv v)) 0
        (by omega) hi b.length b a c heap.length rfl hF hc (by simp at hfuel; omega)
        (fun b1 e b2 hb _ => hsp.test_lo hs (mem_lo_of_dec hdec (by rw [hb]; simp)))
        (fun h1 e h2 hh' _ => hsp.test_hi hs (by rw [hh']; simp))
    have hdec' : hcell hdr :: lo = a' ++ c' :: b' := by rw [hdec, h1]
    have hF' : hcell hdr :: (lo ++ hi) = a' ++ c' :: (b' ++ hi) := by
      rw [← List.cons_append, hdec']; simp
    have hlen' := dec_length hdec'
    have hent := hs.entry hF' h2 (by omega)
    rw [link_all_le 0 b' hi h3] at hent
    unfold rankLoop
    rw [rankAdvance_eq_gen, h4]
    simp only [hent]
    cases hf : (link 0 hi).forward with
    | none =>
      refine ⟨0, rfl, Or.inl ⟨rfl, ?_⟩⟩
      intro e x he _
      have hall := (link_forward_none 0 hi).mp hf
      have hmem : e ∈ hi := List.mem_of_mem_head? he
      have := hall e hmem
      have := hh e (by simp [hmem])
      omega
    | some f =>
      obtain ⟨k1, e, k2, g1, g2, g3, g4, g5⟩ := link_forward_some 0 hi f hf
      have hk1 : k1 = [] := by
        cases k1 with
        | nil => rfl
        | cons d k1 =>
          have := g2 d (by simp)
          have := hh d (by rw [g1]; simp)
          omega
      subst hk1
      obtain ⟨y, hy, hlt⟩ := hsp.2 e (by rw [g1]; simp)
      have hval : getValue heap f = some y := by
        rw [← g4, hs.value (a := hcell hdr :: lo) (c := e) (b := k2) (by rw [g1]; simp), hy]
      simp only [hval, hlt, Bool.not_false, Bool.true_and]
      cases hvy : less v y with
      | false =>
        refine ⟨(a'.length : Int) + ((link 0 hi).span + (b'.length : Int)), by simp,
          Or.inr ⟨[], e, k2, y, g1, hy, hvy, ?_⟩⟩
        rw [g5]; push_cast; simp; omega
      | true =>
        refine ⟨0, by simp [rankLoop], Or.inl ⟨rfl, ?_⟩⟩
        intro e' x he' hx
        rw [g1] at he'
        simp at he'
        subst he'
        rw [hy] at hx
        have : y = x := Option.some.inj hx
        subst this
        exact hvy
  | succ n ih =>
    intro a c b hl hdec hc
    have hF : hcell hdr :: (lo ++ hi) = a ++ c :: (b ++ hi) := by
      rw [← List.cons_append, hdec]; simp
    have hlen := dec_length hdec
    obtain ⟨a', c', b', h1, h2, h3, h4⟩ :=
      genAdvance_spec hs (fun f _ => (getValue heap f).map (fun fv => less fv v)) (n + 1)
        (by omega) hi b.length b a c heap.length rfl hF hc (by simp at hfuel; omega)
        (fun b1 e b2 hb _ => hsp.test_lo hs (mem_lo_of_dec hdec (by rw [hb]; simp)))
        (fun h1 e h2 hh' _ => hsp.test_hi hs (by rw [hh']; simp))
    have hdec' : hcell hdr :: lo = a' ++ c' :: b' := by rw [hdec, h1]
    have hF' : hcell hdr :: (lo ++ hi) = a' ++ c' :: (b' ++ hi) := by
      rw [← List.cons_append, hdec']; simp
    have hlen' := dec_length hdec'
    have hent := hs.entry hF' h2 (by omega)
    rw [link_all_le (n + 1) b' hi h3] at hent
    have hrec := ih a' c' b' (by omega) hdec' (by omega)
    unfold rankLoop
    rw [rankAdvance_eq_gen, h4]
    simp only [hent]
    cases hf : (link (n + 1) hi).forward with
    | none => exact hrec
    | some f =>
      obtain ⟨k1, e, k2, g1, g2, g3, g4, g5⟩ := link_forward_some (n + 1) hi f hf
      obtain ⟨y, hy, hlt⟩ := hsp.2 e (by rw [g1]; simp)
      have hval : getValue heap f = some y := by
        rw [← g4, hs.value (a := hcell hdr :: lo ++ k1) (c := e) (b := k2)
          (by rw [g1]; simp), hy]
      simp only [hval, hlt, Bool.not_false, Bool.true_and]
      cases hvy : less v y with
      | false =>
        refine ⟨(a'.length : Int) + ((link (n + 1) hi).span + (b'.length : Int)), by simp,
          Or.inr ⟨k1, e, k2, y, g1, hy, hvy, ?_⟩⟩
        rw [g5]; push_cast; omega
      | true =>
        simp only [Bool.not_true, Bool.false_eq_true, if_false]
        exact hrec

/-- `GetRank` returns; the result is `0` when the first node not `Less` than
`v` is greater than `v` (or missing), and otherwise the position of a node
whose value is comparator-equal to `v`. -/
theorem GetRank_spec {α : Type} {sl : SkipList α} {lo hi : List (Cell α)}
    (less : α → α → Bool) (v : α) (hrep : Rep sl (lo ++ hi)) (hsp : Splits less v lo hi) :
    ∃ r, GetRank less sl v = some r ∧
      ((r = 0 ∧ ∀ e x, hi.head? = some e → e.val = some x → less v x = true) ∨
       (∃ h1 e h2 y, hi = h1 ++ e :: h2 ∧ e.val = some y ∧ less v y = false ∧
          r = ((lo.length + h1.length + 1 : Nat) : Int))) := by
  obtain ⟨n, hn⟩ : ∃ n, sl.level = n + 1 := ⟨sl.level - 1, by have := hrep.level_pos; omega⟩
  have := rankLoop_spec less v hrep.shape hrep.nodup (fun c hc => (hrep.height c hc).1) hsp
    n [] (hcell sl.header) lo
    (by omega) rfl (by show n < SKIPLIST_MAXLEVEL; have := hrep.level_le; omega)
  unfold GetRank
  rw [hn]
  simpa using this

/-! ## The invariant of reachable lists -/

theorem randomLevelLoop_ge : ∀ (rnd : List Nat) (l h : Nat),
    randomLevelLoop rnd l = some h → l ≤ h := by
  intro rnd
  induction rnd with
  | nil => intro l h hh; simp [randomLevelLoop] at hh
  | cons r rs ih =>
    intro l h hh
    unfold randomLevelLoop at hh
    split at hh
    · have := ih (l + 1) h hh; omega
    · simp at hh; omega

theorem randomLevel_bounds {rnd : List Nat} {h : Nat} (hh : randomLevel rnd = some h) :
    1 ≤ h ∧ h ≤ SKIPLIST_MAXLEVEL := by
  unfold randomLevel at hh
  cases hl : randomLevelLoop rnd 1 with
  | none => simp [hl] at hh
  | some l =>
    have := randomLevelLoop_ge rnd 1 l hl
    simp only [hl] at hh
    split at hh
    · simp at hh; subst hh; exact ⟨this, by omega⟩
    · simp at hh; subst hh; exact ⟨by decide, le_refl _⟩

/-- `Insert` on a well-formed list, for any draws that make `randomLevel` return. -/
theorem Insert_spec {α : Type} [DecidableEq α] {sl : SkipList α} {lo hi : List (Cell α)}
    (less : α → α → Bool) (v : α) {rnd : List Nat} {h : Nat}
    (hrep : Rep sl (lo ++ hi)) (hsp : Splits less v lo hi) (hr : randomLevel rnd = some h) :
    ∃ sl', Insert less sl v rnd = some (sl.heap.length, sl') ∧
      Rep sl' (lo ++ ⟨sl.heap.length, some v, h⟩ :: hi) ∧
      sl'.header = sl.header ∧ sl'.nodes = mapSet sl.nodes v sl.heap.length ∧
      sl'.heap.length = sl.heap.length + 1 ∧
      (∀ q, q < sl.heap.length → getValue sl'.heap q = getValue sl.heap q) ∧
      getValue sl'.heap sl.heap.length = some v := by
  obtain ⟨h1, h2⟩ := randomLevel_bounds hr
  obtain ⟨sl', g⟩ := insertLevel_spec less v h hrep hsp h1 h2
  exact ⟨sl', by simp only [Insert, hr, g.1], g.2⟩

theorem Insert_level {α : Type} [DecidableEq α] {less : α → α → Bool} {sl sl' : SkipList α}
    {v : α} {rnd : List Nat} {x : Nat} (h : Insert less sl v rnd = some (x, sl')) :
    ∃ l, randomLevel rnd = some l := by
  unfold Insert at h
  cases hl : randomLevel rnd with
  | none => simp [hl] at h
  | some l => exact ⟨l, rfl⟩

/-- Every reachable list is well formed and holds its values in
non-decreasing comparator order. -/
theorem reachable_rep {α : Type} [DecidableEq α] {less : α → α → Bool} (hsw : StrictWeak less)
    {sl : SkipList α} (h : Reachable less sl) : ∃ L, Rep sl L ∧ WSorted less L := by
  induction h with
  | new => exact ⟨[], rep_New, List.Pairwise.nil⟩
  | init _ _ => exact ⟨[], rep_Init _, List.Pairwise.nil⟩
  | @insert sl sl' v rnd x _ hins ih =>
    obtain ⟨L, hrep, hsort⟩ := ih
    obtain ⟨lo, hi, rfl, hsp⟩ := exists_splits hsw hrep.vals hsort v
    obtain ⟨l, hl⟩ := Insert_level hins
    obtain ⟨sl2, g1, g2, _⟩ := Insert_spec less v hrep hsp hl
    rw [g1] at hins
    simp at hins
    rw [← hins.2]
    exact ⟨_, g2, hsort.insert_weak hsw hsp _ _⟩
  | @delete sl sl' v r _ hdel ih =>
    obtain ⟨L, hrep, hsort⟩ := ih
    obtain ⟨lo, hi, rfl, hsp⟩ := exists_splits hsw hrep.vals hsort v
    cases hi with
    | nil =>
      obtain ⟨upd, hu, g⟩ := Delete_notfound less v hrep hsp (by simp)
      rw [g] at hdel; simp at hdel
      rw [← hdel.2]
      exact ⟨_, hrep.set_update upd hu, hsort⟩
    | cons e hi' =>
      obtain ⟨x, hx⟩ := hrep.vals e (by simp)
      cases hlt : less v x with
      | false =>
        obtain ⟨sl2, g1, g2, _⟩ := Delete_found less v hrep hsp hx hlt
        rw [g1] at hdel; simp at hdel
        rw [← hdel.2]
        exact ⟨_, g2, hsort.delete_weak⟩
      | true =>
        obtain ⟨upd, hu, g⟩ := Delete_notfound less v hrep hsp (by
          intro e' x' he' hx'
          simp at he'; subst he'
          rw [hx] at hx'
          have : x = x' := Option.some.inj hx'
          subst this; exact hlt)
        rw [g] at hdel; simp at hdel
        rw [← hdel.2]
        exact ⟨_, hrep.set_update upd hu, hsort⟩
  | @remove sl sl' p r _ hrem ih =>
    obtain ⟨L, hrep, hsort⟩ := ih
    cases hval : getValue sl.heap p with
    | none => simp [Remove, hval] at hrem
    | some ev =>
      obtain ⟨lo, hi, rfl, hsp⟩ := exists_splits hsw hrep.vals hsort ev
      by_cases hhead : hi.head?.map Cell.ptr = some p
      · cases hi with
        | nil => simp at hhead
        | cons e hi' =>
          simp at hhead
          subst hhead
          have hx : e.val = some ev := by
            rw [← hrep.value_of_mem (by simp), hval]
          obtain ⟨sl2, g1, g2, _⟩ := Remove_first less hrep hx hsp (hsw.irrefl ev)
          rw [g1] at hrem; simp at hrem
          rw [← hrem.2]
          exact ⟨_, g2, hsort.delete_weak⟩
      · obtain ⟨upd, hu, g⟩ := Remove_other less hrep hval hsp hhead
        rw [g] at hrem; simp at hrem
        rw [← hrem.2]
        exact ⟨_, hrep.set_update upd hu, hsort⟩
  | @find sl sl' v r _ hfind ih =>
    obtain ⟨L, hrep, hsort⟩ := ih
    obtain ⟨lo, hi, rfl, hsp⟩ := exists_splits hsw hrep.vals hsort v
    cases hi with
    | nil =>
      obtain ⟨upd, hu, g⟩ := Find_notfound less v hrep hsp (by simp)
      rw [g] at hfind; simp at hfind
      rw [← hfind.2]
      exact ⟨_, hrep.set_update upd hu, hsort⟩
    | cons e hi' =>
      obtain ⟨x, hx⟩ := hrep.vals e (by simp)
      cases hlt : less v x with
      | false =>
        obtain ⟨upd, hu, g⟩ := Find_found less v hrep hsp hx hlt
        rw [g] at hfind; simp at hfind
        rw [← hfind.2]
        exact ⟨_, hrep.set_update upd hu, hsort⟩
      | true =>
        obtain ⟨upd, hu, g⟩ := Find_notfound less v hrep hsp (by
          intro e' x' he' hx'
          simp at he'; subst he'
          rw [hx] at hx'
          have : x = x' := Option.some.inj hx'
          subst this; exact hlt)
        rw [g] at hfind; simp at hfind
        rw [← hfind.2]
        exact ⟨_, hrep.set_update upd hu, hsort⟩

/-! ## Nodes and values of the abstract list -/

theorem mem_pairs {α : Type} {L : List (Cell α)} {q : Nat × α} :
    q ∈ pairs L ↔ ∃ c ∈ L, c.val = some q.2 ∧ c.ptr = q.1 := by
  unfold pairs
  rw [List.mem_filterMap]
  constructor
  · rintro ⟨c, hc, h⟩
    cases hv : c.val with
    | none => simp [hv] at h
    | some x =>
      simp only [hv, Option.map_some', Option.some.injEq] at h
      refine ⟨c, hc, ?_, ?_⟩
      · rw [← h]; exact hv
      · rw [← h]
  · rintro ⟨c, hc, h1, h2⟩
    refine ⟨c, hc, ?_⟩
    rw [h1, h2]
    rfl

theorem pairs_map_fst {α : Type} {L : List (Cell α)} (hv : ∀ c ∈ L, ∃ a, c.val = some a) :
    (pairs L).map Prod.fst = L.map Cell.ptr := by
  induction L with
  | nil => rfl
  | cons c t ih =>
    obtain ⟨x, hx⟩ := hv c (by simp)
    rw [pairs_cons c t x hx]
    simp [ih (fun d hd => hv d (by simp [hd]))]

theorem pairs_split {α : Type} (lo hi : List (Cell α)) (e : Cell α) (x : α)
    (hx : e.val = some x) : pairs (lo ++ e :: hi) = pairs lo ++ (e.ptr, x) :: pairs hi := by
  rw [pairs_append, pairs_cons e hi x hx]

theorem not_eq_of_lt {α : Type} {less : α → α → Bool} {lo : List (Cell α)} {v : α}
    (hlo : ∀ c ∈ lo, ∃ a, c.val = some a ∧ less a v = true) :
    ∀ q ∈ pairs lo, ¬ cmpEq less q.2 v := by
  intro q hq
  obtain ⟨c, hc, h1, _⟩ := mem_pairs.mp hq
  obtain ⟨a, ha, hlt⟩ := hlo c hc
  rw [ha] at h1
  have : a = q.2 := Option.some.inj h1
  subst this
  intro heq
  rw [heq.1] at hlt
  exact absurd hlt (by simp)

/-- When the first node that is not `Less` than `v` is greater than `v`
(or missing), no stored value is comparator-equal to `v`. -/
theorem no_eq_of_head_gt {α : Type} {less : α → α → Bool} (hsw : StrictWeak less)
    {lo hi : List (Cell α)} {v : α} (hsort : WSorted less (lo ++ hi))
    (hsp : Splits less v lo hi)
    (hno : ∀ e x, hi.head? = some e → e.val = some x → less v x = true) :
    ∀ q ∈ pairs (lo ++ hi), ¬ cmpEq less q.2 v := by
  intro q hq
  rw [pairs_append] at hq
  rcases List.mem_append.mp hq with hq | hq
  · exact not_eq_of_lt hsp.1 q hq
  · obtain ⟨c, hc, h1, _⟩ := mem_pairs.mp hq
    intro heq
    cases hi with
    | nil => simp at hc
    | cons e hi' =>
      obtain ⟨x, hx, _⟩ := hsp.2 e (by simp)
      have hvx := hno e x rfl hx
      rcases List.mem_cons.mp hc with rfl | hc
      · rw [hx] at h1
        have : x = q.2 := Option.some.inj h1
        subst this
        rw [heq.2] at hvx
        exact absurd hvx (by simp)
      · have hs := (List.pairwise_append.mp hsort).2.1
        have hzx := (List.pairwise_cons.mp hs).1 c hc x q.2 hx h1
        rcases hsw.negtrans v x q.2 hvx with h | h
        · rw [heq.2] at h; exact absurd h (by simp)
        · rw [hzx] at h; exact absurd h (by simp)

/-- The case distinction behind `Find`, `Delete` and `GetRank`: either the
first node that is not `Less` than `v` is comparator-equal to `v`, or no
stored value is. -/
theorem split_eq_cases {α : Type} {less : α → α → Bool} (hsw : StrictWeak less)
    {L : List (Cell α)} (hv : ∀ c ∈ L, ∃ a, c.val = some a) (hsort : WSorted less L) (v : α) :
    ∃ lo hi, L = lo ++ hi ∧ Splits less v lo hi ∧
      ((∃ e hi' x, hi = e :: hi' ∧ e.val = some x ∧ less v x = false ∧ cmpEq less x v) ∨
       ((∀ e x, hi.head? = some e → e.val = some x → less v x = true) ∧
        ∀ q ∈ pairs L, ¬ cmpEq less q.2 v)) := by
  obtain ⟨lo, hi, rfl, hsp⟩ := exists_splits hsw hv hsort v
  refine ⟨lo, hi, rfl, hsp, ?_⟩
  cases hi with
  | nil =>
    right
    have hno : ∀ e x, ([] : List (Cell α)).head? = some e → e.val = some x →
        less v x = true := by simp
    exact ⟨hno, no_eq_of_head_gt hsw hsort hsp hno⟩
  | cons e hi' =>
    obtain ⟨x, hx, hxv⟩ := hsp.2 e (by simp)
    cases hlt : less v x with
    | false => left; exact ⟨e, hi', x, rfl, hx, hlt, hxv, hlt⟩
    | true =>
      right
      have hno : ∀ e' x', (e :: hi').head? = some e' → e'.val = some x' →
          less v x' = true := by
        intro e' x' he' hx'
        simp at he'; subst he'
        rw [hx] at hx'
        have : x = x' := Option.some.inj hx'
        subst this; exact hlt
      exact ⟨hno, no_eq_of_head_gt hsw hsort hsp hno⟩

theorem Rep.len {α : Type} {sl : SkipList α} {L : List (Cell α)} (h : Rep sl L) :
    Len sl = ((pairs L).length : Int) := by
  rw [pairs_length h.vals]
  exact h.length

/-! ## Concrete runs -/

theorem lessNat_strictWeak : StrictWeak lessNat :=
  ⟨fun a b h => by simp [lessNat] at *; omega, fun a b c h => by simp [lessNat] at *; omega⟩

theorem lessNat_strictOrder : StrictOrder lessNat :=
  ⟨fun a b h => by simp [lessNat] at *; omega, fun a b c h1 h2 => by simp [lessNat] at *; omega⟩

theorem exOne_eq : Insert lessNat New 5 [1] = some (1, exOne) := by rfl

theorem exDup_eq : Insert lessNat exOne 5 [1] = some (2, exDup) := by rfl

theorem exOne_reachable : Reachable lessNat exOne := Reachable.insert Reachable.new exOne_eq

theorem exDup_reachable : Reachable lessNat exDup := Reachable.insert exOne_reachable exDup_eq

/-! ## The claims -/

/-- C3: on every list reachable from `New()` and for every value `v`, `Find(v)` returns.
When some value on the level-0 chain is comparator-equal to `v`, it returns the first
node of the chain whose value is comparator-equal to `v`, with a `nil` error; when no
stored value is comparator-equal to `v`, it returns `nil` with a non-nil error. Only the
scratch array `update` of the list changes. (The comparator is a strict weak order.) -/
theorem C3_Find_first_equal {α : Type} [DecidableEq α] {less : α → α → Bool}
    (hsw : StrictWeak less) {sl : SkipList α} (hr : Reachable less sl) (v : α) :
    ∃ ps, chain sl = some ps ∧
      ((∃ q ∈ ps, cmpEq less q.2 v) →
        ∃ pre p x post upd, ps = pre ++ (p, x) :: post ∧ (∀ q ∈ pre, ¬ cmpEq less q.2 v) ∧
          cmpEq less x v ∧ Find less sl v = some ((some p, none), { sl with update := upd })) ∧
      ((∀ q ∈ ps, ¬ cmpEq less q.2 v) →
        ∃ err upd, Find less sl v = some ((none, some err), { sl with update := upd })) := by
  obtain ⟨L, hrep, hsort⟩ := reachable_rep hsw hr
  refine ⟨pairs L, hrep.chain_eq, ?_⟩
  obtain ⟨lo, hi, rfl, hsp, hcase⟩ := split_eq_cases hsw hrep.vals hsort v
  rcases hcase with ⟨e, hi', x, rfl, hx, hlt, heq⟩ | ⟨hno, hnone⟩
  · obtain ⟨upd, _, hf⟩ := Find_found less v hrep hsp hx hlt
    constructor
    · intro _
      exact ⟨pairs lo, e.ptr, x, pairs hi', upd, pairs_split lo hi' e x hx,
        not_eq_of_lt hsp.1, heq, hf⟩
    · intro hall
      exfalso
      exact hall (e.ptr, x) (by rw [pairs_split lo hi' e x hx]; simp) heq
  · obtain ⟨upd, _, hf⟩ := Find_notfound less v hrep hsp hno
    constructor
    · rintro ⟨q, hq, heq⟩
      exact absurd heq (hnone q hq)
    · intro _
      exact ⟨_, upd, hf⟩

theorem C3_witness :
    ∃ ps, chain exOne = some ps ∧
      ((∃ q ∈ ps, cmpEq lessNat q.2 5) →
        ∃ pre p x post upd, ps = pre ++ (p, x) :: post ∧ (∀ q ∈ pre, ¬ cmpEq lessNat q.2 5) ∧
          cmpEq lessNat x 5 ∧
          Find lessNat exOne 5 = some ((some p, none), { exOne with update := upd })) ∧
      ((∀ q ∈ ps, ¬ cmpEq lessNat q.2 5) →
        ∃ err upd, Find lessNat exOne 5 =
          some ((none, some err), { exOne with update := upd })) :=
  C3_Find_first_equal lessNat_strictWeak exOne_reachable 5

/-- C4: on every reachable list, when some value on the level-0 chain is
comparator-equal to `v`, `Delete(v)` returns the `Value` of the first node of the
chain that is comparator-equal to `v`, `Len()` decreases by exactly one, and the
level-0 chain afterwards is the previous one without that node, the other nodes in
unchanged order. (The comparator is a strict weak order.) -/
theorem C4_Delete_first_equal {α : Type} [DecidableEq α] {less : α → α → Bool}
    (hsw : StrictWeak less) {sl : SkipList α} (hr : Reachable less sl) (v : α)
    (ps : List (Nat × α)) (hps : chain sl = some ps) (hex : ∃ q ∈ ps, cmpEq less q.2 v) :
    ∃ pre p x post sl', ps = pre ++ (p, x) :: post ∧ (∀ q ∈ pre, ¬ cmpEq less q.2 v) ∧
      cmpEq less x v ∧ Delete less sl v = some (some x, sl') ∧
      Len sl' = Len sl - 1 ∧ chain sl' = some (pre ++ post) := by
  obtain ⟨L, hrep, hsort⟩ := reachable_rep hsw hr
  have hps' : ps = pairs L := by
    rw [hrep.chain_eq] at hps; exact (Option.some.inj hps).symm
  subst hps'
  obtain ⟨lo, hi, rfl, hsp, hcase⟩ := split_eq_cases hsw hrep.vals hsort v
  rcases hcase with ⟨e, hi', x, rfl, hx, hlt, heq⟩ | ⟨hno, hnone⟩
  · obtain ⟨sl', g1, g2, _, _, g5, _⟩ := Delete_found less v hrep hsp hx hlt
    refine ⟨pairs lo, e.ptr, x, pairs hi', sl', pairs_split lo hi' e x hx,
      not_eq_of_lt hsp.1, heq, g1, g5, ?_⟩
    rw [g2.chain_eq, pairs_append]
  · obtain ⟨q, hq, heq⟩ := hex
    exact absurd heq (hnone q hq)

theorem C4_witness :
    (∃ q ∈ [((1 : Nat), (5 : Nat))], cmpEq lessNat q.2 5) ∧
    ∃ pre p x post sl', [((1 : Nat), (5 : Nat))] = pre ++ (p, x) :: post ∧
      (∀ q ∈ pre, ¬ cmpEq lessNat q.2 5) ∧
      cmpEq lessNat x 5 ∧ Delete lessNat exOne 5 = some (some x, sl') ∧
      Len sl' = Len exOne - 1 ∧ chain sl' = some (pre ++ post) :=
  ⟨⟨(1, 5), by simp, by simp [cmpEq, lessNat]⟩,
   C4_Delete_first_equal lessNat_strictWeak exOne_reachable 5 [(1, 5)] (by rfl)
     ⟨(1, 5), by simp, by simp [cmpEq, lessNat]⟩⟩

/-- C5: on every reachable list, when no value on the level-0 chain is
comparator-equal to `v`, `Delete(v)` returns `nil` and changes nothing but the scratch
array `update`: `Len()`, `level`, `tail`, the header, the whole heap (so every forward
link and span at every level), the key index and the level-0 chain are as before.
(The comparator is a strict weak order.) -/
theorem C5_Delete_absent_noop {α : Type} [DecidableEq α] {less : α → α → Bool}
    (hsw : StrictWeak less) {sl : SkipList α} (hr : Reachable less sl) (v : α)
    (ps : List (Nat × α)) (hps : chain sl = some ps) (hno : ∀ q ∈ ps, ¬ cmpEq less q.2 v) :
    ∃ sl', Delete less sl v = some (none, sl') ∧ Len sl' = Len sl ∧ sl'.level = sl.level ∧
      sl'.tail = sl.tail ∧ sl'.header = sl.header ∧ sl'.heap = sl.heap ∧
      sl'.nodes = sl.nodes ∧ chain sl' = some ps := by
  obtain ⟨L, hrep, hsort⟩ := reachable_rep hsw hr
  have hps' : ps = pairs L := by
    rw [hrep.chain_eq] at hps; exact (Option.some.inj hps).symm
  subst hps'
  obtain ⟨lo, hi, rfl, hsp, hcase⟩ := split_eq_cases hsw hrep.vals hsort v
  rcases hcase with ⟨e, hi', x, rfl, hx, hlt, heq⟩ | ⟨hno', _⟩
  · exfalso
    exact hno (e.ptr, x) (by rw [pairs_split lo hi' e x hx]; simp) heq
  · obtain ⟨upd, hu, g⟩ := Delete_notfound less v hrep hsp hno'
    exact ⟨_, g, rfl, rfl, rfl, rfl, rfl, rfl, (hrep.set_update upd hu).chain_eq⟩

theorem C5_witness :
    (∀ q ∈ [((1 : Nat), (5 : Nat))], ¬ cmpEq lessNat q.2 7) ∧
    ∃ sl', Delete lessNat exOne 7 = some (none, sl') ∧ Len sl' = Len exOne ∧
      sl'.level = exOne.level ∧ sl'.tail = exOne.tail ∧ sl'.header = exOne.header ∧
      sl'.heap = exOne.heap ∧ sl'.nodes = exOne.nodes ∧ chain sl' = some [(1, 5)] :=
  ⟨by simp [cmpEq, lessNat],
   C5_Delete_absent_noop lessNat_strictWeak exOne_reachable 7 [(1, 5)] (by rfl)
     (by simp [cmpEq, lessNat])⟩

theorem nodup_same_split {β : Type} {A B A' B' : List β} {x : β}
    (hnd : (A ++ x :: B).Nodup) (h : A ++ x :: B = A' ++ x :: B') : A = A' ∧ B = B' := by
  rcases split_cases h with ⟨t, h1, h2⟩ | ⟨h1, _, h3⟩ | ⟨t, h1, h2⟩
  · exfalso
    rw [h2] at hnd
    have h3 := (List.nodup_append.mp hnd).2.1
    have h4 := (List.nodup_cons.mp h3).1
    exact h4 (by simp)
  · exact ⟨h1, h3⟩
  · exfalso
    rw [h2, List.append_assoc, List.cons_append] at hnd
    have h3 := (List.nodup_append.mp hnd).2.1
    have h4 := (List.nodup_cons.mp h3).1
    exact h4 (by simp)

theorem Rep.pairs_nodup {α : Type} {sl : SkipList α} {L : List (Cell α)} (h : Rep sl L) :
    (pairs L).Nodup := by
  have h1 : ((pairs L).map Prod.fst).Nodup := by
    rw [pairs_map_fst h.vals]
    have := h.nodup
    simp only [List.map_cons, List.nodup_cons] at this
    exact this.2
  exact List.Nodup.of_map _ h1

theorem Rep.fresh {α : Type} {sl : SkipList α} {L : List (Cell α)} (h : Rep sl L) :
    sl.heap.length ∉ (pairs L).map Prod.fst := by
  rw [pairs_map_fst h.vals]
  intro hmem
  obtain ⟨c, hc, hcp⟩ := List.mem_map.mp hmem
  have := h.shape.ptr_lt (List.mem_cons_of_mem _ hc)
  omega

/-- C9: on every reachable list and for every value `v`, whatever the random
source yields (provided `randomLevel` returns a height): `Insert(v)` returns, the
`Delete(v)` that follows returns `v`, `Len()` is back to its value before the
insertion, the level-0 chain holds exactly the nodes it held before, in the same
order, and the inserted node is not among them. (The comparator is a strict weak
order.) -/
theorem C9_Insert_then_Delete {α : Type} [DecidableEq α] {less : α → α → Bool}
    (hsw : StrictWeak less) {sl : SkipList α} (hr : Reachable less sl) (v : α)
    (rnd : List Nat) (h : Nat) (hrnd : randomLevel rnd = some h)
    (ps : List (Nat × α)) (hps : chain sl = some ps) :
    ∃ x sl1 sl2, Insert less sl v rnd = some (x, sl1) ∧ Len sl1 = Len sl + 1 ∧
      Delete less sl1 v = some (some v, sl2) ∧ Len sl2 = Len sl ∧
      chain sl2 = some ps ∧ x ∉ ps.map Prod.fst := by
  obtain ⟨L, hrep, hsort⟩ := reachable_rep hsw hr
  have hps' : ps = pairs L := by
    rw [hrep.chain_eq] at hps; exact (Option.some.inj hps).symm
  subst hps'
  obtain ⟨lo, hi, rfl, hsp⟩ := exists_splits hsw hrep.vals hsort v
  obtain ⟨sl1, g1, g2, _⟩ := Insert_spec less v hrep hsp hrnd
  have hsp' : Splits less v lo (⟨sl.heap.length, some v, h⟩ :: hi) := by
    refine ⟨hsp.1, ?_⟩
    intro c hc
    rcases List.mem_cons.mp hc with rfl | hc
    · exact ⟨v, rfl, hsw.irrefl v⟩
    · exact hsp.2 c hc
  obtain ⟨sl2, k1, k2, _, _, k5, _⟩ :=
    Delete_found less v g2 hsp' rfl (hsw.irrefl v)
  refine ⟨sl.heap.length, sl1, sl2, g1, ?_, k1, ?_, k2.chain_eq, hrep.fresh⟩
  · show sl1.length = sl.length + 1
    rw [g2.length, hrep.length]; simp; omega
  · show sl2.length = sl.length
    rw [k2.length, hrep.length]

theorem C9_witness :
    randomLevel [0, 1] = some 2 ∧ chain exOne = some [(1, 5)] ∧
    ∃ x sl1 sl2, Insert lessNat exOne 3 [0, 1] = some (x, sl1) ∧ Len sl1 = Len exOne + 1 ∧
      Delete lessNat sl1 3 = some (some 3, sl2) ∧ Len sl2 = Len exOne ∧
      chain sl2 = some [(1, 5)] ∧ x ∉ [((1 : Nat), (5 : Nat))].map Prod.fst :=
  ⟨by rfl, by rfl,
   C9_Insert_then_Delete lessNat_strictWeak exOne_reachable 3 [0, 1] 2 (by rfl) [(1, 5)]
     (by rfl)⟩

theorem exTieA_eq : Insert Player.Less New ⟨"A", 10⟩ [1] = some (1, exTieA) := by rfl

theorem exTie_eq : Insert Player.Less exTieA ⟨"B", 10⟩ [1] = some (2, exTie) := by rfl

theorem exTie_reachable : Reachable Player.Less exTie :=
  Reachable.insert (Reachable.insert Reachable.new exTieA_eq) exTie_eq

/-- C6 (failing input): after `Insert(Player{"A", 10})`, `Insert(Player{"B", 10})` (two
distinct values that tie under `Player.Less`) both nodes are on the level-0 chain, the
one inserted first (node `1`) behind the one inserted second; `Remove` of node `1`,
which is a node of the list and holds a value, returns `nil`, `Len()` stays `2` and the
chain is unchanged, while `Remove` of node `2` returns its value and `Len()` drops to
`1`. The same happens after `Insert(5)` twice. -/
theorem C6_Remove_linked_node_returns_nil :
    Reachable Player.Less exTie ∧
    chain exTie = some [(2, ⟨"B", 10⟩), (1, ⟨"A", 10⟩)] ∧ Len exTie = 2 ∧
    getValue exTie.heap 1 = some ⟨"A", 10⟩ ∧
    (Remove Player.Less exTie 1).map (fun r => (r.1, Len r.2, chain r.2)) =
      some (none, 2, some [(2, ⟨"B", 10⟩), (1, ⟨"A", 10⟩)]) ∧
    (Remove Player.Less exTie 2).map (fun r => (r.1, Len r.2, chain r.2)) =
      some (some ⟨"B", 10⟩, 1, some [(1, ⟨"A", 10⟩)]) ∧
    Reachable lessNat exDup ∧ chain exDup = some [(2, 5), (1, 5)] ∧ Len exDup = 2 ∧
    (Remove lessNat exDup 1).map (fun r => (r.1, Len r.2)) = some (none, 2) :=
  ⟨exTie_reachable, by rfl, by rfl, by rfl, by rfl, by rfl, exDup_reachable, by rfl, by rfl,
   by rfl⟩

/-- What `Remove` does as written, on every reachable list and for every node `e`
holding a value `ev`: it unlinks `e`, returns `ev` and decreases `Len()` by one exactly
when `e` is on the level-0 chain and no node before it holds a value comparator-equal
to `ev`; otherwise, also when `e` is on the chain behind such a node, it returns `nil`
and changes nothing but the scratch array `update`. (The comparator is a strict weak
order.) -/
theorem Remove_first_of_equals {α : Type} [DecidableEq α] {less : α → α → Bool}
    (hsw : StrictWeak less) {sl : SkipList α} (hr : Reachable less sl) (e : Nat) (ev : α)
    (hval : getValue sl.heap e = some ev) (ps : List (Nat × α)) (hps : chain sl = some ps) :
    ((∃ pre post, ps = pre ++ (e, ev) :: post ∧ ∀ q ∈ pre, ¬ cmpEq less q.2 ev) →
      ∃ pre post sl', ps = pre ++ (e, ev) :: post ∧
        Remove less sl e = some (some ev, sl') ∧ Len sl' = Len sl - 1 ∧
        chain sl' = some (pre ++ post)) ∧
    ((¬ ∃ pre post, ps = pre ++ (e, ev) :: post ∧ ∀ q ∈ pre, ¬ cmpEq less q.2 ev) →
      ∃ sl', Remove less sl e = some (none, sl') ∧ Len sl' = Len sl ∧ sl'.heap = sl.heap ∧
        sl'.level = sl.level ∧ sl'.tail = sl.tail ∧ sl'.header = sl.header ∧
        chain sl' = some ps) := by
  obtain ⟨L, hrep, hsort⟩ := reachable_rep hsw hr
  have hps' : ps = pairs L := by
    rw [hrep.chain_eq] at hps; exact (Option.some.inj hps).symm
  subst hps'
  obtain ⟨lo, hi, rfl, hsp⟩ := exists_splits hsw hrep.vals hsort ev
  by_cases hhead : hi.head?.map Cell.ptr = some e
  · -- `e` is the first node that is not `Less` than its value
    cases hi with
    | nil => simp at hhead
    | cons c hi' =>
      simp at hhead
      subst hhead
      have hx : c.val = some ev := by
        rw [← hrep.value_of_mem (by simp), hval]
      obtain ⟨sl', g1, g2, _, _, g5, _⟩ := Remove_first less hrep hx hsp (hsw.irrefl ev)
      have hsplit := pairs_split lo hi' c ev hx
      constructor
      · intro _
        exact ⟨pairs lo, pairs hi', sl', hsplit, g1, g5, by rw [g2.chain_eq, pairs_append]⟩
      · intro hnot
        exact absurd ⟨pairs lo, pairs hi', hsplit, not_eq_of_lt hsp.1⟩ hnot
  · obtain ⟨upd, hu, g⟩ := Remove_other less hrep hval hsp hhead
    constructor
    · rintro ⟨pre, post, hpre, hall⟩
      exfalso
      have hmem : (e, ev) ∈ pairs (lo ++ hi) := by rw [hpre]; simp
      obtain ⟨c, hc, hcv, hcp⟩ := mem_pairs.mp hmem
      simp only at hcv hcp
      rcases List.mem_append.mp hc with hc | hc
      · obtain ⟨a, ha, hlt⟩ := hsp.1 c hc
        rw [ha] at hcv
        have : a = ev := Option.some.inj hcv
        subst this
        rw [hsw.irrefl a] at hlt
        exact absurd hlt (by simp)
      · obtain ⟨h1, h2, hh⟩ := List.append_of_mem hc
        cases h1 with
        | nil =>
          apply hhead
          rw [hh]; simp [hcp]
        | cons d h1 =>
          obtain ⟨z, hz, hzv⟩ := hsp.2 d (by rw [hh]; simp)
          have hsort' := (List.pairwise_append.mp hsort).2.1
          rw [hh] at hsort'
          have hvz : less ev z = false :=
            (List.pairwise_cons.mp hsort').1 c (by simp) z ev hz hcv
          -- `d` is before `e` on the chain
          have hps2 : pairs (lo ++ hi) =
              (pairs lo ++ (d.ptr, z) :: pairs h1) ++ (e, ev) :: pairs h2 := by
            rw [hh, pairs_append, List.cons_append, pairs_cons d _ z hz, pairs_append, ← hcp,
              pairs_cons c h2 ev hcv]
            simp
          have hnd := hrep.pairs_nodup
          rw [hps2] at hnd
          have := nodup_same_split hnd (hps2.symm.trans hpre)
          exact hall (d.ptr, z) (by rw [← this.1]; simp) ⟨hzv, hvz⟩
    · intro _
      exact ⟨_, g, rfl, rfl, rfl, rfl, rfl, (hrep.set_update upd hu).chain_eq⟩

theorem Remove_first_of_equals_witness :
    getValue exDup.heap 2 = some 5 ∧ chain exDup = some [(2, 5), (1, 5)] ∧
    (((∃ pre post, [((2 : Nat), (5 : Nat)), (1, 5)] = pre ++ (2, 5) :: post ∧
          ∀ q ∈ pre, ¬ cmpEq lessNat q.2 5) →
      ∃ pre post sl', [((2 : Nat), (5 : Nat)), (1, 5)] = pre ++ (2, 5) :: post ∧
        Remove lessNat exDup 2 = some (some 5, sl') ∧ Len sl' = Len exDup - 1 ∧
        chain sl' = some (pre ++ post)) ∧
    ((¬ ∃ pre post, [((2 : Nat), (5 : Nat)), (1, 5)] = pre ++ (2, 5) :: post ∧
          ∀ q ∈ pre, ¬ cmpEq lessNat q.2 5) →
      ∃ sl', Remove lessNat exDup 2 = some (none, sl') ∧ Len sl' = Len exDup ∧
        sl'.heap = exDup.heap ∧ sl'.level = exDup.level ∧ sl'.tail = exDup.tail ∧
        sl'.header = exDup.header ∧ chain sl' = some [(2, 5), (1, 5)])) :=
  ⟨by rfl, by rfl,
   Remove_first_of_equals lessNat_strictWeak exDup_reachable 2 5 (by rfl)
     [(2, 5), (1, 5)] (by rfl)⟩

/-- On a well-formed list `GetNodeByRank(0)` returns the header sentinel. -/
theorem GetNodeByRank_zero {α : Type} {sl : SkipList α} {L : List (Cell α)} (hrep : Rep sl L) :
    GetNodeByRank sl 0 = some (some sl.header) := by
  have := @GetNodeByRank_spec α sl [] L (by simpa using hrep) 0 (fun _ => rfl)
    (fun _ => by simp) (fun _ => by simp)
  simpa [hcell] using this

/-- On a well-formed list `GetNodeByRank` returns `nil` for a negative rank and
for a rank above `Len()`. -/
theorem GetNodeByRank_outside {α : Type} {sl : SkipList α} {L : List (Cell α)}
    (hrep : Rep sl L) (rank : Int) (h : rank < 0 ∨ Len sl < rank) :
    GetNodeByRank sl rank = some none := by
  have hlen : Len sl = (L.length : Int) := hrep.length
  rcases h with h | h
  · have := @GetNodeByRank_spec α sl [] L (by simpa using hrep) rank (fun _ => rfl)
      (fun h0 => by omega) (fun _ => by simp; omega)
    rw [this, if_neg (by simp; omega)]
  · have := @GetNodeByRank_spec α sl L [] (by simpa using hrep) rank
      (fun h0 => by omega) (fun _ => by omega) (fun h0 => absurd rfl h0)
    rw [this, if_neg (by omega)]

/-- C7 (failing input): on the empty list `New()`, and on the list holding the one
value `5`, `GetNodeByRank(0)` returns the header sentinel (node `0`, whose `Value` is
`nil`) instead of `nil`; ranks `-1` and `Len() + 1` do give `nil`. -/
theorem C7_GetNodeByRank_zero_is_header :
    GetNodeByRank (New : SkipList Nat) 0 = some (some (New : SkipList Nat).header) ∧
    GetNodeByRank exOne 0 = some (some exOne.header) ∧
    getValue exOne.heap exOne.header = none ∧
    GetNodeByRank exOne (-1) = some none ∧ GetNodeByRank exOne 2 = some none :=
  ⟨by rfl, by rfl, by rfl, by rfl, by rfl⟩

/-- The state `Init` leaves: empty, at level 1, with the key index it found. -/
theorem Init_state {α : Type} (sl : SkipList α) :
    Len (Init sl) = 0 ∧ Front (Init sl) = some none ∧ Back (Init sl) = none ∧
    (Init sl).level = 1 ∧ chain (Init sl) = some [] ∧ (Init sl).nodes = sl.nodes := by
  have hrep := rep_Init sl
  have hc := hrep.chain_eq
  refine ⟨rfl, ?_, rfl, rfl, hc, rfl⟩
  have hent := hrep.shape.entry (a := []) (c := hcell (Init sl).header) (b := []) rfl
    (by show 0 < SKIPLIST_MAXLEVEL; decide) hrep.level_pos
  have hent' : getLevel (Init sl).heap (Init sl).header 0 =
      some (link 0 ([] : List (Cell α))) := hent
  unfold Front
  rw [hent']
  rfl

/-- C10 (failing input): after `New()`, `Insert(5)`, `Init()` the list is empty
(`Len() == 0`, `Front()` and `Back()` are `nil`, `level == 1`), but `GetNodeByKey(5)`
still returns the node created by the insertion, with a `nil` error, where a
fresh `New()` reports not-found. -/
theorem C10_Init_keeps_key_index :
    Len (Init exOne) = 0 ∧ Front (Init exOne) = some none ∧ Back (Init exOne) = none ∧
    (Init exOne).level = 1 ∧
    GetNodeByKey (Init exOne) 5 = (some 1, none) ∧
    GetNodeByKey (New : SkipList Nat) 5 = (none, some "key not found") :=
  ⟨by rfl, by rfl, by rfl, by rfl, by rfl, by rfl⟩

theorem pairs_getElem_mid {α : Type} {A B : List (Cell α)} {e : Cell α} {y : α}
    (hA : ∀ c ∈ A, ∃ a, c.val = some a) (hy : e.val = some y) :
    (pairs (A ++ e :: B))[A.length]? = some (e.ptr, y) := by
  rw [pairs_split A B e y hy]
  have hl : (pairs A).length = A.length := pairs_length hA
  rw [List.getElem?_append_right (by omega), hl]
  simp

theorem getLast_hcell_snoc {α : Type} (hdr : Nat) (A : List (Cell α)) (e : Cell α) :
    ((hcell hdr :: (A ++ [e])).getLast (List.cons_ne_nil _ _)).ptr = e.ptr := by
  have : hcell hdr :: (A ++ [e]) = (hcell hdr :: A) ++ [e] := by simp
  simp only [this, List.getLast_append_singleton]

/-- C8: on every reachable list (comparator-equal values allowed) and for every
value `v`, `GetRank(v)` returns a rank `r`; `r == 0` if and only if no value on the
level-0 chain is comparator-equal to `v`; otherwise `1 <= r <= Len()`, the node at
position `r` of the level-0 chain holds a value comparator-equal to `v`, and
`GetNodeByRank(r)` returns that node. (The comparator is a strict weak order.) -/
theorem C8_GetRank_zero_iff_absent {α : Type} [DecidableEq α] {less : α → α → Bool}
    (hsw : StrictWeak less) {sl : SkipList α} (hr : Reachable less sl) (v : α)
    (ps : List (Nat × α)) (hps : chain sl = some ps) :
    ∃ r, GetRank less sl v = some r ∧ (r = 0 ↔ ∀ q ∈ ps, ¬ cmpEq less q.2 v) ∧
      (r ≠ 0 → 1 ≤ r ∧ r ≤ Len sl ∧ ∃ p x, ps[(r - 1).toNat]? = some (p, x) ∧
        cmpEq less x v ∧ GetNodeByRank sl r = some (some p)) := by
  obtain ⟨L, hrep, hsort⟩ := reachable_rep hsw hr
  have hps' : ps = pairs L := by
    rw [hrep.chain_eq] at hps; exact (Option.some.inj hps).symm
  subst hps'
  obtain ⟨lo, hi, rfl, hsp⟩ := exists_splits hsw hrep.vals hsort v
  obtain ⟨r, hr1, hcase⟩ := GetRank_spec less v hrep hsp
  refine ⟨r, hr1, ?_⟩
  rcases hcase with ⟨h0, hno⟩ | ⟨h1, e, h2, y, hh, hy, hvy, hrr⟩
  · have hnone := no_eq_of_head_gt hsw hsort hsp hno
    exact ⟨⟨fun _ => hnone, fun _ => h0⟩, fun hne => absurd h0 hne⟩
  · subst hh
    obtain ⟨y', hy', hyv⟩ := hsp.2 e (by simp)
    have hyy : y' = y := by rw [hy] at hy'; exact (Option.some.inj hy').symm
    subst hyy
    have heq : cmpEq less y' v := ⟨hyv, hvy⟩
    have hL : lo ++ (h1 ++ e :: h2) = (lo ++ h1) ++ e :: h2 := by simp
    have hmem : (e.ptr, y') ∈ pairs (lo ++ (h1 ++ e :: h2)) := by
      rw [hL, pairs_split _ _ e y' hy]; simp
    have hrne : r ≠ 0 := by rw [hrr]; push_cast; omega
    refine ⟨⟨fun h0 => absurd h0 hrne, fun hall => absurd heq (hall _ hmem)⟩, fun _ => ?_⟩
    have hlen : Len sl = ((lo ++ (h1 ++ e :: h2)).length : Int) := hrep.length
    refine ⟨by rw [hrr]; push_cast; omega, by rw [hlen, hrr]; simp; omega, e.ptr, y', ?_, heq, ?_⟩
    · have hidx : (r - 1).toNat = (lo ++ h1).length := by
        rw [hrr]; simp; omega
      rw [hidx, hL]
      exact pairs_getElem_mid
        (fun c hc => hrep.vals c (by rw [hL]; exact List.mem_append_left _ hc)) hy
    · have hrep' : Rep sl ((lo ++ h1 ++ [e]) ++ h2) := by simpa using hrep
      have := GetNodeByRank_spec hrep' r (fun h => by rw [hrr] at h; omega)
        (fun _ => by rw [hrr]; simp; omega) (fun _ => by rw [hrr]; simp; omega)
      rw [this, if_pos (by rw [hrr]; simp; omega)]
      congr 2
      exact getLast_hcell_snoc sl.header (lo ++ h1) e

theorem C8_witness :
    chain exDup = some [(2, 5), (1, 5)] ∧
    ∃ r, GetRank lessNat exDup 5 = some r ∧
      (r = 0 ↔ ∀ q ∈ [((2 : Nat), (5 : Nat)), (1, 5)], ¬ cmpEq lessNat q.2 5) ∧
      (r ≠ 0 → 1 ≤ r ∧ r ≤ Len exDup ∧
        ∃ p x, [((2 : Nat), (5 : Nat)), (1, 5)][(r - 1).toNat]? = some (p, x) ∧
          cmpEq lessNat x 5 ∧ GetNodeByRank exDup r = some (some p)) :=
  ⟨by rfl,
   C8_GetRank_zero_iff_absent lessNat_strictWeak exDup_reachable 5 [(2, 5), (1, 5)] (by rfl)⟩

theorem StrictOrder.irrefl_strict {α : Type} {less : α → α → Bool} (h : StrictOrder less) (a : α) :
    less a a = false := by
  cases hb : less a a with
  | false => rfl
  | true => have := h.asymm a a hb; rw [hb] at this; exact this

theorem pairs_map_snd_split {α : Type} (lo hi : List (Cell α)) (p h : Nat) (v : α) :
    (pairs (lo ++ ⟨p, some v, h⟩ :: hi)).map Prod.snd =
      (pairs lo).map Prod.snd ++ v :: (pairs hi).map Prod.snd := by
  rw [pairs_split lo hi ⟨p, some v, h⟩ v rfl]
  simp

theorem SSorted.values {α : Type} {less : α → α → Bool} {L : List (Cell α)}
    (hs : SSorted less L) : ((pairs L).map Prod.snd).Pairwise (fun a b => less a b = true) := by
  induction L with
  | nil => exact List.Pairwise.nil
  | cons c t ih =>
    have hs' := List.pairwise_cons.mp hs
    cases hv : c.val with
    | none =>
      have : pairs (c :: t) = pairs t := by simp [pairs, List.filterMap_cons, hv]
      rw [this]
      exact ih hs'.2
    | some x =>
      rw [pairs_cons c t x hv]
      simp only [List.map_cons]
      refine List.pairwise_cons.mpr ⟨?_, ih hs'.2⟩
      intro y hy
      obtain ⟨q, hq, rfl⟩ := List.mem_map.mp hy
      obtain ⟨d, hd, hdv, _⟩ := mem_pairs.mp hq
      exact hs'.1 d hd x q.2 hv hdv

/-- A run of insertions of pairwise comparable values into a strictly sorted
well-formed list returns and yields a strictly sorted well-formed list holding
the old and the new values. -/
theorem insertAll_spec {α : Type} [DecidableEq α] {less : α → α → Bool}
    (hso : StrictOrder less) :
    ∀ (ops : List (α × List Nat)) (sl : SkipList α) (L : List (Cell α)),
      Rep sl L → SSorted less L →
      (ops.map Prod.fst).Pairwise (fun a b => less a b = true ∨ less b a = true) →
      (∀ op ∈ ops, ∀ c ∈ L, ∀ x, c.val = some x →
        less x op.1 = true ∨ less op.1 x = true) →
      (∀ op ∈ ops, ∃ h, randomLevel op.2 = some h) →
      ∃ sl' L', insertAll less sl ops = some sl' ∧ Rep sl' L' ∧ SSorted less L' ∧
        ((pairs L').map Prod.snd).Perm ((pairs L).map Prod.snd ++ ops.map Prod.fst) := by
  intro ops
  induction ops with
  | nil =>
    intro sl L hrep hs _ _ _
    exact ⟨sl, L, rfl, hrep, hs, by simp⟩
  | cons op ops ih =>
    intro sl L hrep hs hpw hcmp hrnd
    obtain ⟨v, rnd⟩ := op
    obtain ⟨h, hh⟩ := hrnd (v, rnd) (by simp)
    have hcv : ∀ c ∈ L, ∀ x, c.val = some x → less x v = true ∨ less v x = true :=
      fun c hc x hx => hcmp (v, rnd) (by simp) c hc x hx
    obtain ⟨lo, hi, rfl, hsp⟩ := exists_splits_strict hso hrep.vals hs v hcv
    obtain ⟨sl1, g1, g2, _⟩ := Insert_spec less v hrep hsp hh
    have hs1 := hs.insert_strict hsp hcv sl.heap.length h
    simp only [List.map_cons] at hpw
    have hpw' := List.pairwise_cons.mp hpw
    obtain ⟨sl', L', k1, k2, k3, k4⟩ := ih sl1 _ g2 hs1 hpw'.2
      (by
        intro op' hop' c hc x hx
        rcases List.mem_append.mp hc with hc | hc
        · exact hcmp op' (by simp [hop']) c (by simp [hc]) x hx
        · rcases List.mem_cons.mp hc with rfl | hc
          · simp at hx; subst hx
            exact hpw'.1 op'.1 (List.mem_map.mpr ⟨op', hop', rfl⟩)
          · exact hcmp op' (by simp [hop']) c (by simp [hc]) x hx)
      (fun op' hop' => hrnd op' (by simp [hop']))
    refine ⟨sl', L', ?_, k2, k3, ?_⟩
    · simp only [insertAll, g1, k1]
    · refine k4.trans ?_
      rw [pairs_map_snd_split, pairs_append]
      simp only [List.map_append, List.map_cons, List.append_assoc, List.cons_append]
      refine List.Perm.append_left _ ?_
      exact List.perm_middle.symm

theorem pairs_index {α : Type} {L : List (Cell α)} (hv : ∀ c ∈ L, ∃ a, c.val = some a)
    {i p : Nat} {x : α} (h : (pairs L)[i]? = some (p, x)) :
    ∃ lo e hi, L = lo ++ e :: hi ∧ lo.length = i ∧ e.ptr = p ∧ e.val = some x := by
  have hi : i < L.length := by
    have := (List.getElem?_eq_some_iff.mp h).1
    rw [pairs_length hv] at this
    exact this
  have hL : L = L.take i ++ L[i] :: L.drop (i + 1) := by
    rw [← List.drop_eq_getElem_cons hi, List.take_append_drop]
  obtain ⟨y, hy⟩ := hv L[i] (List.getElem_mem _)
  have hlen : (L.take i).length = i := by
    rw [List.length_take]; omega
  have hmid := pairs_getElem_mid (A := L.take i) (B := L.drop (i + 1)) (e := L[i]) (y := y)
    (fun c hc => hv c (List.mem_of_mem_take hc)) hy
  rw [← hL, hlen, h] at hmid
  have heq := Option.some.inj hmid
  simp only [Prod.mk.injEq] at heq
  exact ⟨L.take i, L[i], L.drop (i + 1), hL, hlen, heq.1.symm, by rw [hy, heq.2]⟩

/-- C1: for every comparator that is a strict order, every list of values that are
pairwise distinct under it (one is `Less` than the other), in every insertion order
and whatever the random source yields (provided `randomLevel` returns each time):
inserting them into `New()` returns a list with `Len() == N` whose level-0 chain
(`Front()`, then `Next()` repeatedly) visits distinct nodes holding exactly the
inserted values, each once, in strictly ascending comparator order. -/
theorem C1_Insert_sorted_chain {α : Type} [DecidableEq α] {less : α → α → Bool}
    (hso : StrictOrder less) (ops : List (α × List Nat))
    (hd : (ops.map Prod.fst).Pairwise (fun a b => less a b = true ∨ less b a = true))
    (hrnd : ∀ op ∈ ops, ∃ h, randomLevel op.2 = some h) :
    ∃ sl ps, insertAll less New ops = some sl ∧ Len sl = (ops.length : Int) ∧
      chain sl = some ps ∧ (ps.map Prod.snd).Perm (ops.map Prod.fst) ∧
      (ps.map Prod.snd).Pairwise (fun a b => less a b = true) ∧ (ps.map Prod.fst).Nodup := by
  obtain ⟨sl, L, h1, h2, h3, h4⟩ := insertAll_spec hso ops New [] rep_New List.Pairwise.nil hd
    (by simp) hrnd
  have h4' : ((pairs L).map Prod.snd).Perm (ops.map Prod.fst) := by simpa [pairs] using h4
  refine ⟨sl, pairs L, h1, ?_, h2.chain_eq, h4', h3.values, ?_⟩
  · rw [h2.len]
    have := h4'.length_eq
    simp only [List.length_map] at this
    rw [this]
  · rw [pairs_map_fst h2.vals]
    have := h2.nodup
    simp only [List.map_cons, List.nodup_cons] at this
    exact this.2

theorem C1_witness :
    ((([((3 : Nat), [(1 : Nat)]), (1, [0, 1]), (2, [4, 8, 3])]).map Prod.fst).Pairwise
      (fun a b => lessNat a b = true ∨ lessNat b a = true)) ∧
    ∃ sl ps, insertAll lessNat New [(3, [1]), (1, [0, 1]), (2, [4, 8, 3])] = some sl ∧
      Len sl = (([((3 : Nat), [(1 : Nat)]), (1, [0, 1]), (2, [4, 8, 3])]).length : Int) ∧
      chain sl = some ps ∧
      (ps.map Prod.snd).Perm
        (([((3 : Nat), [(1 : Nat)]), (1, [0, 1]), (2, [4, 8, 3])]).map Prod.fst) ∧
      (ps.map Prod.snd).Pairwise (fun a b => lessNat a b = true) ∧ (ps.map Prod.fst).Nodup :=
  ⟨by simp [lessNat],
   C1_Insert_sorted_chain lessNat_strictOrder [(3, [1]), (1, [0, 1]), (2, [4, 8, 3])]
     (by simp [lessNat])
     (by
       intro op hop
       simp at hop
       rcases hop with rfl | rfl | rfl
       · exact ⟨1, by rfl⟩
       · exact ⟨2, by rfl⟩
       · exact ⟨3, by rfl⟩)⟩

/-- C2: for every list built from `New()` by inserting `N` pairwise
comparator-distinct values (strict order, any insertion order, whatever the random
source yields) and every `i` with `1 <= i <= N`: `GetNodeByRank(i)` returns the node
at position `i` of the level-0 chain (index `i - 1` of the walk), and `GetRank` of the
value of that node returns `i`. -/
theorem C2_rank_round_trip {α : Type} [DecidableEq α] {less : α → α → Bool}
    (hso : StrictOrder less) (ops : List (α × List Nat))
    (hd : (ops.map Prod.fst).Pairwise (fun a b => less a b = true ∨ less b a = true))
    (hrnd : ∀ op ∈ ops, ∃ h, randomLevel op.2 = some h) :
    ∃ sl ps, insertAll less New ops = some sl ∧ chain sl = some ps ∧
      ps.length = ops.length ∧
      ∀ (i p : Nat) (x : α), ps[i]? = some (p, x) →
        GetNodeByRank sl ((i : Int) + 1) = some (some p) ∧
        GetRank less sl x = some ((i : Int) + 1) := by
  obtain ⟨sl, L, h1, h2, h3, h4⟩ := insertAll_spec hso ops New [] rep_New List.Pairwise.nil hd
    (by simp) hrnd
  have h4' : ((pairs L).map Prod.snd).Perm (ops.map Prod.fst) := by simpa [pairs] using h4
  refine ⟨sl, pairs L, h1, h2.chain_eq, ?_, ?_⟩
  · have := h4'.length_eq
    simpa using this
  intro i p x hix
  obtain ⟨lo, e, hi, rfl, hlen, hp, hx⟩ := pairs_index h2.vals hix
  subst hlen hp
  constructor
  · have hrep' : Rep sl ((lo ++ [e]) ++ hi) := by simpa using h2
    have := GetNodeByRank_spec hrep' ((lo.length : Int) + 1) (fun h => by omega)
      (fun _ => by simp) (fun _ => by simp)
    rw [this, if_pos (by simp)]
    congr 2
    exact getLast_hcell_snoc sl.header lo e
  · have hs := List.pairwise_append.mp h3
    have hs2 := List.pairwise_cons.mp hs.2.1
    have hsp : Splits less x lo (e :: hi) := by
      constructor
      · intro c hc
        obtain ⟨a, ha⟩ := h2.vals c (by simp [hc])
        exact ⟨a, ha, hs.2.2 c hc e (by simp) a x ha hx⟩
      · intro c hc
        rcases List.mem_cons.mp hc with rfl | hc
        · exact ⟨x, hx, hso.irrefl_strict x⟩
        · obtain ⟨z, hz⟩ := h2.vals c (by simp [hc])
          exact ⟨z, hz, hso.asymm x z (hs2.1 c hc x z hx hz)⟩
    obtain ⟨r, hr1, hcase⟩ := GetRank_spec less x h2 hsp
    rw [hr1]
    congr 1
    rcases hcase with ⟨_, hno⟩ | ⟨k1, e', k2, y, hh, hy, hxy, hrr⟩
    · have := hno e x rfl hx
      rw [hso.irrefl_strict x] at this
      exact absurd this (by simp)
    · cases k1 with
      | nil => rw [hrr]; simp
      | cons d k1 =>
        exfalso
        simp at hh
        have he' : e' ∈ hi := by rw [hh.2]; simp
        have := hs2.1 e' he' x y hx hy
        rw [hxy] at this
        exact absurd this (by simp)

theorem C2_witness :
    ((([((3 : Nat), [(1 : Nat)]), (1, [0, 1]), (2, [4, 8, 3])]).map Prod.fst).Pairwise
      (fun a b => lessNat a b = true ∨ lessNat b a = true)) ∧
    ∃ sl ps, insertAll lessNat New [(3, [1]), (1, [0, 1]), (2, [4, 8, 3])] = some sl ∧
      chain sl = some ps ∧
      ps.length = ([((3 : Nat), [(1 : Nat)]), (1, [0, 1]), (2, [4, 8, 3])]).length ∧
      ∀ (i p : Nat) (x : Nat), ps[i]? = some (p, x) →
        GetNodeByRank sl ((i : Int) + 1) = some (some p) ∧
        GetRank lessNat sl x = some ((i : Int) + 1) :=
  ⟨by simp [lessNat],
   C2_rank_round_trip lessNat_strictOrder [(3, [1]), (1, [0, 1]), (2, [4, 8, 3])]
     (by simp [lessNat])
     (by
       intro op hop
       simp at hop
       rcases hop with rfl | rfl | rfl
       · exact ⟨1, by rfl⟩
       · exact ⟨2, by rfl⟩
       · exact ⟨3, by rfl⟩)⟩

/-! ## `randomLevel` -/

theorem randomLevelLoop_cons (r : Nat) (rs : List Nat) (l : Nat) :
    randomLevelLoop (r :: rs) l =
      if (r &&& 0xFFFF) % SKIPLIST_BRANCH = 0 then randomLevelLoop rs (l + 1) else some l := rfl

theorem randomLevelLoop_stop (pre : List Nat) (r : Nat) (rest : List Nat)
    (hpre : ∀ x ∈ pre, luck x = true) (hr : luck r = false) :
    ∀ l, randomLevelLoop (pre ++ r :: rest) l = some (l + pre.length) := by
  induction pre with
  | nil =>
    intro l
    have : ¬ (r &&& 0xFFFF) % SKIPLIST_BRANCH = 0 := by simpa [luck] using hr
    rw [List.nil_append, randomLevelLoop_cons, if_neg this]
    simp
  | cons x pre ih =>
    intro l
    have hx : (x &&& 0xFFFF) % SKIPLIST_BRANCH = 0 := by
      simpa [luck] using hpre x (by simp)
    rw [List.cons_append, randomLevelLoop_cons, if_pos hx]
    rw [ih (fun y hy => hpre y (by simp [hy]))]
    simp only [List.length_cons]
    congr 1
    omega

theorem randomLevelLoop_all (rnd : List Nat) (h : ∀ x ∈ rnd, luck x = true) :
    ∀ l, randomLevelLoop rnd l = none := by
  induction rnd with
  | nil => intro l; rfl
  | cons x rnd ih =>
    intro l
    have hx : (x &&& 0xFFFF) % SKIPLIST_BRANCH = 0 := by
      simpa [luck] using h x (by simp)
    rw [randomLevelLoop_cons, if_pos hx]
    exact ih (fun y hy => h y (by simp [hy])) _

theorem randomLevel_stop (pre : List Nat) (r : Nat) (rest : List Nat)
    (hpre : ∀ x ∈ pre, luck x = true) (hr : luck r = false) :
    randomLevel (pre ++ r :: rest) = some (min (1 + pre.length) SKIPLIST_MAXLEVEL) := by
  unfold randomLevel
  rw [randomLevelLoop_stop pre r rest hpre hr]
  simp only []
  by_cases h : 1 + pre.length < SKIPLIST_MAXLEVEL
  · rw [if_pos h]; congr 1; omega
  · rw [if_neg h]; congr 1; omega

theorem randomLevel_all (rnd : List Nat) (h : ∀ x ∈ rnd, luck x = true) :
    randomLevel rnd = none := by
  unfold randomLevel
  rw [randomLevelLoop_all rnd h]

theorem luck_iff_mod (r : Nat) : luck r = true ↔ r % 4 = 0 := by
  have h1 : r &&& 0xFFFF = r % 2 ^ 16 := Nat.and_pow_two_sub_one_eq_mod r 16
  have h2 : r % 2 ^ 16 % 4 = r % 4 := Nat.mod_mod_of_dvd r (by decide)
  simp only [luck, SKIPLIST_BRANCH, decide_eq_true_eq]
  rw [h1, h2]

theorem luck_count (n : Nat) : Nat.count (fun r => luck r = true) (4 * n) = n := by
  induction n with
  | zero => simp
  | succ n ih =>
    have h4 : 4 * (n + 1) = 4 * n + 1 + 1 + 1 + 1 := by omega
    rw [h4, Nat.count_succ, Nat.count_succ, Nat.count_succ, Nat.count_succ, ih]
    have h0 : luck (4 * n) = true := (luck_iff_mod _).mpr (by omega)
    have h1 : ¬ luck (4 * n + 1) = true := fun h => by
      have := (luck_iff_mod _).mp h; omega
    have h2 : ¬ luck (4 * n + 1 + 1) = true := fun h => by
      have := (luck_iff_mod _).mp h; omega
    have h3 : ¬ luck (4 * n + 1 + 1 + 1) = true := fun h => by
      have := (luck_iff_mod _).mp h; omega
    simp [h0, h1, h2, h3]

/-- C17 (counterexample): on 32 draws that all satisfy the loop condition
`randomLevel` has not returned yet, it needs a 33rd draw (and a 41st after 40 such
draws); while the source keeps yielding such draws it does not return at all. -/
theorem C17_counterexample :
    randomLevel (List.replicate 32 0) = none ∧
    randomLevel (List.replicate 32 0 ++ [1]) = some 32 ∧
    randomLevel (List.replicate 40 0) = none ∧
    randomLevel (List.replicate 40 0 ++ [1]) = some 32 ∧
    ∀ n, randomLevel (List.replicate n 0) = none :=
  ⟨by rfl, by rfl, by rfl, by rfl,
   fun n => randomLevel_all _ (fun x hx => by rw [List.eq_of_mem_replicate hx]; rfl)⟩

/-- C17 (amended): every height `randomLevel` returns satisfies `1 <= h <= 32`.
It returns exactly when the source yields a draw `r` with `(r & 0xFFFF) % 4 != 0`:
with `k` draws satisfying the condition before the first such `r` it returns
`min(1 + k, 32)` after consuming `k + 1` draws (the draws after `r` play no role, the
`k` draws before it are not enough), where `k` has no bound; while every draw
satisfies the condition it does not return. -/
theorem C17_randomLevel_range_and_draws (rnd : List Nat) :
    (∀ h, randomLevel rnd = some h → 1 ≤ h ∧ h ≤ SKIPLIST_MAXLEVEL) ∧
    (∀ pre r rest, rnd = pre ++ r :: rest → (∀ x ∈ pre, luck x = true) → luck r = false →
      randomLevel rnd = some (min (1 + pre.length) SKIPLIST_MAXLEVEL) ∧
      randomLevel (pre ++ [r]) = randomLevel rnd ∧ randomLevel pre = none) ∧
    ((∀ x ∈ rnd, luck x = true) → randomLevel rnd = none) := by
  refine ⟨fun h hh => randomLevel_bounds hh, ?_, randomLevel_all rnd⟩
  intro pre r rest hrnd hpre hr
  subst hrnd
  exact ⟨randomLevel_stop pre r rest hpre hr,
    by rw [randomLevel_stop pre r rest hpre hr, randomLevel_stop pre r [] hpre hr],
    randomLevel_all pre hpre⟩

/-- C19: when the source yields `k` draws satisfying `(r & 0xFFFF) % 4 == 0` and then
one that does not, `randomLevel` returns `min(1 + k, 32)`; so for `1 <= j <= 32` the
height is at least `j` exactly when the first `j - 1` draws satisfy the condition.
For every draw `r` the condition holds iff `r % 4 == 0`, and it holds for exactly
`2^29` of the `2^31` values of `rand.Int31()`, one in `SKIPLIST_BRANCH = 4`. -/
theorem C19_randomLevel_geometric (pre : List Nat) (r : Nat) (rest : List Nat)
    (hpre : ∀ x ∈ pre, luck x = true) (hr : luck r = false) :
    randomLevel (pre ++ r :: rest) = some (min (1 + pre.length) SKIPLIST_MAXLEVEL) ∧
    (∀ j, 1 ≤ j → j ≤ SKIPLIST_MAXLEVEL →
      (j ≤ min (1 + pre.length) SKIPLIST_MAXLEVEL ↔
        ∀ i, i < j - 1 → ∃ x, (pre ++ r :: rest)[i]? = some x ∧ luck x = true)) ∧
    (∀ x, luck x = true ↔ x % 4 = 0) ∧
    (∀ x, luck x = decide ((x &&& 0xFFFF) % 4 = 0)) ∧
    Nat.count (fun x => luck x = true) (2 ^ 31) = 2 ^ 29 ∧
    2 ^ 29 * SKIPLIST_BRANCH = 2 ^ 31 := by
  refine ⟨randomLevel_stop pre r rest hpre hr, ?_, luck_iff_mod, fun x => rfl, ?_, by decide⟩
  · intro j hj1 hj2
    constructor
    · intro hle i hi
      have hip : i < pre.length := by omega
      refine ⟨pre[i], ?_, hpre _ (List.getElem_mem _)⟩
      rw [List.getElem?_append_left hip, List.getElem?_eq_getElem hip]
    · intro hall
      by_contra hlt
      have hk : pre.length < j - 1 := by omega
      obtain ⟨x, hx1, hx2⟩ := hall pre.length hk
      rw [List.getElem?_append_right (le_refl _)] at hx1
      simp at hx1
      subst hx1
      rw [hr] at hx2
      exact absurd hx2 (by simp)
  · have := luck_count (2 ^ 29)
    have h : 4 * 2 ^ 29 = 2 ^ 31 := by norm_num
    rw [h] at this
    exact this

theorem C19_witness :
    (∀ x ∈ [(0 : Nat), 4, 65536], luck x = true) ∧ luck 3 = false ∧
    (randomLevel ([0, 4, 65536] ++ 3 :: [8]) =
        some (min (1 + ([(0 : Nat), 4, 65536]).length) SKIPLIST_MAXLEVEL) ∧
    (∀ j, 1 ≤ j → j ≤ SKIPLIST_MAXLEVEL →
      (j ≤ min (1 + ([(0 : Nat), 4, 65536]).length) SKIPLIST_MAXLEVEL ↔
        ∀ i, i < j - 1 → ∃ x, ([0, 4, 65536] ++ 3 :: [8])[i]? = some x ∧ luck x = true)) ∧
    (∀ x, luck x = true ↔ x % 4 = 0) ∧
    (∀ x, luck x = decide ((x &&& 0xFFFF) % 4 = 0)) ∧
    Nat.count (fun x => luck x = true) (2 ^ 31) = 2 ^ 29 ∧
    2 ^ 29 * SKIPLIST_BRANCH = 2 ^ 31) :=
  ⟨by decide, by decide, C19_randomLevel_geometric [0, 4, 65536] 3 [8] (by decide) (by decide)⟩

/-! ## Placement of a new node and the predecessors found by the descent -/

theorem pairs_lt_of_splits {α : Type} {less : α → α → Bool} {lo hi : List (Cell α)} {v : α}
    (hsp : Splits less v lo hi) : ∀ q ∈ pairs lo, less q.2 v = true := by
  intro q hq
  obtain ⟨c, hc, h1, _⟩ := mem_pairs.mp hq
  obtain ⟨a, ha, hlt⟩ := hsp.1 c hc
  rw [ha] at h1
  have : a = q.2 := Option.some.inj h1
  subst this
  exact hlt

theorem pairs_ge_of_splits {α : Type} {less : α → α → Bool} {lo hi : List (Cell α)} {v : α}
    (hsp : Splits less v lo hi) : ∀ q ∈ pairs hi, less q.2 v = false := by
  intro q hq
  obtain ⟨c, hc, h1, _⟩ := mem_pairs.mp hq
  obtain ⟨a, ha, hlt⟩ := hsp.2 c hc
  rw [ha] at h1
  have : a = q.2 := Option.some.inj h1
  subst this
  exact hlt

theorem Rep.height_of_mem {α : Type} {sl : SkipList α} {L : List (Cell α)} (h : Rep sl L)
    {c : Cell α} (hc : c ∈ hcell sl.header :: L) : getHeight sl.heap c.ptr = some c.height := by
  obtain ⟨a, b, hab⟩ := List.append_of_mem hc
  exact (h.shape a c b hab).2.2.1

theorem pairs_head {α : Type} {L : List (Cell α)} (hv : ∀ c ∈ L, ∃ a, c.val = some a) :
    (pairs L).head?.map Prod.fst = L.head?.map Cell.ptr := by
  cases L with
  | nil => rfl
  | cons c t =>
    obtain ⟨x, hx⟩ := hv c (by simp)
    rw [pairs_cons c t x hx]
    rfl

/-- What `update[i]` is after a descent over the nodes `lo`, on the heap. -/
theorem UpdAt.on_heap {α : Type} {sl : SkipList α} {lo hi : List (Cell α)}
    {upd : List (Option Nat)} {rk : List Int} {i : Nat}
    (hrep : Rep sl (lo ++ hi)) (h : UpdAt (hcell sl.header :: lo) upd rk i) :
    ∃ u hu, upd[i]? = some (some u) ∧ getHeight sl.heap u = some hu ∧ i < hu ∧
      ((u = sl.header ∧ ∀ q ∈ pairs lo, ∀ hq, getHeight sl.heap q.1 = some hq → hq ≤ i) ∨
       (∃ p1 x p2, pairs lo = p1 ++ (u, x) :: p2 ∧
          ∀ q ∈ p2, ∀ hq, getHeight sl.heap q.1 = some hq → hq ≤ i)) := by
  obtain ⟨a, c, b, hdec, hc, hb, hu, _⟩ := h
  have hcm : c ∈ hcell sl.header :: (lo ++ hi) := by
    rw [← List.cons_append, hdec]; simp
  have hlow : ∀ b' : List (Cell α), (∀ e ∈ b', e ∈ lo) → (∀ e ∈ b', e.height ≤ i) →
      ∀ q ∈ pairs b', ∀ hq, getHeight sl.heap q.1 = some hq → hq ≤ i := by
    intro b' hsub hle q hq hq' hh
    obtain ⟨e, he, _, hp⟩ := mem_pairs.mp hq
    have := hrep.height_of_mem (c := e) (by simp [hsub e he])
    rw [hp, hh] at this
    have h2 := hle e he
    have h3 : hq' = e.height := Option.some.inj this
    omega
  refine ⟨c.ptr, c.height, hu, hrep.height_of_mem hcm, hc, ?_⟩
  rcases hcell_split hdec with ⟨_, h2, h3⟩ | ⟨a', _, h2⟩
  · left
    subst h3
    exact ⟨by rw [h2]; rfl, hlow b (fun e he => he) hb⟩
  · right
    obtain ⟨x, hx⟩ := hrep.vals c (by rw [h2]; simp)
    refine ⟨pairs a', x, pairs b, by rw [h2, pairs_split a' b c x hx], ?_⟩
    exact hlow b (fun e he => by rw [h2]; simp [he]) hb

/-- C15: on every reachable list (comparator-equal values may already be stored) and for
every value `v`, whatever the random source yields (provided `randomLevel` returns):
`Insert(v)` returns a newly allocated node whose `Value` is `v`, `Len()` grows by exactly
one, and the level-0 chain is the previous one with the new node placed after all
values `Less` than `v` and immediately before the first stored value that is not `Less`
than `v`. (The comparator is a strict weak order.) -/
theorem C15_Insert_placement {α : Type} [DecidableEq α] {less : α → α → Bool}
    (hsw : StrictWeak less) {sl : SkipList α} (hr : Reachable less sl) (v : α)
    (rnd : List Nat) (h : Nat) (hrnd : randomLevel rnd = some h)
    (ps : List (Nat × α)) (hps : chain sl = some ps) :
    ∃ x sl' pre post, Insert less sl v rnd = some (x, sl') ∧
      getValue sl.heap x = none ∧ x ∉ ps.map Prod.fst ∧ getValue sl'.heap x = some v ∧
      Len sl' = Len sl + 1 ∧ ps = pre ++ post ∧
      (∀ q ∈ pre, less q.2 v = true) ∧ (∀ q ∈ post, less q.2 v = false) ∧
      chain sl' = some (pre ++ (x, v) :: post) := by
  obtain ⟨L, hrep, hsort⟩ := reachable_rep hsw hr
  have hps' : ps = pairs L := by
    rw [hrep.chain_eq] at hps; exact (Option.some.inj hps).symm
  subst hps'
  obtain ⟨lo, hi, rfl, hsp⟩ := exists_splits hsw hrep.vals hsort v
  obtain ⟨sl', g1, g2, _, _, _, _, g7⟩ := Insert_spec less v hrep hsp hrnd
  refine ⟨sl.heap.length, sl', pairs lo, pairs hi, g1, ?_, hrep.fresh, g7, ?_, pairs_append lo hi,
    pairs_lt_of_splits hsp, pairs_ge_of_splits hsp, ?_⟩
  · simp [getValue]
  · show sl'.length = sl.length + 1
    rw [g2.length, hrep.length]; simp; omega
  · rw [g2.chain_eq, pairs_split lo hi _ v rfl]

theorem C15_witness :
    randomLevel [0, 1] = some 2 ∧ chain exDup = some [(2, 5), (1, 5)] ∧
    ∃ x sl' pre post, Insert lessNat exDup 5 [0, 1] = some (x, sl') ∧
      getValue exDup.heap x = none ∧ x ∉ [((2 : Nat), (5 : Nat)), (1, 5)].map Prod.fst ∧
      getValue sl'.heap x = some 5 ∧
      Len sl' = Len exDup + 1 ∧ [((2 : Nat), (5 : Nat)), (1, 5)] = pre ++ post ∧
      (∀ q ∈ pre, lessNat q.2 5 = true) ∧ (∀ q ∈ post, lessNat q.2 5 = false) ∧
      chain sl' = some (pre ++ (x, 5) :: post) :=
  ⟨by rfl, by rfl,
   C15_Insert_placement lessNat_strictWeak exDup_reachable 5 [0, 1] 2 (by rfl)
     [(2, 5), (1, 5)] (by rfl)⟩

/-- C18: on every reachable list and for every value `v`, the descent `find(v)` returns.
With `pre` the nodes of the level-0 chain whose value is `Less` than `v` and `post` the
others: for every level `i < level`, `update[i]` is a node with more than `i` levels,
namely the last node of `pre` with more than `i` levels, or the header when `pre` has
none; `update[0]` is the last node of `pre` (the header when `pre` is empty), its
`level[0].forward` is the returned node, and the returned node is the first node of
`post`, or `nil` when every stored value is `Less` than `v`. (The comparator is a strict
weak order.) -/
theorem C18_find_descent {α : Type} [DecidableEq α] {less : α → α → Bool}
    (hsw : StrictWeak less) {sl : SkipList α} (hr : Reachable less sl) (v : α)
    (ps : List (Nat × α)) (hps : chain sl = some ps) :
    ∃ pre post upd, ps = pre ++ post ∧
      (∀ q ∈ pre, less q.2 v = true) ∧ (∀ q ∈ post, less q.2 v = false) ∧
      find less sl v = some (post.head?.map Prod.fst, { sl with update := upd }) ∧
      (∀ i, i < sl.level → ∃ u hu, upd[i]? = some (some u) ∧
        getHeight sl.heap u = some hu ∧ i < hu ∧
        ((u = sl.header ∧ ∀ q ∈ pre, ∀ hq, getHeight sl.heap q.1 = some hq → hq ≤ i) ∨
         (∃ p1 x p2, pre = p1 ++ (u, x) :: p2 ∧
            ∀ q ∈ p2, ∀ hq, getHeight sl.heap q.1 = some hq → hq ≤ i))) ∧
      (∃ u0, upd[0]? = some (some u0) ∧
        u0 = (pre.getLast?.map Prod.fst).getD sl.header ∧
        Next sl.heap u0 = some (post.head?.map Prod.fst)) := by
  obtain ⟨L, hrep, hsort⟩ := reachable_rep hsw hr
  have hps' : ps = pairs L := by
    rw [hrep.chain_eq] at hps; exact (Option.some.inj hps).symm
  subst hps'
  obtain ⟨lo, hi, rfl, hsp⟩ := exists_splits hsw hrep.vals hsort v
  obtain ⟨upd, rk, h1, _, h3⟩ := find_spec less v hrep hsp
  have hhead : (pairs hi).head?.map Prod.fst = hi.head?.map Cell.ptr :=
    pairs_head (fun c hc => hrep.vals c (by simp [hc]))
  refine ⟨pairs lo, pairs hi, upd, pairs_append lo hi, pairs_lt_of_splits hsp,
    pairs_ge_of_splits hsp, by rw [hhead]; exact h1, fun i hil => (h3 i hil).on_heap hrep, ?_⟩
  have hlo : ∀ c ∈ lo, 1 ≤ c.height := fun c hc => (hrep.height c (by simp [hc])).1
  have hhi : ∀ c ∈ hi, 1 ≤ c.height := fun c hc => (hrep.height c (by simp [hc])).1
  obtain ⟨a, c, hdec, hu, _⟩ := (h3 0 hrep.level_pos).zero hlo
  have hF : hcell sl.header :: (lo ++ hi) = a ++ c :: hi := by
    rw [← List.cons_append, hdec]; simp
  have hc0 : 0 < c.height := by
    cases a with
    | nil =>
      simp at hdec
      rw [← hdec.1]; show 0 < SKIPLIST_MAXLEVEL; decide
    | cons a0 a =>
      simp at hdec
      exact hlo c (by rw [hdec.2]; simp)
  have hent := hrep.shape.entry hF hc0 hrep.level_pos
  refine ⟨c.ptr, hu, ?_, ?_⟩
  · cases a with
    | nil =>
      simp at hdec
      rw [← hdec.1, hdec.2]
      rfl
    | cons a0 a =>
      simp at hdec
      obtain ⟨x, hx⟩ := hrep.vals c (by rw [hdec.2]; simp)
      have : pairs lo = pairs a ++ [(c.ptr, x)] := by
        rw [hdec.2, pairs_split a [] c x hx]; rfl
      rw [this, List.getLast?_concat]
      rfl
  · unfold Next
    rw [hent, Option.map_some', link_zero hi hhi, hhead]

theorem C18_witness :
    chain exDup = some [(2, 5), (1, 5)] ∧
    ∃ pre post upd, [((2 : Nat), (5 : Nat)), (1, 5)] = pre ++ post ∧
      (∀ q ∈ pre, lessNat q.2 7 = true) ∧ (∀ q ∈ post, lessNat q.2 7 = false) ∧
      find lessNat exDup 7 = some (post.head?.map Prod.fst, { exDup with update := upd }) ∧
      (∀ i, i < exDup.level → ∃ u hu, upd[i]? = some (some u) ∧
        getHeight exDup.heap u = some hu ∧ i < hu ∧
        ((u = exDup.header ∧
            ∀ q ∈ pre, ∀ hq, getHeight exDup.heap q.1 = some hq → hq ≤ i) ∨
         (∃ p1 x p2, pre = p1 ++ (u, x) :: p2 ∧
            ∀ q ∈ p2, ∀ hq, getHeight exDup.heap q.1 = some hq → hq ≤ i))) ∧
      (∃ u0, upd[0]? = some (some u0) ∧
        u0 = (pre.getLast?.map Prod.fst).getD exDup.header ∧
        Next exDup.heap u0 = some (post.head?.map Prod.fst)) :=
  ⟨by rfl, C18_find_descent lessNat_strictWeak exDup_reachable 7 [(2, 5), (1, 5)] (by rfl)⟩

/-! ## The list level, the backward chain and the spans -/

theorem pairs_nil_iff {α : Type} {L : List (Cell α)} (hv : ∀ c ∈ L, ∃ a, c.val = some a) :
    pairs L = [] ↔ L = [] := by
  constructor
  · intro h
    have := pairs_length hv
    rw [h] at this
    exact List.length_eq_zero.mp this.symm
  · rintro rfl; rfl

theorem Rep.header_entry {α : Type} {sl : SkipList α} {L : List (Cell α)} (h : Rep sl L)
    {i : Nat} (hi : i < SKIPLIST_MAXLEVEL) :
    ∃ l, getLevel sl.heap sl.header i = some l ∧ l.forward = (link i L).forward := by
  obtain ⟨_, _, _, h4⟩ := h.shape [] (hcell sl.header) L rfl
  obtain ⟨l, h5, h6, _⟩ := h4 i hi
  exact ⟨l, h5, h6⟩

theorem Rep.top_cell {α : Type} {sl : SkipList α} {L : List (Cell α)} (h : Rep sl L)
    (hne : L ≠ []) : ∃ c ∈ L, c.height = sl.level := by
  rcases h.level_max with h1 | h1
  · cases L with
    | nil => exact absurd rfl hne
    | cons c t =>
      have := h.height c (by simp)
      exact ⟨c, by simp, by omega⟩
  · exact h1

/-- C14: in every reachable state: `1 <= level <= 32`; `level` is 1 when the list is
empty; every node on the level-0 chain has a height between 1 and `level`, and when
the list is non-empty some node on the chain has height exactly `level` (so `level`
is the maximum height in use); `header.level[i].forward` is `nil` for every
`level <= i < 32`, and it is a node for every `i < level` when the list is non-empty.
(The comparator is a strict weak order.) -/
theorem C14_level_is_max_height {α : Type} [DecidableEq α] {less : α → α → Bool}
    (hsw : StrictWeak less) {sl : SkipList α} (hr : Reachable less sl)
    (ps : List (Nat × α)) (hps : chain sl = some ps) :
    1 ≤ sl.level ∧ sl.level ≤ SKIPLIST_MAXLEVEL ∧
    (ps = [] → sl.level = 1) ∧
    (∀ q ∈ ps, ∃ hq, getHeight sl.heap q.1 = some hq ∧ 1 ≤ hq ∧ hq ≤ sl.level) ∧
    (ps ≠ [] → ∃ q ∈ ps, getHeight sl.heap q.1 = some sl.level) ∧
    (∀ i, sl.level ≤ i → i < SKIPLIST_MAXLEVEL →
      ∃ l, getLevel sl.heap sl.header i = some l ∧ l.forward = none) ∧
    (ps ≠ [] → ∀ i, i < sl.level →
      ∃ l f, getLevel sl.heap sl.header i = some l ∧ l.forward = some f) := by
  obtain ⟨L, hrep, _⟩ := reachable_rep hsw hr
  have hps' : ps = pairs L := by
    rw [hrep.chain_eq] at hps; exact (Option.some.inj hps).symm
  subst hps'
  have hne : pairs L ≠ [] → L ≠ [] := fun h1 h2 => h1 ((pairs_nil_iff hrep.vals).mpr h2)
  refine ⟨hrep.level_pos, hrep.level_le, ?_, ?_, ?_, ?_, ?_⟩
  · intro h0
    have hL := (pairs_nil_iff hrep.vals).mp h0
    rcases hrep.level_max with h1 | ⟨c, hc, _⟩
    · exact h1
    · rw [hL] at hc; simp at hc
  · intro q hq
    obtain ⟨c, hc, _, hp⟩ := mem_pairs.mp hq
    have h1 := hrep.height_of_mem (c := c) (by simp [hc])
    have h2 := hrep.height c hc
    exact ⟨c.height, by rw [← hp]; exact h1, h2.1, h2.2⟩
  · intro h0
    obtain ⟨c, hc, hh⟩ := hrep.top_cell (hne h0)
    obtain ⟨x, hx⟩ := hrep.vals c hc
    refine ⟨(c.ptr, x), mem_pairs.mpr ⟨c, hc, hx, rfl⟩, ?_⟩
    have h1 := hrep.height_of_mem (c := c) (by simp [hc])
    rw [hh] at h1
    exact h1
  · intro i h1 h2
    obtain ⟨l, h3, h4⟩ := hrep.header_entry h2
    refine ⟨l, h3, ?_⟩
    rw [h4, link_forward_none]
    intro e he
    have := (hrep.height e he).2
    omega
  · intro h0 i hil
    obtain ⟨l, h3, h4⟩ := hrep.header_entry (i := i) (by have := hrep.level_le; omega)
    obtain ⟨c, hc, hh⟩ := hrep.top_cell (hne h0)
    cases hf : l.forward with
    | some f => exact ⟨l, f, h3, hf⟩
    | none =>
      rw [h4, link_forward_none] at hf
      have := hf c hc
      omega

theorem C14_witness :
    chain exDup = some [(2, 5), (1, 5)] ∧
    1 ≤ exDup.level ∧ exDup.level ≤ SKIPLIST_MAXLEVEL ∧
    ([((2 : Nat), (5 : Nat)), (1, 5)] = [] → exDup.level = 1) ∧
    (∀ q ∈ [((2 : Nat), (5 : Nat)), (1, 5)],
      ∃ hq, getHeight exDup.heap q.1 = some hq ∧ 1 ≤ hq ∧ hq ≤ exDup.level) ∧
    ([((2 : Nat), (5 : Nat)), (1, 5)] ≠ [] →
      ∃ q ∈ [((2 : Nat), (5 : Nat)), (1, 5)], getHeight exDup.heap q.1 = some exDup.level) ∧
    (∀ i, exDup.level ≤ i → i < SKIPLIST_MAXLEVEL →
      ∃ l, getLevel exDup.heap exDup.header i = some l ∧ l.forward = none) ∧
    ([((2 : Nat), (5 : Nat)), (1, 5)] ≠ [] → ∀ i, i < exDup.level →
      ∃ l f, getLevel exDup.heap exDup.header i = some l ∧ l.forward = some f) :=
  ⟨by rfl, C14_level_is_max_height lessNat_strictWeak exDup_reachable [(2, 5), (1, 5)] (by rfl)⟩

theorem walkBack_spec {α : Type} {heap : Heap α} {hdr lvl : Nat} {L : List (Cell α)}
    (hs : Shape heap hdr lvl L) :
    ∀ (A B : List (Cell α)) (fuel : Nat), L = A ++ B → A.length ≤ fuel →
      walkBack heap fuel (A.getLast?.map Cell.ptr) = some (A.map Cell.ptr).reverse := by
  intro A
  induction A using List.reverseRecOn with
  | nil =>
    intro B fuel _ _
    cases fuel <;> rfl
  | append_singleton A c ih =>
    intro B fuel hL hf
    cases fuel with
    | zero => simp at hf
    | succ fuel =>
      simp only [List.length_append, List.length_singleton] at hf
      have hsplit : hcell hdr :: L = (hcell hdr :: A) ++ c :: B := by rw [hL]; simp
      obtain ⟨_, hp, _, _⟩ := hs _ c B hsplit
      rw [prevOf_cons] at hp
      have := ih (c :: B) fuel (by rw [hL]; simp) (by omega)
      rw [List.getLast?_concat, Option.map_some']
      simp only [walkBack, hp, this]
      simp

theorem spanSum_spec {α : Type} {heap : Heap α} {hdr lvl : Nat} {L : List (Cell α)}
    (hs : Shape heap hdr lvl L) (hl : 1 ≤ lvl) (hh : ∀ c ∈ L, 1 ≤ c.height) :
    ∀ (b a : List (Cell α)) (c : Cell α) (fuel : Nat), hcell hdr :: L = a ++ c :: b →
      b.length < fuel → spanSum heap fuel (some c.ptr) = some (b.length : Int) := by
  intro b
  induction b with
  | nil =>
    intro a c fuel hF hf
    cases fuel with
    | zero => simp at hf
    | succ fuel =>
      have hc : 0 < c.height := by
        rcases hcell_split hF with ⟨_, h2, _⟩ | ⟨a', _, h2⟩
        · rw [h2]; show 0 < SKIPLIST_MAXLEVEL; decide
        · exact hh c (by rw [h2]; simp)
      have hent := hs.entry hF hc hl
      simp only [spanSum, hent, link_nil]
      cases fuel <;> simp [spanSum]
  | cons d b ih =>
    intro a c fuel hF hf
    cases fuel with
    | zero => simp at hf
    | succ fuel =>
      simp only [List.length_cons] at hf
      have hc : 0 < c.height := by
        rcases hcell_split hF with ⟨_, h2, _⟩ | ⟨a', _, h2⟩
        · rw [h2]; show 0 < SKIPLIST_MAXLEVEL; decide
        · exact hh c (by rw [h2]; simp)
      have hd : 0 < d.height := by
        rcases hcell_split hF with ⟨_, _, h2⟩ | ⟨a', _, h2⟩
        · exact hh d (by rw [← h2]; simp)
        · exact hh d (by rw [h2]; simp)
      have hent := hs.entry hF hc hl
      rw [link_cons, if_pos hd] at hent
      have := ih (a ++ [c]) d fuel (by rw [hF]; simp) (by omega)
      simp only [spanSum, hent, this, List.length_cons]
      simp
      omega

theorem pairs_getLast {α : Type} {L : List (Cell α)} (hv : ∀ c ∈ L, ∃ a, c.val = some a) :
    (pairs L).getLast?.map Prod.fst = L.getLast?.map Cell.ptr := by
  induction L using List.reverseRecOn with
  | nil => rfl
  | append_singleton A c _ =>
    obtain ⟨x, hx⟩ := hv c (by simp)
    rw [pairs_split A [] c x hx]
    have : pairs A ++ (c.ptr, x) :: pairs [] = pairs A ++ [(c.ptr, x)] := rfl
    rw [this, List.getLast?_concat, List.getLast?_concat]
    rfl

/-- C12: in every reachable state: `Back()` is the last node of the level-0 chain, and
`nil` exactly when the list is empty; the `backward` link of the first node is `nil`;
for every node `n` with level-0 successor `m`, `m.backward == n`; and the walk
`Back()`, `Prev()`, `Prev()`, ... ends and visits exactly the nodes of the level-0 chain in
reverse order. (The comparator is a strict weak order.) -/
theorem C12_backward_chain {α : Type} [DecidableEq α] {less : α → α → Bool}
    (hsw : StrictWeak less) {sl : SkipList α} (hr : Reachable less sl)
    (ps : List (Nat × α)) (hps : chain sl = some ps) :
    Back sl = ps.getLast?.map Prod.fst ∧ (Back sl = none ↔ ps = []) ∧
    (∀ q, ps.head? = some q → Prev sl.heap q.1 = some none) ∧
    (∀ i n m, ps[i]? = some n → ps[i + 1]? = some m →
      Next sl.heap n.1 = some (some m.1) ∧ Prev sl.heap m.1 = some (some n.1)) ∧
    backChain sl = some (ps.map Prod.fst).reverse := by
  obtain ⟨L, hrep, _⟩ := reachable_rep hsw hr
  have hps' : ps = pairs L := by
    rw [hrep.chain_eq] at hps; exact (Option.some.inj hps).symm
  subst hps'
  have hback : Back sl = (pairs L).getLast?.map Prod.fst := by
    rw [pairs_getLast hrep.vals]; exact hrep.tail
  refine ⟨hback, ?_, ?_, ?_, ?_⟩
  · rw [hback]
    cases h : (pairs L) using List.reverseRecOn with
    | nil => simp
    | append_singleton A c _ => simp
  · intro q hq
    cases L with
    | nil => simp [pairs] at hq
    | cons c t =>
      obtain ⟨x, hx⟩ := hrep.vals c (by simp)
      rw [pairs_cons c t x hx] at hq
      simp only [List.head?_cons, Option.some.injEq] at hq
      subst hq
      obtain ⟨_, hp, _, _⟩ := hrep.shape [hcell sl.header] c t rfl
      exact hp
  · intro i n m hn hm
    obtain ⟨lo, e, hi, hL, hlen, hep, hev⟩ := pairs_index hrep.vals (p := m.1) (x := m.2) hm
    have hlo : lo ≠ [] := by
      intro h0; rw [h0] at hlen; simp at hlen
    obtain ⟨A, d, rfl⟩ : ∃ A d, lo = A ++ [d] := by
      cases lo using List.reverseRecOn with
      | nil => exact absurd rfl hlo
      | append_singleton A d _ => exact ⟨A, d, rfl⟩
    simp only [List.length_append, List.length_singleton, add_left_inj] at hlen
    have hL2 : L = A ++ d :: (e :: hi) := by rw [hL]; simp
    obtain ⟨y, hy⟩ := hrep.vals d (by rw [hL2]; simp)
    have hA : ∀ c ∈ A, ∃ a, c.val = some a := fun c hc => hrep.vals c (by rw [hL2]; simp [hc])
    have hmid := pairs_getElem_mid (A := A) (B := e :: hi) hA hy
    rw [← hL2, hlen, hn] at hmid
    have hn1 : n.1 = d.ptr := by rw [Option.some.inj hmid]
    have hF : hcell sl.header :: L = (hcell sl.header :: A) ++ d :: (e :: hi) := by
      rw [hL2]; simp
    have hF2 : hcell sl.header :: L = (hcell sl.header :: (A ++ [d])) ++ e :: hi := by
      rw [hL]; simp
    have hd1 := (hrep.height d (by rw [hL2]; simp)).1
    have he1 := (hrep.height e (by rw [hL]; simp)).1
    constructor
    · unfold Next
      rw [hn1, hrep.shape.entry hF (by omega) hrep.level_pos, link_cons, if_pos (by omega),
        ← hep]
      rfl
    · obtain ⟨_, hp, _, _⟩ := hrep.shape _ e hi hF2
      have hps : prevOf (hcell sl.header :: (A ++ [d])) = some d.ptr := by
        have := prevOf_snoc (hcell sl.header :: A) d (by simp)
        simpa using this
      rw [← hep, hp, hps, hn1]
  · unfold backChain Back
    rw [hrep.tail, walkBack_spec hrep.shape L [] sl.heap.length (by simp)
      (Nat.le_of_lt (hrep.shape.length_lt hrep.nodup)), pairs_map_fst hrep.vals]

theorem C12_witness :
    chain exDup = some [(2, 5), (1, 5)] ∧
    Back exDup = [((2 : Nat), (5 : Nat)), (1, 5)].getLast?.map Prod.fst ∧
    (Back exDup = none ↔ [((2 : Nat), (5 : Nat)), (1, 5)] = []) ∧
    (∀ q, [((2 : Nat), (5 : Nat)), (1, 5)].head? = some q → Prev exDup.heap q.1 = some none) ∧
    (∀ i n m, [((2 : Nat), (5 : Nat)), (1, 5)][i]? = some n →
      [((2 : Nat), (5 : Nat)), (1, 5)][i + 1]? = some m →
      Next exDup.heap n.1 = some (some m.1) ∧ Prev exDup.heap m.1 = some (some n.1)) ∧
    backChain exDup = some ([((2 : Nat), (5 : Nat)), (1, 5)].map Prod.fst).reverse :=
  ⟨by rfl, C12_backward_chain lessNat_strictWeak exDup_reachable [(2, 5), (1, 5)] (by rfl)⟩

/-- C13: in every reachable state, with the header at position 0 and the nodes of the
level-0 chain at positions 1, 2, ...: for every node `n` at position `pn` and every
level `i` below the list level at which `n` has an entry (`i` below the height of `n`),
either `n.level[i].forward` is `nil` and `n.level[i].span` is the number of nodes after
`n`, or `n.level[i].forward` is the node at a later position `pm` and
`n.level[i].span == pm - pn`; and the level-0 spans from the header to the end sum to
`Len()`. (The comparator is a strict weak order.) -/
theorem C13_span_counts_links {α : Type} [DecidableEq α] {less : α → α → Bool}
    (hsw : StrictWeak less) {sl : SkipList α} (hr : Reachable less sl)
    (ps : List (Nat × α)) (hps : chain sl = some ps) :
    (∀ (pn n i : Nat) (l : skiplistLevel), (sl.header :: ps.map Prod.fst)[pn]? = some n → i < sl.level →
      getLevel sl.heap n i = some l →
      (l.forward = none ∧ l.span = (ps.length : Int) - (pn : Int)) ∨
      (∃ pm m : Nat, l.forward = some m ∧ (sl.header :: ps.map Prod.fst)[pm]? = some m ∧
        pn < pm ∧ l.span = (pm : Int) - (pn : Int))) ∧
    spanSum sl.heap sl.heap.length (some sl.header) = some (Len sl) := by
  obtain ⟨L, hrep, _⟩ := reachable_rep hsw hr
  have hps' : ps = pairs L := by
    rw [hrep.chain_eq] at hps; exact (Option.some.inj hps).symm
  subst hps'
  have hns : sl.header :: (pairs L).map Prod.fst = (hcell sl.header :: L).map Cell.ptr := by
    rw [pairs_map_fst hrep.vals]; rfl
  constructor
  · intro pn n i l hn hil hl
    rw [hns] at hn ⊢
    rw [List.getElem?_map] at hn
    cases hc : (hcell sl.header :: L)[pn]? with
    | none => rw [hc] at hn; simp at hn
    | some c =>
      rw [hc] at hn
      simp only [Option.map_some', Option.some.injEq] at hn
      obtain ⟨hlt, hget⟩ := List.getElem?_eq_some_iff.mp hc
      have hF : hcell sl.header :: L =
          (hcell sl.header :: L).take pn ++ c :: (hcell sl.header :: L).drop (pn + 1) := by
        rw [← hget, ← List.drop_eq_getElem_cons hlt, List.take_append_drop]
      have hta : ((hcell sl.header :: L).take pn).length = pn := by
        rw [List.length_take]; omega
      have hdr : ((hcell sl.header :: L).drop (pn + 1)).length + pn + 1 = L.length + 1 := by
        rw [List.length_drop]; simp only [List.length_cons] at hlt ⊢; omega
      generalize (hcell sl.header :: L).take pn = a at hF hta
      generalize (hcell sl.header :: L).drop (pn + 1) = b at hF hdr
      have hcm : c ∈ hcell sl.header :: L := by rw [hF]; simp
      have hch : i < c.height := by
        have h1 := hrep.height_of_mem hcm
        rw [hn] at h1
        unfold getLevel at hl
        unfold getHeight at h1
        cases hh : sl.heap[n]? with
        | none => rw [hh] at hl; simp at hl
        | some nd =>
          rw [hh] at hl h1
          simp only [Option.map_some', Option.some.injEq] at h1
          have := (List.getElem?_eq_some_iff.mp hl).1
          omega
      have hent := hrep.shape.entry hF hch hil
      rw [hn, hl] at hent
      have hl' : l = link i b := Option.some.inj hent
      rw [pairs_length hrep.vals]
      rcases first_above i b with h1 | ⟨b1, c', b2, h1, h2, h3⟩
      · left
        refine ⟨by rw [hl']; exact (link_forward_none i b).mpr h1, ?_⟩
        rw [hl', link_none_span i b h1]
        omega
      · right
        refine ⟨pn + 1 + b1.length, c'.ptr, ?_, ?_, by omega, ?_⟩
        · rw [hl', h1, link_first i b1 c' b2 h2 h3]
        · rw [List.getElem?_map, hF, h1]
          have : a ++ c :: (b1 ++ c' :: b2) = (a ++ c :: b1) ++ c' :: b2 := by simp
          rw [this, List.getElem?_append_right (by simp; omega)]
          simp [hta]
          have : pn + 1 + b1.length - (pn + (b1.length + 1)) = 0 := by omega
          rw [this]; exact ⟨c', by simp, rfl⟩
        · rw [hl', h1, link_first i b1 c' b2 h2 h3]
          push_cast
          ring
  · have := spanSum_spec hrep.shape hrep.level_pos (fun c hc => (hrep.height c hc).1)
      L [] (hcell sl.header) sl.heap.length rfl (hrep.shape.length_lt hrep.nodup)
    rw [show (hcell sl.header : Cell α).ptr = sl.header from rfl] at this
    rw [this]
    show some (L.length : Int) = some sl.length
    rw [hrep.length]

theorem C13_witness :
    chain exDup = some [(2, 5), (1, 5)] ∧
    (∀ (pn n i : Nat) (l : skiplistLevel), (exDup.header :: [((2 : Nat), (5 : Nat)), (1, 5)].map Prod.fst)[pn]? = some n →
      i < exDup.level → getLevel exDup.heap n i = some l →
      (l.forward = none ∧
        l.span = ([((2 : Nat), (5 : Nat)), (1, 5)].length : Int) - (pn : Int)) ∨
      (∃ pm m : Nat, l.forward = some m ∧
        (exDup.header :: [((2 : Nat), (5 : Nat)), (1, 5)].map Prod.fst)[pm]? = some m ∧
        pn < pm ∧ l.span = (pm : Int) - (pn : Int))) ∧
    spanSum exDup.heap exDup.heap.length (some exDup.header) = some (Len exDup) :=
  ⟨by rfl, C13_span_counts_links lessNat_strictWeak exDup_reachable [(2, 5), (1, 5)] (by rfl)⟩

/-! ## The key index -/

theorem mapGet_filter_ne {α : Type} [DecidableEq α] (m : List (α × Nat)) (k k' : α)
    (h : k ≠ k') : mapGet (m.filter (fun e => decide (e.1 ≠ k))) k' = mapGet m k' := by
  induction m with
  | nil => rfl
  | cons e m ih =>
    obtain ⟨a, p⟩ := e
    by_cases ha : a = k
    · have hne : a ≠ k' := by rw [ha]; exact h
      rw [List.filter_cons_of_neg (by simp [ha]), ih]
      simp only [mapGet, if_neg hne]
    · rw [List.filter_cons_of_pos (by simp [ha])]
      simp only [mapGet, ih]

theorem mapGet_mapSet {α : Type} [DecidableEq α] (m : List (α × Nat)) (k k' : α) (p : Nat) :
    mapGet (mapSet m k p) k' = if k = k' then some p else mapGet m k' := by
  unfold mapSet
  by_cases h : k = k'
  · simp only [mapGet, if_pos h]
  · simp only [mapGet, if_neg h, mapGet_filter_ne m k k' h]

theorem insertTrace_spec {α : Type} [DecidableEq α] {less : α → α → Bool}
    (hsw : StrictWeak less) :
    ∀ (ops : List (α × List Nat)) (sl : SkipList α) (L : List (Cell α)),
      Rep sl L → WSorted less L →
      (∀ op ∈ ops, ∃ h, randomLevel op.2 = some h) →
      ∃ xs sl' L', insertTrace less sl ops = some (xs, sl') ∧ Rep sl' L' ∧ WSorted less L' ∧
        xs.length = ops.length ∧ (∀ c ∈ L, c ∈ L') ∧
        (∀ k, k ∉ ops.map Prod.fst → mapGet sl'.nodes k = mapGet sl.nodes k) ∧
        (∀ pre k rnd post, ops = pre ++ (k, rnd) :: post → k ∉ post.map Prod.fst →
          ∃ n h, xs[pre.length]? = some n ∧ mapGet sl'.nodes k = some n ∧
            (⟨n, some k, h⟩ : Cell α) ∈ L') := by
  intro ops
  induction ops with
  | nil =>
    intro sl L hrep hs _
    refine ⟨[], sl, L, rfl, hrep, hs, rfl, fun c hc => hc, fun k _ => rfl, ?_⟩
    intro pre k rnd post h0
    simp at h0
  | cons op ops ih =>
    intro sl L hrep hs hrnd
    obtain ⟨v, rnd⟩ := op
    obtain ⟨h, hh⟩ := hrnd (v, rnd) (by simp)
    obtain ⟨lo, hi, rfl, hsp⟩ := exists_splits hsw hrep.vals hs v
    obtain ⟨sl1, g1, g2, _, g4, _, _, _⟩ := Insert_spec less v hrep hsp hh
    have hs1 := WSorted.insert_weak hsw hs hsp sl.heap.length h
    obtain ⟨xs, sl', L', e1, e2, e3, e4, e5, e6, e7⟩ :=
      ih sl1 _ g2 hs1 (fun op hop => hrnd op (by simp [hop]))
    refine ⟨sl.heap.length :: xs, sl', L', ?_, e2, e3, by simp [e4], ?_, ?_, ?_⟩
    · simp only [insertTrace, g1, e1]
    · intro c hc
      apply e5
      rcases List.mem_append.mp hc with h1 | h1
      · simp [h1]
      · simp [h1]
    · intro k hk
      have hk1 : v ≠ k := fun h0 => hk (by simp [h0])
      have hk2 : k ∉ ops.map Prod.fst := fun h0 => hk (by simp only [List.map_cons]; exact List.mem_cons_of_mem _ h0)
      rw [e6 k hk2, g4, mapGet_mapSet, if_neg hk1]
    · intro pre k rnd' post hsplit hk
      cases pre with
      | nil =>
        simp only [List.nil_append, List.cons.injEq, Prod.mk.injEq] at hsplit
        obtain ⟨⟨rfl, rfl⟩, rfl⟩ := hsplit
        refine ⟨sl.heap.length, h, by simp, ?_, e5 _ (by simp)⟩
        rw [e6 v hk, g4, mapGet_mapSet, if_pos rfl]
      | cons p0 pre =>
        simp only [List.cons_append, List.cons.injEq] at hsplit
        obtain ⟨n, h', f1, f2, f3⟩ := e7 pre k rnd' post hsplit.2 hk
        exact ⟨n, h', by simpa using f1, f2, f3⟩

/-- C11: for every list built from `New()` by `Insert` calls only (each call returning,
that is, the random source yielding a height for it) and every key `k`, keys being
compared by equality of the value: if `k` was not inserted, `GetNodeByKey(k)` returns
`nil` and the error "key not found"; if `k` was inserted, it returns with a `nil` error
the node that the last `Insert(k)` returned, and that node is on the level-0 chain and
its `Value` is `k`. (The comparator is a strict weak order.) -/
theorem C11_GetNodeByKey_after_inserts {α : Type} [DecidableEq α] {less : α → α → Bool}
    (hsw : StrictWeak less) (ops : List (α × List Nat))
    (hrnd : ∀ op ∈ ops, ∃ h, randomLevel op.2 = some h) :
    ∃ xs sl ps, insertTrace less New ops = some (xs, sl) ∧ xs.length = ops.length ∧
      chain sl = some ps ∧
      (∀ k, k ∉ ops.map Prod.fst → GetNodeByKey sl k = (none, some "key not found")) ∧
      (∀ pre k rnd post, ops = pre ++ (k, rnd) :: post → k ∉ post.map Prod.fst →
        ∃ n, xs[pre.length]? = some n ∧ GetNodeByKey sl k = (some n, none) ∧
          (n, k) ∈ ps ∧ getValue sl.heap n = some k) := by
  obtain ⟨xs, sl, L, e1, e2, _, e4, _, e6, e7⟩ :=
    insertTrace_spec hsw ops New [] rep_New (by simp [WSorted]) hrnd
  refine ⟨xs, sl, pairs L, e1, e4, e2.chain_eq, ?_, ?_⟩
  · intro k hk
    have := e6 k hk
    unfold GetNodeByKey
    rw [this]
    rfl
  · intro pre k rnd post hsplit hk
    obtain ⟨n, h, f1, f2, f3⟩ := e7 pre k rnd post hsplit hk
    refine ⟨n, f1, ?_, mem_pairs.mpr ⟨_, f3, rfl, rfl⟩, e2.value_of_mem f3⟩
    unfold GetNodeByKey
    rw [f2]

theorem C11_witness :
    (∀ op ∈ [((5 : Nat), [1]), (3, [0, 1]), (5, [2])], ∃ h, randomLevel op.2 = some h) ∧
    ∃ xs sl ps, insertTrace lessNat New [((5 : Nat), [1]), (3, [0, 1]), (5, [2])]
        = some (xs, sl) ∧
      xs.length = [((5 : Nat), [1]), (3, [0, 1]), (5, [2])].length ∧
      chain sl = some ps ∧
      (∀ k, k ∉ [((5 : Nat), [1]), (3, [0, 1]), (5, [2])].map Prod.fst →
        GetNodeByKey sl k = (none, some "key not found")) ∧
      (∀ pre k rnd post, [((5 : Nat), [1]), (3, [0, 1]), (5, [2])] = pre ++ (k, rnd) :: post →
        k ∉ post.map Prod.fst →
        ∃ n, xs[pre.length]? = some n ∧ GetNodeByKey sl k = (some n, none) ∧
          (n, k) ∈ ps ∧ getValue sl.heap n = some k) :=
  ⟨by
    intro op hop
    simp only [List.mem_cons, List.mem_singleton, List.not_mem_nil, or_false] at hop
    rcases hop with rfl | rfl | rfl
    · exact ⟨1, rfl⟩
    · exact ⟨2, rfl⟩
    · exact ⟨1, rfl⟩,
   C11_GetNodeByKey_after_inserts lessNat_strictWeak [(5, [1]), (3, [0, 1]), (5, [2])] (by
    intro op hop
    simp only [List.mem_cons, List.mem_singleton, List.not_mem_nil, or_false] at hop
    rcases hop with rfl | rfl | rfl
    · exact ⟨1, rfl⟩
    · exact ⟨2, rfl⟩
    · exact ⟨1, rfl⟩)⟩

/-! ## Deleting leaves the key index alone -/

theorem find_nodes {α : Type} {less : α → α → Bool} {sl sl1 : SkipList α} {v : α}
    {x : Option Nat} (h : find less sl v = some (x, sl1)) :
    sl1.nodes = sl.nodes ∧ sl1.heap = sl.heap := by
  unfold find at h
  split at h
  · simp at h
  · split at h
    · simp at h
    · simp only [Option.some.injEq, Prod.mk.injEq] at h
      rw [← h.2]
      exact ⟨rfl, rfl⟩

theorem deleteNode_nodes {α : Type} {sl sl' : SkipList α} {e : Nat} {upd : List (Option Nat)}
    (h : deleteNode sl e upd = some sl') : sl'.nodes = sl.nodes := by
  unfold deleteNode at h
  split at h
  · simp at h
  · split at h
    · split at h
      · simp at h
      · split at h
        · simp at h
        · simp only [Option.some.injEq] at h
          rw [← h]
    · simp at h

theorem Delete_nodes {α : Type} {less : α → α → Bool} {sl sl' : SkipList α} {v : α}
    {r : Option α} (h : Delete less sl v = some (r, sl')) : sl'.nodes = sl.nodes := by
  unfold Delete at h
  split at h
  · simp at h
  · next sl1 hf =>
    simp only [Option.some.injEq, Prod.mk.injEq] at h
    rw [← h.2]; exact (find_nodes hf).1
  · next x sl1 hf =>
    split at h
    · simp at h
    · split at h
      · split at h
        · simp at h
        · next sl2 hd =>
          simp only [Option.some.injEq, Prod.mk.injEq] at h
          rw [← h.2, deleteNode_nodes hd]; exact (find_nodes hf).1
      · simp only [Option.some.injEq, Prod.mk.injEq] at h
        rw [← h.2]; exact (find_nodes hf).1

theorem Remove_nodes {α : Type} {less : α → α → Bool} {sl sl' : SkipList α} {e : Nat}
    {r : Option α} (h : Remove less sl e = some (r, sl')) : sl'.nodes = sl.nodes := by
  unfold Remove at h
  split at h
  · simp at h
  · split at h
    · simp at h
    · next x sl1 hf =>
      split at h
      · split at h
        · simp at h
        · split at h
          · split at h
            · simp at h
            · next sl2 hd =>
              simp only [Option.some.injEq, Prod.mk.injEq] at h
              rw [← h.2, deleteNode_nodes hd]; exact (find_nodes hf).1
          · simp only [Option.some.injEq, Prod.mk.injEq] at h
            rw [← h.2]; exact (find_nodes hf).1
      · simp only [Option.some.injEq, Prod.mk.injEq] at h
        rw [← h.2]; exact (find_nodes hf).1

theorem Find_nodes {α : Type} {less : α → α → Bool} {sl sl' : SkipList α} {v : α}
    {r : Option Nat × Option String} (h : Find less sl v = some (r, sl')) :
    sl'.nodes = sl.nodes := by
  unfold Find at h
  split at h
  · simp at h
  · next sl1 hf =>
    simp only [Option.some.injEq, Prod.mk.injEq] at h
    rw [← h.2]; exact (find_nodes hf).1
  · next x sl1 hf =>
    split at h
    · simp at h
    · split at h
      · simp only [Option.some.injEq, Prod.mk.injEq] at h
        rw [← h.2]; exact (find_nodes hf).1
      · simp only [Option.some.injEq, Prod.mk.injEq] at h
        rw [← h.2]; exact (find_nodes hf).1

theorem cmpEq_symm {α : Type} {less : α → α → Bool} {a b : α} (h : cmpEq less a b) :
    cmpEq less b a := ⟨h.2, h.1⟩

theorem NoEq.delete_cell {α : Type} {less : α → α → Bool} {lo hi : List (Cell α)} {e : Cell α}
    (h : NoEq less (lo ++ e :: hi)) : NoEq less (lo ++ hi) :=
  List.Pairwise.sublist (List.Sublist.append (List.Sublist.refl lo) (List.sublist_cons_self e hi)) h

theorem NoEq.insert_cell {α : Type} {less : α → α → Bool} {lo hi : List (Cell α)} {v : α}
    (h : NoEq less (lo ++ hi)) (hv : ∀ c ∈ lo ++ hi, ∀ x, c.val = some x → ¬ cmpEq less x v)
    (p ht : Nat) : NoEq less (lo ++ ⟨p, some v, ht⟩ :: hi) := by
  unfold NoEq at h ⊢
  rw [List.pairwise_append] at h ⊢
  obtain ⟨h1, h2, h3⟩ := h
  refine ⟨h1, ?_, ?_⟩
  · rw [List.pairwise_cons]
    refine ⟨?_, h2⟩
    intro d hd x y hx hy
    simp only [Option.some.injEq] at hx
    subst hx
    exact fun hc => hv d (by simp [hd]) y hy (cmpEq_symm hc)
  · intro c hc d hd
    rcases List.mem_cons.mp hd with rfl | hd
    · intro x y hx hy
      simp only [Option.some.injEq] at hy
      subst hy
      exact hv c (by simp [hc]) x hx
    · exact h3 c hc d hd

theorem KeysOk.insert_key {α : Type} [DecidableEq α] {less : α → α → Bool}
    (hsw : StrictWeak less) {sl sl' : SkipList α} {lo hi : List (Cell α)} {v : α} {p ht : Nat}
    (h : KeysOk sl (lo ++ hi)) (hn : sl'.nodes = mapSet sl.nodes v p)
    (hv : ∀ c ∈ lo ++ hi, ∀ x, c.val = some x → ¬ cmpEq less x v) :
    KeysOk sl' (lo ++ ⟨p, some v, ht⟩ :: hi) := by
  intro c hc k hk
  rw [hn, mapGet_mapSet]
  have hc' : c = ⟨p, some v, ht⟩ ∨ c ∈ lo ++ hi := by
    simp only [List.mem_append, List.mem_cons] at hc ⊢
    tauto
  rcases hc' with rfl | hc'
  · simp only [Option.some.injEq] at hk
    rw [if_pos hk]
  · have hne : v ≠ k := by
      intro h0
      subst h0
      exact hv c hc' v hk ⟨hsw.irrefl v, hsw.irrefl v⟩
    rw [if_neg hne]
    exact h c hc' k hk

theorem KeysOk.of_subset {α : Type} [DecidableEq α] {sl sl' : SkipList α}
    {L L' : List (Cell α)} (h : KeysOk sl L) (hn : sl'.nodes = sl.nodes)
    (hs : ∀ c ∈ L', c ∈ L) : KeysOk sl' L' := by
  intro c hc k hk
  rw [hn]
  exact h c (hs c hc) k hk

theorem reachableU_inv {α : Type} [DecidableEq α] {less : α → α → Bool} (hsw : StrictWeak less)
    {sl : SkipList α} (h : ReachableU less sl) :
    ∃ L, Rep sl L ∧ WSorted less L ∧ NoEq less L ∧ KeysOk sl L := by
  induction h with
  | new => exact ⟨[], rep_New, List.Pairwise.nil, List.Pairwise.nil, fun c hc => by simp at hc⟩
  | init _ _ =>
    exact ⟨[], rep_Init _, List.Pairwise.nil, List.Pairwise.nil, fun c hc => by simp at hc⟩
  | @insert sl sl' v rnd x _ hnew hins ih =>
    obtain ⟨L, hrep, hsort, hne, hk⟩ := ih
    obtain ⟨lo, hi, rfl, hsp⟩ := exists_splits hsw hrep.vals hsort v
    obtain ⟨l, hl⟩ := Insert_level hins
    obtain ⟨sl2, g1, g2, _, g4, _⟩ := Insert_spec less v hrep hsp hl
    rw [g1] at hins
    simp at hins
    rw [← hins.2]
    have hv : ∀ c ∈ lo ++ hi, ∀ x, c.val = some x → ¬ cmpEq less x v := by
      intro c hc x hx
      exact hnew _ hrep.chain_eq (c.ptr, x) (mem_pairs.mpr ⟨c, hc, hx, rfl⟩)
    exact ⟨_, g2, hsort.insert_weak hsw hsp _ _, hne.insert_cell hv _ _,
      hk.insert_key hsw g4 hv⟩
  | @delete sl sl' v r _ hdel ih =>
    obtain ⟨L, hrep, hsort, hne, hk⟩ := ih
    obtain ⟨lo, hi, rfl, hsp⟩ := exists_splits hsw hrep.vals hsort v
    cases hi with
    | nil =>
      obtain ⟨upd, hu, g⟩ := Delete_notfound less v hrep hsp (by simp)
      rw [g] at hdel; simp at hdel
      rw [← hdel.2]
      exact ⟨_, hrep.set_update upd hu, hsort, hne, hk⟩
    | cons e hi' =>
      obtain ⟨x, hx⟩ := hrep.vals e (by simp)
      cases hlt : less v x with
      | false =>
        obtain ⟨sl2, g1, g2, _, g4, _⟩ := Delete_found less v hrep hsp hx hlt
        rw [g1] at hdel; simp at hdel
        rw [← hdel.2]
        refine ⟨_, g2, hsort.delete_weak, hne.delete_cell, hk.of_subset g4 ?_⟩
        intro c hc
        simp only [List.mem_append, List.mem_cons] at hc ⊢
        tauto
      | true =>
        obtain ⟨upd, hu, g⟩ := Delete_notfound less v hrep hsp (by
          intro e' x' he' hx'
          simp at he'; subst he'
          rw [hx] at hx'
          have : x = x' := Option.some.inj hx'
          subst this; exact hlt)
        rw [g] at hdel; simp at hdel
        rw [← hdel.2]
        exact ⟨_, hrep.set_update upd hu, hsort, hne, hk⟩
  | @remove sl sl' p r _ hrem ih =>
    obtain ⟨L, hrep, hsort, hne, hk⟩ := ih
    cases hval : getValue sl.heap p with
    | none => simp [Remove, hval] at hrem
    | some ev =>
      obtain ⟨lo, hi, rfl, hsp⟩ := exists_splits hsw hrep.vals hsort ev
      by_cases hhead : hi.head?.map Cell.ptr = some p
      · cases hi with
        | nil => simp at hhead
        | cons e hi' =>
          simp at hhead
          subst hhead
          have hx : e.val = some ev := by
            rw [← hrep.value_of_mem (by simp), hval]
          obtain ⟨sl2, g1, g2, _, g4, _⟩ := Remove_first less hrep hx hsp (hsw.irrefl ev)
          rw [g1] at hrem; simp at hrem
          rw [← hrem.2]
          refine ⟨_, g2, hsort.delete_weak, hne.delete_cell, hk.of_subset g4 ?_⟩
          intro c hc
          simp only [List.mem_append, List.mem_cons] at hc ⊢
          tauto
      · obtain ⟨upd, hu, g⟩ := Remove_other less hrep hval hsp hhead
        rw [g] at hrem; simp at hrem
        rw [← hrem.2]
        exact ⟨_, hrep.set_update upd hu, hsort, hne, hk⟩
  | @find sl sl' v r _ hfind ih =>
    obtain ⟨L, hrep, hsort, hne, hk⟩ := ih
    obtain ⟨lo, hi, rfl, hsp⟩ := exists_splits hsw hrep.vals hsort v
    cases hi with
    | nil =>
      obtain ⟨upd, hu, g⟩ := Find_notfound less v hrep hsp (by simp)
      rw [g] at hfind; simp at hfind
      rw [← hfind.2]
      exact ⟨_, hrep.set_update upd hu, hsort, hne, hk⟩
    | cons e hi' =>
      obtain ⟨x, hx⟩ := hrep.vals e (by simp)
      cases hlt : less v x with
      | false =>
        obtain ⟨upd, hu, g⟩ := Find_found less v hrep hsp hx hlt
        rw [g] at hfind; simp at hfind
        rw [← hfind.2]
        exact ⟨_, hrep.set_update upd hu, hsort, hne, hk⟩
      | true =>
        obtain ⟨upd, hu, g⟩ := Find_notfound less v hrep hsp (by
          intro e' x' he' hx'
          simp at he'; subst he'
          rw [hx] at hx'
          have : x = x' := Option.some.inj hx'
          subst this; exact hlt)
        rw [g] at hfind; simp at hfind
        rw [← hfind.2]
        exact ⟨_, hrep.set_update upd hu, hsort, hne, hk⟩

/-- The position of a stored value among pairwise comparator-distinct sorted values. -/
theorem splits_at_cell {α : Type} {less : α → α → Bool} (hsw : StrictWeak less)
    {A B : List (Cell α)} {c : Cell α} {v : α} (hv : ∀ d ∈ A ++ c :: B, ∃ a, d.val = some a)
    (hc : c.val = some v) (hsort : WSorted less (A ++ c :: B)) (hne : NoEq less (A ++ c :: B)) :
    Splits less v A (c :: B) ∧ Splits less v A B ∧
    ∀ e x, B.head? = some e → e.val = some x → less v x = true := by
  unfold WSorted at hsort
  unfold NoEq at hne
  rw [List.pairwise_append] at hsort hne
  obtain ⟨_, s2, s3⟩ := hsort
  obtain ⟨_, n2, n3⟩ := hne
  rw [List.pairwise_cons] at s2 n2
  have hA : ∀ d ∈ A, ∃ a, d.val = some a ∧ less a v = true := by
    intro d hd
    obtain ⟨a, ha⟩ := hv d (by simp [hd])
    refine ⟨a, ha, ?_⟩
    have h1 := s3 d hd c (by simp) a v ha hc
    have h2 := n3 d hd c (by simp) a v ha hc
    cases h : less a v with
    | true => rfl
    | false => exact absurd ⟨h, h1⟩ h2
  have hB : ∀ d ∈ B, ∃ a, d.val = some a ∧ less a v = false ∧ less v a = true := by
    intro d hd
    obtain ⟨a, ha⟩ := hv d (by simp [hd])
    have h1 := s2.1 d hd v a hc ha
    have h2 := n2.1 d hd v a hc ha
    refine ⟨a, ha, h1, ?_⟩
    cases h : less v a with
    | true => rfl
    | false => exact absurd ⟨h, h1⟩ h2
  refine ⟨⟨hA, ?_⟩, ⟨hA, fun d hd => ?_⟩, ?_⟩
  · intro d hd
    rcases List.mem_cons.mp hd with rfl | hd
    · exact ⟨v, hc, hsw.irrefl v⟩
    · obtain ⟨a, h1, h2, _⟩ := hB d hd
      exact ⟨a, h1, h2⟩
  · obtain ⟨a, h1, h2, _⟩ := hB d hd
    exact ⟨a, h1, h2⟩
  · intro e x he hx
    have hm : e ∈ B := List.mem_of_mem_head? he
    obtain ⟨a, h1, _, h3⟩ := hB e hm
    rw [hx] at h1
    rw [Option.some.inj h1]
    exact h3

theorem exOne_reachableU : ReachableU lessNat exOne :=
  ReachableU.insert ReachableU.new
    (by
      intro ps hps q hq
      have h0 : chain (New : SkipList Nat) = some [] := by rfl
      rw [h0] at hps
      rw [← Option.some.inj hps] at hq
      simp at hq)
    exOne_eq

/-- C16 (counterexample): after `Insert(5)` twice (nodes `1` and `2`, node `2` first on
the chain), `Delete(5)` removes node `2` and `GetNodeByKey(5)` still returns node `2`,
but `Find(5)` does not report "node not found": it returns node `1`, which holds a
comparator-equal value. -/
theorem C16_counterexample :
    Reachable lessNat exDup ∧ chain exDup = some [(2, 5), (1, 5)] ∧
    (Delete lessNat exDup 5).map (fun r =>
        (r.1, GetNodeByKey r.2 5, chain r.2, (Find lessNat r.2 5).map Prod.fst)) =
      some (some 5, (some 2, none), some [(1, 5)], some (some 1, none)) :=
  ⟨exDup_reachable, by rfl, by rfl⟩

/-- C16: `Delete` and `Remove` never change the key index. On a list whose
caller keeps the values unique (`Insert(v)` only when no stored value is
comparator-equal to `v`), for every stored value `v` held by node `n`: `Delete(v)` and
`Remove(n)` both succeed and return `v`, and afterwards `GetNodeByKey(v)` still returns
`n` with a `nil` error although `n` is no longer on the level-0 chain and `Find(v)`
reports "node not found". (The comparator is a strict weak order.) -/
theorem C16_key_index_kept {α : Type} [DecidableEq α] {less : α → α → Bool}
    (hsw : StrictWeak less) {sl : SkipList α} (hu : ReachableU less sl)
    (ps : List (Nat × α)) (hps : chain sl = some ps) (n : Nat) (v : α) (hmem : (n, v) ∈ ps) :
    (∀ w r sl', Delete less sl w = some (r, sl') → sl'.nodes = sl.nodes) ∧
    (∀ e r sl', Remove less sl e = some (r, sl') → sl'.nodes = sl.nodes) ∧
    (∃ sl' ps' upd, Delete less sl v = some (some v, sl') ∧
      GetNodeByKey sl' v = (some n, none) ∧
      chain sl' = some ps' ∧ n ∉ ps'.map Prod.fst ∧
      Find less sl' v = some ((none, some "node not found"), { sl' with update := upd })) ∧
    (∃ sl' ps' upd, Remove less sl n = some (some v, sl') ∧
      GetNodeByKey sl' v = (some n, none) ∧
      chain sl' = some ps' ∧ n ∉ ps'.map Prod.fst ∧
      Find less sl' v = some ((none, some "node not found"), { sl' with update := upd })) := by
  obtain ⟨L, hrep, hsort, hne, hk⟩ := reachableU_inv hsw hu
  have hps' : ps = pairs L := by
    rw [hrep.chain_eq] at hps; exact (Option.some.inj hps).symm
  subst hps'
  obtain ⟨c, hc, hcv, hcp⟩ := mem_pairs.mp hmem
  simp only at hcv hcp
  obtain ⟨A, B, rfl⟩ := List.append_of_mem hc
  obtain ⟨sp1, sp2, hno⟩ := splits_at_cell hsw hrep.vals hcv hsort hne
  have hkey : mapGet sl.nodes v = some n := by rw [← hcp]; exact hk c hc v hcv
  have hnot : n ∉ (pairs (A ++ B)).map Prod.fst := by
    have hv' : ∀ d ∈ A ++ B, ∃ a, d.val = some a := by
      intro d hd
      apply hrep.vals d
      simp only [List.mem_append, List.mem_cons] at hd ⊢
      tauto
    rw [pairs_map_fst hv', ← hcp]
    have hnd := hrep.nodup
    rw [List.map_cons, List.nodup_cons, List.map_append, List.map_cons,
      List.nodup_middle] at hnd
    rw [List.map_append]
    exact (List.nodup_cons.mp hnd.2).1
  have after : ∀ sl' : SkipList α, Rep sl' (A ++ B) → sl'.nodes = sl.nodes →
      ∃ ps' upd, GetNodeByKey sl' v = (some n, none) ∧
        chain sl' = some ps' ∧ n ∉ ps'.map Prod.fst ∧
        Find less sl' v =
          some ((none, some "node not found"), { sl' with update := upd }) := by
    intro sl' hrep' hn'
    obtain ⟨upd, _, hf⟩ := Find_notfound less v hrep' sp2 hno
    refine ⟨pairs (A ++ B), upd, ?_, hrep'.chain_eq, hnot, hf⟩
    unfold GetNodeByKey
    rw [hn', hkey]
  refine ⟨fun w r sl' h => Delete_nodes h, fun e r sl' h => Remove_nodes h, ?_, ?_⟩
  · obtain ⟨sl', g1, g2, _, g4, _⟩ := Delete_found less v hrep sp1 hcv (hsw.irrefl v)
    obtain ⟨ps', upd, f1, f2, f3, f4⟩ := after sl' g2 g4
    exact ⟨sl', ps', upd, g1, f1, f2, f3, f4⟩
  · obtain ⟨sl', g1, g2, _, g4, _⟩ := Remove_first less hrep hcv sp1 (hsw.irrefl v)
    rw [hcp] at g1
    obtain ⟨ps', upd, f1, f2, f3, f4⟩ := after sl' g2 g4
    exact ⟨sl', ps', upd, g1, f1, f2, f3, f4⟩

theorem C16_witness :
    chain exOne = some [(1, 5)] ∧ ((1 : Nat), (5 : Nat)) ∈ [((1 : Nat), (5 : Nat))] ∧
    (∀ w r sl', Delete lessNat exOne w = some (r, sl') → sl'.nodes = exOne.nodes) ∧
    (∀ e r sl', Remove lessNat exOne e = some (r, sl') → sl'.nodes = exOne.nodes) ∧
    (∃ sl' ps' upd, Delete lessNat exOne 5 = some (some 5, sl') ∧
      GetNodeByKey sl' 5 = (some 1, none) ∧
      chain sl' = some ps' ∧ 1 ∉ ps'.map Prod.fst ∧
      Find lessNat sl' 5 =
        some ((none, some "node not found"), { sl' with update := upd })) ∧
    (∃ sl' ps' upd, Remove lessNat exOne 1 = some (some 5, sl') ∧
      GetNodeByKey sl' 5 = (some 1, none) ∧
      chain sl' = some ps' ∧ 1 ∉ ps'.map Prod.fst ∧
      Find lessNat sl' 5 =
        some ((none, some "node not found"), { sl' with update := upd })) :=
  ⟨by rfl, by simp,
   C16_key_index_kept lessNat_strictWeak exOne_reachableU [(1, 5)] (by rfl) 1 5 (by simp)⟩

/-! ## Safety: every operation returns on a reachable list -/

theorem insertLevel_update {α : Type} [DecidableEq α] {sl : SkipList α} {lo hi : List (Cell α)}
    (less : α → α → Bool) (v : α) (h : Nat)
    (hrep : Rep sl (lo ++ hi)) (hsp : Splits less v lo hi) (h32 : h ≤ SKIPLIST_MAXLEVEL)
    {x : Nat} {sl' : SkipList α} (hrun : insertLevel less sl v h = some (x, sl')) :
    ∃ rk, ∀ j, j < sl'.level → UpdAt (hcell sl.header :: lo) sl'.update rk j := by
  obtain ⟨x0, upd0, rk0, e1, hu0, hr0, hupd0, _⟩ :=
    insertDescend_spec less v hrep.shape hrep.nodup hrep.level_pos hrep.level_le hsp
      sl.update sl.rank hrep.update_len hrep.rank_len
  obtain ⟨heap1, upd, rk, e2, _, _, _, _, hupd⟩ := raise_or_keep h hrep h32 hu0 hr0 hupd0
  unfold insertLevel at hrun
  rw [e1] at hrun
  simp only [] at hrun
  rw [e2] at hrun
  simp only [] at hrun
  refine ⟨rk, ?_⟩
  split at hrun
  · simp at hrun
  · split at hrun
    · simp at hrun
    · split at hrun
      · split at hrun
        · simp at hrun
        · split at hrun
          · simp at hrun
          · split at hrun
            · split at hrun
              · simp at hrun
              · simp only [Option.some.injEq, Prod.mk.injEq] at hrun
                rw [← hrun.2]
                exact hupd
            · simp only [Option.some.injEq, Prod.mk.injEq] at hrun
              rw [← hrun.2]
              exact hupd
      · simp at hrun

theorem UpdAt.height_gt {α : Type} {sl : SkipList α} {L lo : List (Cell α)}
    {upd : List (Option Nat)} {rk : List Int} {i : Nat}
    (hrep : Rep sl L) (hsub : ∀ c ∈ lo, c ∈ L) (h : UpdAt (hcell sl.header :: lo) upd rk i) :
    ∃ u hu, upd[i]? = some (some u) ∧ getHeight sl.heap u = some hu ∧ i < hu := by
  obtain ⟨a, c, b, hdec, hc, _, hu, _⟩ := h
  have hcm : c ∈ hcell sl.header :: L := by
    have : c ∈ hcell sl.header :: lo := by rw [hdec]; simp
    rcases List.mem_cons.mp this with h1 | h1
    · rw [h1]; simp
    · exact List.mem_cons_of_mem _ (hsub c h1)
  exact ⟨c.ptr, c.height, hu, hrep.height_of_mem hcm, hc⟩

/-- Every forward pointer at level `i` leads to a node with more than `i` levels. -/
theorem Rep.forward_height {α : Type} {sl : SkipList α} {L : List (Cell α)} (hrep : Rep sl L)
    {c : Cell α} (hc : c ∈ hcell sl.header :: L) {i : Nat} (hi1 : i < c.height)
    {l : skiplistLevel} (hl : getLevel sl.heap c.ptr i = some l) {e : Nat}
    (hf : l.forward = some e) : ∃ he, getHeight sl.heap e = some he ∧ i < he := by
  obtain ⟨a, b, hab⟩ := List.append_of_mem hc
  obtain ⟨_, _, _, h4⟩ := hrep.shape a c b hab
  obtain ⟨l', h5, h6, _⟩ := h4 i hi1
  rw [hl] at h5
  rw [← Option.some.inj h5, hf] at h6
  obtain ⟨b1, c', b2, hb, _, hc', hp, _⟩ := link_forward_some i b e h6.symm
  refine ⟨c'.height, ?_, hc'⟩
  rw [← hp]
  exact hrep.height_of_mem (by rw [hab, hb]; simp)

theorem Delete_total {α : Type} {less : α → α → Bool} {sl : SkipList α} {L : List (Cell α)}
    (hsw : StrictWeak less) (hrep : Rep sl L) (hsort : WSorted less L) (v : α) :
    ∃ r sl', Delete less sl v = some (r, sl') := by
  obtain ⟨lo, hi, rfl, hsp⟩ := exists_splits hsw hrep.vals hsort v
  cases hi with
  | nil =>
    obtain ⟨upd, _, g⟩ := Delete_notfound less v hrep hsp (by simp)
    exact ⟨_, _, g⟩
  | cons e hi' =>
    obtain ⟨x, hx⟩ := hrep.vals e (by simp)
    cases hlt : less v x with
    | false =>
      obtain ⟨sl2, g1, _⟩ := Delete_found less v hrep hsp hx hlt
      exact ⟨_, _, g1⟩
    | true =>
      obtain ⟨upd, _, g⟩ := Delete_notfound less v hrep hsp (by
        intro e' x' he' hx'
        simp at he'; subst he'
        rw [hx] at hx'
        have : x = x' := Option.some.inj hx'
        subst this; exact hlt)
      exact ⟨_, _, g⟩

theorem Find_total {α : Type} {less : α → α → Bool} {sl : SkipList α} {L : List (Cell α)}
    (hsw : StrictWeak less) (hrep : Rep sl L) (hsort : WSorted less L) (v : α) :
    ∃ r sl', Find less sl v = some (r, sl') := by
  obtain ⟨lo, hi, rfl, hsp⟩ := exists_splits hsw hrep.vals hsort v
  cases hi with
  | nil =>
    obtain ⟨upd, _, g⟩ := Find_notfound less v hrep hsp (by simp)
    exact ⟨_, _, g⟩
  | cons e hi' =>
    obtain ⟨x, hx⟩ := hrep.vals e (by simp)
    cases hlt : less v x with
    | false =>
      obtain ⟨upd, _, g⟩ := Find_found less v hrep hsp hx hlt
      exact ⟨_, _, g⟩
    | true =>
      obtain ⟨upd, _, g⟩ := Find_notfound less v hrep hsp (by
        intro e' x' he' hx'
        simp at he'; subst he'
        rw [hx] at hx'
        have : x = x' := Option.some.inj hx'
        subst this; exact hlt)
      exact ⟨_, _, g⟩

theorem Remove_total {α : Type} {less : α → α → Bool} {sl : SkipList α} {L : List (Cell α)}
    (hsw : StrictWeak less) (hrep : Rep sl L) (hsort : WSorted less L) (p : Nat) (ev : α)
    (hval : getValue sl.heap p = some ev) : ∃ r sl', Remove less sl p = some (r, sl') := by
  obtain ⟨lo, hi, rfl, hsp⟩ := exists_splits hsw hrep.vals hsort ev
  by_cases hhead : hi.head?.map Cell.ptr = some p
  · cases hi with
    | nil => simp at hhead
    | cons e hi' =>
      simp at hhead
      subst hhead
      have hx : e.val = some ev := by
        rw [← hrep.value_of_mem (by simp), hval]
      obtain ⟨sl2, g1, _⟩ := Remove_first less hrep hx hsp (hsw.irrefl ev)
      exact ⟨_, _, g1⟩
  · obtain ⟨upd, _, g⟩ := Remove_other less hrep hval hsp hhead
    exact ⟨_, _, g⟩

theorem GetNodeByRank_total {α : Type} {sl : SkipList α} {L : List (Cell α)}
    (hrep : Rep sl L) (rank : Int) : ∃ r, GetNodeByRank sl rank = some r := by
  by_cases hneg : rank < 0
  · have hrep' : Rep sl ([] ++ L) := by simpa using hrep
    exact ⟨_, GetNodeByRank_spec hrep' rank (fun _ => rfl) (fun h => by omega)
      (fun _ => by simp; omega)⟩
  · have hrep' : Rep sl (L.take rank.toNat ++ L.drop rank.toNat) := by
      rw [List.take_append_drop]; exact hrep
    refine ⟨_, GetNodeByRank_spec hrep' rank (fun h => absurd h hneg) ?_ ?_⟩
    · intro _
      rw [List.length_take]
      omega
    · intro hne
      have : rank.toNat < L.length := by
        by_contra hc
        exact hne (List.drop_eq_nil_of_le (by omega))
      rw [List.length_take]
      omega

/-- C20: on every reachable list no operation fails (an out-of-range index or a `nil`
dereference makes the model return `none`): `Insert` returns for every value and every
height in 1..32 (so for every draw sequence on which `randomLevel` returns), and
`find`, `Delete`, `Remove` of a node that holds a value, `Find`, `GetRank` and
`GetNodeByRank` (for every rank) return. Moreover every `update[i]`, `i < level`,
left by `Insert` and every `update[i]` that `find` hands to `deleteNode` is a node with
more than `i` levels, and the node its `level[i].forward` points to also has more than
`i` levels, so `deleteNode` reads the removed node's `level[i]` only below its height.
(The comparator is a strict weak order.) -/
theorem C20_operations_are_safe {α : Type} [DecidableEq α] {less : α → α → Bool}
    (hsw : StrictWeak less) {sl : SkipList α} (hr : Reachable less sl) :
    (∀ v h, 1 ≤ h → h ≤ SKIPLIST_MAXLEVEL →
      ∃ x sl', insertLevel less sl v h = some (x, sl') ∧
        ∀ i, i < sl'.level → ∃ u hu, sl'.update[i]? = some (some u) ∧
          getHeight sl'.heap u = some hu ∧ i < hu) ∧
    (∀ v rnd h, randomLevel rnd = some h → ∃ x sl', Insert less sl v rnd = some (x, sl')) ∧
    (∀ v, ∃ x upd, find less sl v = some (x, { sl with update := upd }) ∧
      ∀ i, i < sl.level → ∃ u hu, upd[i]? = some (some u) ∧
        getHeight sl.heap u = some hu ∧ i < hu ∧
        ∀ l e, getLevel sl.heap u i = some l → l.forward = some e →
          ∃ he, getHeight sl.heap e = some he ∧ i < he) ∧
    (∀ v, ∃ r sl', Delete less sl v = some (r, sl')) ∧
    (∀ e ev, getValue sl.heap e = some ev → ∃ r sl', Remove less sl e = some (r, sl')) ∧
    (∀ v, ∃ r sl', Find less sl v = some (r, sl')) ∧
    (∀ v, ∃ r, GetRank less sl v = some r) ∧
    (∀ rank, ∃ r, GetNodeByRank sl rank = some r) := by
  obtain ⟨L, hrep, hsort⟩ := reachable_rep hsw hr
  refine ⟨?_, ?_, ?_, fun v => Delete_total hsw hrep hsort v,
    fun e ev hval => Remove_total hsw hrep hsort e ev hval,
    fun v => Find_total hsw hrep hsort v, ?_, fun rank => GetNodeByRank_total hrep rank⟩
  · intro v h h1 h32
    obtain ⟨lo, hi, rfl, hsp⟩ := exists_splits hsw hrep.vals hsort v
    obtain ⟨sl', g1, g2, g3, _⟩ := insertLevel_spec less v h hrep hsp h1 h32
    obtain ⟨rk, hupd⟩ := insertLevel_update less v h hrep hsp h32 g1
    refine ⟨_, sl', g1, fun i hil => ?_⟩
    have hu := hupd i hil
    rw [← g3] at hu
    exact hu.height_gt g2 (fun c hc => by simp [hc])
  · intro v rnd h hh
    obtain ⟨lo, hi, rfl, hsp⟩ := exists_splits hsw hrep.vals hsort v
    obtain ⟨sl', g1, _⟩ := Insert_spec less v hrep hsp hh
    exact ⟨_, sl', g1⟩
  · intro v
    obtain ⟨lo, hi, rfl, hsp⟩ := exists_splits hsw hrep.vals hsort v
    obtain ⟨upd, rk, g1, _, g3⟩ := find_spec less v hrep hsp
    refine ⟨_, upd, g1, fun i hil => ?_⟩
    obtain ⟨a, c, b, hdec, hc, _, hu, _⟩ := g3 i hil
    have hcm : c ∈ hcell sl.header :: (lo ++ hi) := by
      rw [← List.cons_append, hdec]; simp
    refine ⟨c.ptr, c.height, hu, hrep.height_of_mem hcm, hc, ?_⟩
    intro l e hl hf
    exact hrep.forward_height hcm hc hl hf
  · intro v
    obtain ⟨lo, hi, rfl, hsp⟩ := exists_splits hsw hrep.vals hsort v
    obtain ⟨r, g, _⟩ := GetRank_spec less v hrep hsp
    exact ⟨r, g⟩

theorem C20_witness :
    (∀ v h, 1 ≤ h → h ≤ SKIPLIST_MAXLEVEL →
      ∃ x sl', insertLevel lessNat exDup v h = some (x, sl') ∧
        ∀ i, i < sl'.level → ∃ u hu, sl'.update[i]? = some (some u) ∧
          getHeight sl'.heap u = some hu ∧ i < hu) ∧
    (∀ v rnd h, randomLevel rnd = some h →
      ∃ x sl', Insert lessNat exDup v rnd = some (x, sl')) ∧
    (∀ v, ∃ x upd, find lessNat exDup v = some (x, { exDup with update := upd }) ∧
      ∀ i, i < exDup.level → ∃ u hu, upd[i]? = some (some u) ∧
        getHeight exDup.heap u = some hu ∧ i < hu ∧
        ∀ l e, getLevel exDup.heap u i = some l → l.forward = some e →
          ∃ he, getHeight exDup.heap e = some he ∧ i < he) ∧
    (∀ v, ∃ r sl', Delete lessNat exDup v = some (r, sl')) ∧
    (∀ e ev, getValue exDup.heap e = some ev →
      ∃ r sl', Remove lessNat exDup e = some (r, sl')) ∧
    (∀ v, ∃ r sl', Find lessNat exDup v = some (r, sl')) ∧
    (∀ v, ∃ r, GetRank lessNat exDup v = some r) ∧
    (∀ rank, ∃ r, GetNodeByRank exDup rank = some r) :=
  C20_operations_are_safe lessNat_strictWeak exDup_reachable

end Skiplist
